import Mathlib

/-!
Shallow embedding of the 2048 game engine from `src/app/2048/page.tsx`
(the `Game2048` client component) and verification of its specification.

The JavaScript engine mutates `Tile` objects that are shared between the
`tiles` array and a 4×4 `grid` of references.  We model this aliasing
explicitly: the `tiles` list is the heap (tiles are identified by their
unique `id`), the grid stores tile ids, and every mutation of a tile goes
through `heapSet`, which updates the heap entry with the given id.  The two
`Math.random()` draws of `randomSpawn` become explicit rational parameters,
and the module-global `idSeq` counter is threaded through explicitly.
-/

namespace Game2048

/-- Board dimension, `SIZE = 4` in the source. -/
def SIZE : Nat := 4

/-- A tile as in the source: identity, position, value and animation flags. -/
structure Tile where
  id : Nat
  row : Nat
  col : Nat
  value : Nat
  spawned : Bool
  merged : Bool
deriving DecidableEq

instance : Inhabited Tile := ⟨⟨0, 0, 0, 0, false, false⟩⟩

/-- The game state as in the source. -/
structure GameState where
  tiles : List Tile
  score : Nat
  best : Nat
  won : Bool
  over : Bool
deriving DecidableEq

/-- Move directions. -/
inductive Direction where
  | up
  | down
  | left
  | right
deriving DecidableEq

/-- Row-major list of unoccupied cells (source `emptyCells`). -/
def emptyCells (tiles : List Tile) : List (Nat × Nat) :=
  let occupied := tiles.map (fun t => (t.row, t.col))
  (List.range SIZE).flatMap (fun r =>
    (List.range SIZE).filterMap (fun c =>
      if (r, c) ∈ occupied then none else some (r, c)))

/-- Source `randomSpawn`.  The two `Math.random()` draws are passed in as the
rationals `r1` (cell choice, `Math.floor(Math.random() * empties.length)`) and
`r2` (value choice, `Math.random() < 0.1 ? 4 : 2`); the global `idSeq`
counter is passed and returned explicitly. -/
def randomSpawn (r1 r2 : ℚ) (idSeq : Nat) (tiles : List Tile) : List Tile × Nat :=
  let empties := emptyCells tiles
  if empties.length = 0 then (tiles, idSeq)
  else
    let cell := empties.getD (Int.toNat ⌊r1 * (empties.length : ℚ)⌋) (0, 0)
    let value : Nat := if r2 < 1 / 10 then 4 else 2
    (tiles ++ [⟨idSeq, cell.1, cell.2, value, true, false⟩], idSeq + 1)

/-- Read a cell of a 4×4 grid represented as a list of rows. -/
def cellGet (g : List (List (Option α))) (r c : Nat) : Option α :=
  (g.getD r []).getD c none

/-- Write a cell of a 4×4 grid represented as a list of rows. -/
def cellSet (g : List (List (Option α))) (r c : Nat) (v : Option α) :
    List (List (Option α)) :=
  g.set r ((g.getD r []).set c v)

/-- `Array.from({length: SIZE}, () => Array(SIZE).fill(undefined))`. -/
def emptyGridOf (α : Type) : List (List (Option α)) :=
  List.replicate SIZE (List.replicate SIZE none)

/-- `tiles.forEach(t => grid[t.row][t.col] = f t)` on a fresh empty grid. -/
def buildGrid (f : Tile → α) (tiles : List Tile) : List (List (Option α)) :=
  tiles.foldl (fun g t => cellSet g t.row t.col (some (f t))) (emptyGridOf α)

/-- Source `canAnyMove`: an empty cell, or an equal-valued neighbour below or
to the right of some tile. -/
def canAnyMove (tiles : List Tile) : Bool :=
  if 0 < (emptyCells tiles).length then true
  else
    let grid := buildGrid (fun t => t) tiles
    (List.range SIZE).any (fun r =>
      (List.range SIZE).any (fun c =>
        match cellGet grid r c with
        | none => false
        | some t =>
          (decide (r + 1 < SIZE) &&
            (cellGet grid (r + 1) c).any (fun u => u.value == t.value)) ||
          (decide (c + 1 < SIZE) &&
            (cellGet grid r (c + 1)).any (fun u => u.value == t.value))))

/-- Dereference a tile id in the heap (the JS object referenced by the id). -/
def heapGet (tiles : List Tile) (i : Nat) : Option Tile :=
  tiles.find? (fun t => t.id == i)

/-- Mutate the tile object with id `i` (visible through every reference). -/
def heapSet (tiles : List Tile) (i : Nat) (f : Tile → Tile) : List Tile :=
  tiles.map (fun t => if t.id == i then f t else t)

/-- The traversal order of each of the four lines, leading end first
(source `lines`). -/
def lines (dir : Direction) : List (List (Nat × Nat)) :=
  match dir with
  | .left => (List.range SIZE).map (fun r => (List.range SIZE).map (fun i => (r, i)))
  | .right => (List.range SIZE).map (fun r =>
      ((List.range SIZE).map (fun i => (r, i))).reverse)
  | .up => (List.range SIZE).map (fun c => (List.range SIZE).map (fun i => (i, c)))
  | .down => (List.range SIZE).map (fun c =>
      ((List.range SIZE).map (fun i => (i, c))).reverse)

/-- The mutable state of one `move` resolution: the grid of tile ids, the
heap/array of tiles, and the accumulators of the loop. -/
structure MoveSt where
  grid : List (List (Option Nat))
  tiles : List Tile
  targetIndex : Nat
  moved : Bool
  scoreGain : Nat
  toRemove : List Nat
deriving DecidableEq

/-- The `while (grid[targetPos.r][targetPos.c])` loop, with explicit fuel
(the loop never iterates on well-formed states, see `advanceTarget_eq`). -/
def advanceTarget (g : List (List (Option Nat))) (coords : List (Nat × Nat)) :
    Nat → Nat → Nat
  | ti, 0 => ti
  | ti, fuel + 1 =>
    let tp := coords.getD ti (0, 0)
    match cellGet g tp.1 tp.2 with
    | none => ti
    | some _ => advanceTarget g coords (ti + 1) fuel

/-- The body of the per-tile loop of `move` (compress and merge one tile). -/
def stepTile (coords : List (Nat × Nat)) (st : MoveSt) (curId : Nat) : MoveSt :=
  match heapGet st.tiles curId with
  | none => st
  | some current =>
    let targetPos := coords.getD st.targetIndex (0, 0)
    let mergeTarget : Option Tile :=
      if 0 < st.targetIndex then
        let prevPos := coords.getD (st.targetIndex - 1) (0, 0)
        match (cellGet st.grid prevPos.1 prevPos.2).bind (heapGet st.tiles) with
        | some prevTile =>
          if prevTile.value == current.value && !prevTile.merged then some prevTile
          else none
        | none => none
      else none
    match mergeTarget with
    | some prevTile =>
      let prevPos := coords.getD (st.targetIndex - 1) (0, 0)
      { st with
        grid := cellSet st.grid current.row current.col none,
        moved := st.moved || !((current.row, current.col) == (prevPos.1, prevPos.2)),
        tiles := heapSet st.tiles prevTile.id
          (fun t => { t with value := t.value * 2, merged := true }),
        scoreGain := st.scoreGain + prevTile.value * 2,
        toRemove := st.toRemove ++ [current.id] }
    | none =>
      let moved1 := st.moved || !((current.row, current.col) == (targetPos.1, targetPos.2))
      let grid1 := cellSet st.grid current.row current.col none
      let ti := advanceTarget grid1 coords st.targetIndex SIZE
      let target2 := coords.getD ti (0, 0)
      { st with
        grid := cellSet grid1 target2.1 target2.2 (some curId),
        tiles := heapSet st.tiles curId
          (fun t => { t with row := target2.1, col := target2.2 }),
        moved := moved1,
        targetIndex := ti + 1 }

/-- Process one line of the move (collect its tiles leading end first, then
compress and merge them). -/
def processLine (st : MoveSt) (coords : List (Nat × Nat)) : MoveSt :=
  let lineTiles := coords.filterMap (fun p => cellGet st.grid p.1 p.2)
  if lineTiles.length = 0 then st
  else lineTiles.foldl (stepTile coords) { st with targetIndex := 0 }

/-- `prev.tiles.map(t => ({...t, merged: false, spawned: false}))`. -/
def clearFlags (tiles : List Tile) : List Tile :=
  tiles.map (fun t => { t with merged := false, spawned := false })

/-- The state of the resolver right after building the grid. -/
def initSt (tiles0 : List Tile) : MoveSt :=
  let tiles := clearFlags tiles0
  ⟨buildGrid Tile.id tiles, tiles, 0, false, 0, []⟩

/-- The whole compression/merge phase of `move` (everything before the spawn). -/
def resolve (tiles0 : List Tile) (dir : Direction) : MoveSt :=
  (lines dir).foldl processLine (initSt tiles0)

/-- The compression/merge phase restricted to the first `k` lines. -/
def resolveUpTo (tiles0 : List Tile) (dir : Direction) (k : Nat) : MoveSt :=
  ((lines dir).take k).foldl processLine (initSt tiles0)

/-- `tiles.filter(t => !toRemove.has(t.id))`: the surviving tiles. -/
def settled (st : MoveSt) : List Tile :=
  st.tiles.filter (fun t => !(st.toRemove.contains t.id))

/-- Source `move`: resolve, detect win, spawn if something moved, detect
loss, update score and best.  Returns the new state and the new `idSeq`. -/
def move (r1 r2 : ℚ) (idSeq : Nat) (prev : GameState) (dir : Direction) :
    GameState × Nat :=
  let st1 := resolve prev.tiles dir
  let filtered := settled st1
  let won := prev.won || filtered.any (fun t => decide (2048 ≤ t.value))
  let spawned := if st1.moved then randomSpawn r1 r2 idSeq filtered else (filtered, idSeq)
  let nextTiles := spawned.1
  let over := !won && !canAnyMove nextTiles
  let score := prev.score + st1.scoreGain
  let best := max prev.best score
  ({ tiles := nextTiles, score := score, best := best, won := won, over := over },
    spawned.2)

/-- Source `newGame`: reset `idSeq` to 1, seed two spawns, reset score and
flags but keep `best`. -/
def newGame (r1 r2 r3 r4 : ℚ) (s : GameState) : GameState × Nat :=
  let p1 := randomSpawn r1 r2 1 []
  let p2 := randomSpawn r3 r4 p1.2 p1.1
  ({ s with tiles := p2.1, score := 0, won := false, over := false }, p2.2)

/-- Apply a list of moves (direction plus the two random draws of each). -/
def applyMoves (p : GameState × Nat) : List (Direction × ℚ × ℚ) → GameState × Nat
  | [] => p
  | m :: ms => applyMoves (move m.2.1 m.2.2 p.2 p.1 m.1) ms

/-- The scores observed after each move of a sequence. -/
def scoresOf (p : GameState × Nat) : List (Direction × ℚ × ℚ) → List Nat
  | [] => []
  | m :: ms =>
    let q := move m.2.1 m.2.2 p.2 p.1 m.1
    q.1.score :: scoresOf q ms

/-- Well-formed boards: in-range positions, distinct ids, distinct cells. -/
def wfTiles (tiles : List Tile) : Prop :=
  (∀ t ∈ tiles, t.row < SIZE ∧ t.col < SIZE) ∧
  (tiles.map Tile.id).Nodup ∧
  (tiles.map (fun t => (t.row, t.col))).Nodup

/-- Orthogonal adjacency of two tiles, in any of the four directions. -/
def Adjacent (t u : Tile) : Prop :=
  (t.row = u.row ∧ (t.col + 1 = u.col ∨ u.col + 1 = t.col)) ∨
  (t.col = u.col ∧ (t.row + 1 = u.row ∨ u.row + 1 = t.row))

instance : DecidablePred (wfTiles) := fun _ => by
  unfold wfTiles; infer_instance

/-! ### Basic list and grid lemmas -/

theorem getD_set_self {α : Type _} (l : List α) (i : Nat) (v d : α) (h : i < l.length) :
    (l.set i v).getD i d = v := by
  simp [List.getD, List.getElem?_set_self', h]

theorem getD_set_ne {α : Type _} (l : List α) (i j : Nat) (v d : α) (h : i ≠ j) :
    (l.set i v).getD j d = l.getD j d := by
  simp [List.getD, List.getElem?_set_ne h]

theorem getD_mem {α : Type _} {l : List α} {i : Nat} (d : α) (h : i < l.length) :
    l.getD i d ∈ l := by
  rw [List.getD_eq_getElem l d h]
  exact l.getElem_mem h

theorem getD_oob {α : Type _} {l : List α} {i : Nat} (d : α) (h : l.length ≤ i) :
    l.getD i d = d := by
  simp [List.getD, List.getElem?_eq_none h]

/-- A grid has the right shape: 4 rows of 4 cells. -/
def GridDims (g : List (List (Option α))) : Prop :=
  g.length = SIZE ∧ ∀ row ∈ g, row.length = SIZE

theorem gridDims_emptyGridOf (α : Type) : GridDims (emptyGridOf α) := by
  constructor
  · simp [emptyGridOf]
  · intro row hrow
    simp only [emptyGridOf, List.mem_replicate] at hrow
    simp [hrow.2]

theorem gridDims_cellSet {g : List (List (Option α))} (h : GridDims g) (r c : Nat)
    (v : Option α) : GridDims (cellSet g r c v) := by
  obtain ⟨h1, h2⟩ := h
  constructor
  · simp [cellSet, h1]
  · intro row hrow
    by_cases hr : r < g.length
    · rcases List.mem_or_eq_of_mem_set hrow with hmem | heq
      · exact h2 row hmem
      · subst heq
        rw [List.length_set]
        exact h2 _ (getD_mem [] hr)
    · rw [cellSet, List.set_eq_of_length_le (le_of_not_lt hr)] at hrow
      exact h2 row hrow

theorem cellGet_oob {g : List (List (Option α))} (h : GridDims g) (r c : Nat)
    (hrc : SIZE ≤ r ∨ SIZE ≤ c) : cellGet g r c = none := by
  obtain ⟨h1, h2⟩ := h
  unfold cellGet
  rcases hrc with hr | hc
  · rw [getD_oob [] (by omega : g.length ≤ r)]
    simp
  · by_cases hr : r < g.length
    · have : (g.getD r []).length ≤ c := by rw [h2 _ (getD_mem [] hr)]; omega
      exact getD_oob none this
    · rw [getD_oob [] (le_of_not_lt hr)]
      simp

theorem cellGet_cellSet_self {g : List (List (Option α))} (h : GridDims g)
    {r c : Nat} (hr : r < SIZE) (hc : c < SIZE) (v : Option α) :
    cellGet (cellSet g r c v) r c = v := by
  obtain ⟨h1, h2⟩ := h
  have hrl : r < g.length := by omega
  have hcl : c < (g.getD r []).length := by
    rw [h2 _ (getD_mem [] hrl)]; omega
  unfold cellGet cellSet
  rw [getD_set_self _ _ _ _ hrl, getD_set_self _ _ _ _ hcl]

theorem cellGet_cellSet_ne {g : List (List (Option α))}
    {r c r' c' : Nat} (hne : (r, c) ≠ (r', c')) (v : Option α) :
    cellGet (cellSet g r c v) r' c' = cellGet g r' c' := by
  unfold cellGet cellSet
  by_cases hr : r = r'
  · subst hr
    have hc : c ≠ c' := by intro hcontra; exact hne (by rw [hcontra])
    by_cases hrl : r < g.length
    · rw [getD_set_self _ _ _ _ hrl, getD_set_ne _ _ _ _ _ hc]
    · rw [List.set_eq_of_length_le (le_of_not_lt hrl)]
  · rw [getD_set_ne _ _ _ _ _ hr]

/-! ### Heap lemmas -/

theorem heapGet_some {tiles : List Tile} {i : Nat} {t : Tile}
    (h : heapGet tiles i = some t) : t ∈ tiles ∧ t.id = i := by
  refine ⟨List.mem_of_find?_eq_some h, ?_⟩
  have := List.find?_some h
  simpa using this

theorem heapGet_of_mem {tiles : List Tile} (hids : (tiles.map Tile.id).Nodup)
    {t : Tile} (ht : t ∈ tiles) : heapGet tiles t.id = some t := by
  induction tiles with
  | nil => cases ht
  | cons u us ih =>
    simp only [List.map_cons, List.nodup_cons] at hids
    rcases List.mem_cons.1 ht with rfl | hmem
    · simp [heapGet]
    · have hne : u.id ≠ t.id := fun he =>
        hids.1 (he ▸ List.mem_map_of_mem Tile.id hmem)
      rw [heapGet, List.find?_cons_of_neg _ (by simp [hne])]
      exact ih hids.2 hmem

theorem tile_eq_of_id_eq {tiles : List Tile} (hids : (tiles.map Tile.id).Nodup)
    {t u : Tile} (ht : t ∈ tiles) (hu : u ∈ tiles) (h : t.id = u.id) : t = u :=
  List.inj_on_of_nodup_map hids ht hu h

theorem heapSet_map_id {tiles : List Tile} {i : Nat} {f : Tile → Tile}
    (hf : ∀ t, (f t).id = t.id) : (heapSet tiles i f).map Tile.id = tiles.map Tile.id := by
  unfold heapSet
  rw [List.map_map]
  apply List.map_congr_left
  intro t _
  simp only [Function.comp_apply]
  split <;> simp [hf]

theorem heapSet_length {tiles : List Tile} {i : Nat} {f : Tile → Tile} :
    (heapSet tiles i f).length = tiles.length := by
  simp [heapSet]

theorem find?_map_pred {α : Type _} (g : α → α) (p : α → Bool)
    (hp : ∀ a, p (g a) = p a) (l : List α) :
    (l.map g).find? p = (l.find? p).map g := by
  induction l with
  | nil => simp
  | cons a l ih =>
    by_cases ha : p a
    · rw [List.map_cons, List.find?_cons_of_pos _ (by rw [hp]; exact ha),
        List.find?_cons_of_pos _ ha, Option.map_some']
    · rw [List.map_cons, List.find?_cons_of_neg _ (by rw [hp]; simpa using ha),
        List.find?_cons_of_neg _ (by simpa using ha), ih]

theorem heapGet_heapSet {tiles : List Tile} {i : Nat} {f : Tile → Tile}
    (hf : ∀ t, (f t).id = t.id) (j : Nat) :
    heapGet (heapSet tiles i f) j =
      if j = i then (heapGet tiles j).map f else heapGet tiles j := by
  unfold heapGet heapSet
  rw [find?_map_pred _ _ (fun a => by by_cases h : a.id = i <;> simp [h, hf])]
  rcases hfind : tiles.find? (fun t => t.id == j) with _ | t
  · rw [hfind]
    simp
  · rw [hfind]
    have hid : t.id = j := by simpa using List.find?_some hfind
    by_cases hji : j = i
    · subst hji
      simp [hid]
    · have : ¬ t.id = i := by omega
      simp [this, hji]

theorem heapGet_cons_self {u : Tile} {us : List Tile} : heapGet (u :: us) u.id = some u := by
  simp [heapGet]

theorem heapGet_cons_ne {u : Tile} {us : List Tile} {i : Nat} (hne : u.id ≠ i) :
    heapGet (u :: us) i = heapGet us i := by
  rw [heapGet, heapGet]
  exact List.find?_cons_of_neg _ (by simp [hne])

theorem heapGet_eq_none {tiles : List Tile} {i : Nat} (h : i ∉ tiles.map Tile.id) :
    heapGet tiles i = none := by
  rw [heapGet, List.find?_eq_none]
  intro t ht hbeq
  exact h ((by simpa using hbeq : t.id = i) ▸ List.mem_map_of_mem Tile.id ht)

theorem heap_ext {tiles tiles' : List Tile}
    (hids : tiles.map Tile.id = tiles'.map Tile.id)
    (hnd : (tiles.map Tile.id).Nodup)
    (h : ∀ i, heapGet tiles i = heapGet tiles' i) : tiles = tiles' := by
  induction tiles generalizing tiles' with
  | nil => cases tiles' <;> simp_all
  | cons u us ih =>
    cases tiles' with
    | nil => simp_all
    | cons v vs =>
      simp only [List.map_cons, List.cons.injEq] at hids
      obtain ⟨hid, hids2⟩ := hids
      simp only [List.map_cons, List.nodup_cons] at hnd
      have hu := h u.id
      have e2 : heapGet (v :: vs) u.id = some v := by
        rw [hid, heapGet_cons_self]
      rw [heapGet_cons_self, e2] at hu
      obtain rfl : u = v := by simpa using hu
      refine congrArg (List.cons u) (ih hids2 hnd.2 ?_)
      intro i
      by_cases hiu : u.id = i
      · subst hiu
        rw [heapGet_eq_none hnd.1, heapGet_eq_none (hids2 ▸ hnd.1)]
      · have := h i
        rw [heapGet_cons_ne hiu, heapGet_cons_ne hiu] at this
        exact this

/-! ### buildGrid and emptyCells characterizations -/

theorem cellGet_emptyGridOf (α : Type) (r c : Nat) : cellGet (emptyGridOf α) r c = none := by
  unfold cellGet emptyGridOf
  by_cases hr : r < SIZE
  · have h1 : (List.replicate SIZE (List.replicate SIZE (none : Option α))).getD r []
        = List.replicate SIZE none := by
      rw [List.getD_eq_getElem _ _ (by simpa using hr)]
      simp
    rw [h1]
    by_cases hc : c < SIZE
    · rw [List.getD_eq_getElem _ _ (by simpa using hc)]
      simp
    · exact getD_oob none (by simpa using le_of_not_lt hc)
  · rw [getD_oob [] (by simpa using le_of_not_lt hr)]
    simp

theorem buildGrid_dims (f : Tile → α) (tiles : List Tile) : GridDims (buildGrid f tiles) := by
  unfold buildGrid
  generalize hg : emptyGridOf α = g
  have : GridDims g := hg ▸ gridDims_emptyGridOf α
  clear hg
  induction tiles generalizing g with
  | nil => exact this
  | cons t ts ih => exact ih _ (gridDims_cellSet this _ _ _)

/-- The cell test used by the grid characterizations. -/
def atCell (r c : Nat) (t : Tile) : Bool :=
  t.row == r && t.col == c

theorem cellGet_build_aux (f : Tile → α) (tiles : List Tile) (g : List (List (Option α)))
    (hg : GridDims g) (hrange : ∀ t ∈ tiles, t.row < SIZE ∧ t.col < SIZE) (r c : Nat) :
    cellGet (tiles.foldl (fun g t => cellSet g t.row t.col (some (f t))) g) r c =
      match tiles.reverse.find? (atCell r c) with
      | some t => some (f t)
      | none => cellGet g r c := by
  induction tiles generalizing g with
  | nil => simp
  | cons t ts ih =>
    rw [List.foldl_cons, ih _ (gridDims_cellSet hg _ _ _)
      (fun u hu => hrange u (List.mem_cons_of_mem t hu))]
    rw [List.reverse_cons, List.find?_append]
    rcases hfind : ts.reverse.find? (atCell r c) with _ | u
    · simp only [Option.none_or]
      by_cases hp : atCell r c t
      · have hrc : t.row = r ∧ t.col = c := by simpa [atCell] using hp
        rw [List.find?_cons_of_pos _ hp]
        show cellGet (cellSet g t.row t.col (some (f t))) r c = some (f t)
        rw [← hrc.1, ← hrc.2]
        exact cellGet_cellSet_self hg (hrange t (List.mem_cons_self t ts)).1
          (hrange t (List.mem_cons_self t ts)).2 _
      · have hne : ¬ (t.row = r ∧ t.col = c) := by simpa [atCell] using hp
        rw [List.find?_cons_of_neg _ hp, List.find?_nil]
        show cellGet (cellSet g t.row t.col (some (f t))) r c = cellGet g r c
        refine cellGet_cellSet_ne ?_ _
        simp only [ne_eq, Prod.mk.injEq]
        exact fun h => hne ⟨h.1, h.2⟩
    · rfl

theorem buildGrid_get_some_of {f : Tile → α} {tiles : List Tile}
    (hrange : ∀ t ∈ tiles, t.row < SIZE ∧ t.col < SIZE) {r c : Nat} {x : α}
    (h : cellGet (buildGrid f tiles) r c = some x) :
    ∃ t ∈ tiles, t.row = r ∧ t.col = c ∧ f t = x := by
  rw [buildGrid, cellGet_build_aux f tiles _ (gridDims_emptyGridOf α) hrange] at h
  rcases hfind : tiles.reverse.find? (atCell r c) with _ | u
  · rw [hfind, cellGet_emptyGridOf] at h
    cases h
  · rw [hfind] at h
    have hmem : u ∈ tiles := List.mem_reverse.1 (List.mem_of_find?_eq_some hfind)
    have hcell : u.row = r ∧ u.col = c := by simpa [atCell] using List.find?_some hfind
    exact ⟨u, hmem, hcell.1, hcell.2, by simpa using h⟩

theorem buildGrid_get_of_mem {f : Tile → α} {tiles : List Tile}
    (hpos : (tiles.map (fun t => (t.row, t.col))).Nodup)
    (hrange : ∀ t ∈ tiles, t.row < SIZE ∧ t.col < SIZE) {t : Tile} (ht : t ∈ tiles) :
    cellGet (buildGrid f tiles) t.row t.col = some (f t) := by
  rw [buildGrid, cellGet_build_aux f tiles _ (gridDims_emptyGridOf α) hrange]
  rcases hfind : tiles.reverse.find? (atCell t.row t.col) with _ | u
  · exfalso
    rw [List.find?_eq_none] at hfind
    exact hfind t (List.mem_reverse.2 ht) (by simp [atCell])
  · have hmem : u ∈ tiles := List.mem_reverse.1 (List.mem_of_find?_eq_some hfind)
    have hcell : u.row = t.row ∧ u.col = t.col := by simpa [atCell] using List.find?_some hfind
    have : u = t := by
      have := List.inj_on_of_nodup_map hpos hmem ht (by simp [hcell.1, hcell.2])
      exact this
    rw [this]

theorem buildGrid_get_none_iff {f : Tile → α} {tiles : List Tile}
    (hrange : ∀ t ∈ tiles, t.row < SIZE ∧ t.col < SIZE) {r c : Nat} :
    cellGet (buildGrid f tiles) r c = none ↔ ∀ t ∈ tiles, ¬(t.row = r ∧ t.col = c) := by
  rw [buildGrid, cellGet_build_aux f tiles _ (gridDims_emptyGridOf α) hrange]
  rcases hfind : tiles.reverse.find? (atCell r c) with _ | u
  · constructor
    · intro _ t ht hcell
      rw [List.find?_eq_none] at hfind
      exact hfind t (List.mem_reverse.2 ht) (by simp [atCell, hcell.1, hcell.2])
    · intro _
      exact cellGet_emptyGridOf α r c
  · constructor
    · intro h
      exact absurd h (by simp)
    · intro hall
      exfalso
      refine hall u (List.mem_reverse.1 (List.mem_of_find?_eq_some hfind)) ?_
      simpa [atCell] using List.find?_some hfind

theorem mem_emptyCells {tiles : List Tile} {r c : Nat} :
    (r, c) ∈ emptyCells tiles ↔
      r < SIZE ∧ c < SIZE ∧ ∀ t ∈ tiles, ¬(t.row = r ∧ t.col = c) := by
  unfold emptyCells
  simp only [List.mem_flatMap, List.mem_filterMap, List.mem_range]
  constructor
  · rintro ⟨r', hr', c', hc', hite⟩
    by_cases hocc : (r', c') ∈ tiles.map (fun t => (t.row, t.col))
    · rw [if_pos hocc] at hite
      cases hite
    · rw [if_neg hocc] at hite
      obtain ⟨rfl, rfl⟩ : r' = r ∧ c' = c := by
        have := hite
        exact ⟨congrArg Prod.fst (Option.some.inj this),
          congrArg Prod.snd (Option.some.inj this)⟩
      refine ⟨hr', hc', fun t ht hcell => hocc ?_⟩
      rw [List.mem_map]
      exact ⟨t, ht, by simp [hcell.1, hcell.2]⟩
  · rintro ⟨hr, hc, hfree⟩
    refine ⟨r, hr, c, hc, ?_⟩
    rw [if_neg, Option.some.injEq]
    rw [List.mem_map]
    rintro ⟨t, ht, hcell⟩
    exact hfree t ht ⟨congrArg Prod.fst hcell, congrArg Prod.snd hcell⟩

/-- The sixteen board cells. -/
def allCells : List (Nat × Nat) :=
  (List.range SIZE).flatMap (fun r => (List.range SIZE).map (fun c => (r, c)))

theorem mem_allCells {r c : Nat} : (r, c) ∈ allCells ↔ r < SIZE ∧ c < SIZE := by
  unfold allCells
  simp only [List.mem_flatMap, List.mem_map, List.mem_range]
  constructor
  · rintro ⟨r', hr', c', hc', heq⟩
    obtain ⟨rfl, rfl⟩ : r' = r ∧ c' = c :=
      ⟨congrArg Prod.fst heq, congrArg Prod.snd heq⟩
    exact ⟨hr', hc'⟩
  · rintro ⟨hr, hc⟩
    exact ⟨r, hr, c, hc, rfl⟩

theorem tiles_length_le_sixteen {tiles : List Tile} (hw : wfTiles tiles) :
    tiles.length ≤ 16 := by
  obtain ⟨hrange, _, hpos⟩ := hw
  have hsub : tiles.map (fun t => (t.row, t.col)) ⊆ allCells := by
    intro p hp
    rw [List.mem_map] at hp
    obtain ⟨t, ht, rfl⟩ := hp
    exact mem_allCells.2 ⟨(hrange t ht).1, (hrange t ht).2⟩
  have := (hpos.subperm hsub).length_le
  simpa using this

theorem sixteen_le_of_emptyCells_nil {tiles : List Tile} (hw : wfTiles tiles)
    (h : emptyCells tiles = []) : 16 ≤ tiles.length := by
  obtain ⟨hrange, _, hpos⟩ := hw
  have hsub : allCells ⊆ tiles.map (fun t => (t.row, t.col)) := by
    intro p hp
    obtain ⟨r, c⟩ := p
    have hrc := mem_allCells.1 hp
    by_contra hnot
    have : (r, c) ∈ emptyCells tiles := by
      refine mem_emptyCells.2 ⟨hrc.1, hrc.2, fun t ht hcell => hnot ?_⟩
      rw [List.mem_map]
      exact ⟨t, ht, by simp [hcell.1, hcell.2]⟩
    rw [h] at this
    cases this
  have hnd : allCells.Nodup := by decide
  have := (hnd.subperm hsub).length_le
  have hlen : allCells.length = 16 := by decide
  rw [hlen] at this
  simpa using this

theorem emptyCells_ne_nil_of_length_lt {tiles : List Tile} (hw : wfTiles tiles)
    (h : tiles.length < 16) : emptyCells tiles ≠ [] := by
  intro hnil
  have := sixteen_le_of_emptyCells_nil hw hnil
  omega

/-! ### The mid-move consistency invariant -/

/-- Consistency of a state of the resolver: ids are unique, the grid is well
shaped, the grid holds exactly the alive (not merged-away) tiles at their
current positions, and removed ids exist in the heap. -/
structure Inv (st : MoveSt) : Prop where
  ids : (st.tiles.map Tile.id).Nodup
  dims : GridDims st.grid
  alive : ∀ t ∈ st.tiles, t.id ∉ st.toRemove →
    t.row < SIZE ∧ t.col < SIZE ∧ cellGet st.grid t.row t.col = some t.id
  gridSound : ∀ r c i, cellGet st.grid r c = some i →
    ∃ t ∈ st.tiles, t.id = i ∧ t.id ∉ st.toRemove ∧ t.row = r ∧ t.col = c
  removedSub : ∀ i ∈ st.toRemove, i ∈ st.tiles.map Tile.id

theorem Inv.heapAlive {st : MoveSt} (h : Inv st) {t : Tile} (ht : t ∈ st.tiles) :
    heapGet st.tiles t.id = some t :=
  heapGet_of_mem h.ids ht

theorem Inv.posInj {st : MoveSt} (h : Inv st) {t u : Tile} (ht : t ∈ st.tiles)
    (hu : u ∈ st.tiles) (hat : t.id ∉ st.toRemove) (hau : u.id ∉ st.toRemove)
    (hcell : t.row = u.row ∧ t.col = u.col) : t = u := by
  have h1 := (h.alive t ht hat).2.2
  have h2 := (h.alive u hu hau).2.2
  rw [hcell.1, hcell.2] at h1
  rw [h1] at h2
  exact tile_eq_of_id_eq h.ids ht hu (Option.some.inj h2)

/-! ### The pure line model

The imperative per-line loop is summarized by a pure fold: its state records
the placed tiles (already holding their final position, value and merge
flag), the score gained, the consumed ids, and the moved flag.  The input of
each step is a line tile together with the index in `coords` of the cell
where it currently sits. -/

structure PState where
  placed : List Tile
  score : Nat
  removed : List Nat
  movedF : Bool
deriving DecidableEq

/-- Place the current tile at the next target slot. -/
def purePlace (coords : List (Nat × Nat)) (ps : PState) (p : Tile × Nat) : PState :=
  { placed := ps.placed ++ [{ p.1 with
      row := (coords.getD ps.placed.length (0, 0)).1,
      col := (coords.getD ps.placed.length (0, 0)).2 }],
    score := ps.score,
    removed := ps.removed,
    movedF := ps.movedF || decide (¬ p.2 = ps.placed.length) }

/-- One step of the pure line model: merge with the last placed tile when
possible, otherwise place at the next free slot. -/
def pureStep (coords : List (Nat × Nat)) (ps : PState) (p : Tile × Nat) : PState :=
  match ps.placed.getLast? with
  | some e =>
    if e.value = p.1.value ∧ e.merged = false then
      { placed := ps.placed.dropLast ++ [{ e with value := e.value * 2, merged := true }],
        score := ps.score + e.value * 2,
        removed := ps.removed ++ [p.1.id],
        movedF := true }
    else purePlace coords ps p
  | none => purePlace coords ps p

def pureFold (coords : List (Nat × Nat)) (ps : PState) (l : List (Tile × Nat)) : PState :=
  l.foldl (pureStep coords) ps

theorem pureFold_nil (coords : List (Nat × Nat)) (ps : PState) :
    pureFold coords ps [] = ps := rfl

theorem pureFold_cons (coords : List (Nat × Nat)) (ps : PState) (p : Tile × Nat)
    (l : List (Tile × Nat)) :
    pureFold coords ps (p :: l) = pureFold coords (pureStep coords ps p) l := rfl

theorem pureStep_removed_grows (coords : List (Nat × Nat)) (ps : PState) (p : Tile × Nat) :
    ∃ ex, (pureStep coords ps p).removed = ps.removed ++ ex := by
  unfold pureStep purePlace
  rcases ps.placed.getLast? with _ | e
  · exact ⟨[], by simp⟩
  · dsimp only
    by_cases h : e.value = p.1.value ∧ e.merged = false
    · rw [if_pos h]
      exact ⟨[p.1.id], rfl⟩
    · rw [if_neg h]
      exact ⟨[], by simp⟩

theorem pureFold_removed_grows (coords : List (Nat × Nat)) (ps : PState)
    (l : List (Tile × Nat)) : ∃ ex, (pureFold coords ps l).removed = ps.removed ++ ex := by
  induction l generalizing ps with
  | nil => exact ⟨[], by simp [pureFold_nil]⟩
  | cons p l ih =>
    rw [pureFold_cons]
    obtain ⟨ex1, h1⟩ := pureStep_removed_grows coords ps p
    obtain ⟨ex2, h2⟩ := ih (pureStep coords ps p)
    exact ⟨ex1 ++ ex2, by rw [h2, h1, List.append_assoc]⟩

theorem pureStep_movedF_mono (coords : List (Nat × Nat)) (ps : PState) (p : Tile × Nat)
    (h : ps.movedF = true) : (pureStep coords ps p).movedF = true := by
  unfold pureStep purePlace
  rcases ps.placed.getLast? with _ | e
  · simp [h]
  · dsimp only
    by_cases hc : e.value = p.1.value ∧ e.merged = false
    · rw [if_pos hc]
    · rw [if_neg hc]
      simp [h]

theorem pureFold_movedF_mono (coords : List (Nat × Nat)) (ps : PState)
    (l : List (Tile × Nat)) (h : ps.movedF = true) :
    (pureFold coords ps l).movedF = true := by
  induction l generalizing ps with
  | nil => exact h
  | cons p l ih =>
    rw [pureFold_cons]
    exact ih _ (pureStep_movedF_mono coords ps p h)

theorem pureStep_movedF_back (coords : List (Nat × Nat)) (ps : PState) (p : Tile × Nat)
    (h : (pureStep coords ps p).movedF = false) : ps.movedF = false := by
  by_contra hne
  rw [pureStep_movedF_mono coords ps p (by simpa using hne)] at h
  cases h

/-- If one step did not move, it was a placement of the tile back on its own
cell, and the pure state is extended by that tile verbatim. -/
theorem pureStep_no_move (coords : List (Nat × Nat)) (ps : PState) (p : Tile × Nat)
    (hcell : (p.1.row, p.1.col) = coords.getD p.2 (0, 0))
    (h : (pureStep coords ps p).movedF = false) :
    pureStep coords ps p = { ps with placed := ps.placed ++ [p.1] } := by
  have hplace : pureStep coords ps p = purePlace coords ps p := by
    unfold pureStep
    rcases hl : ps.placed.getLast? with _ | e
    · rfl
    · dsimp only
      by_cases hc : e.value = p.1.value ∧ e.merged = false
      · exfalso
        have hT : (pureStep coords ps p).movedF = true := by
          unfold pureStep
          rw [hl]
          dsimp only
          rw [if_pos hc]
        rw [hT] at h
        cases h
      · rw [if_neg hc]
  rw [hplace] at h ⊢
  unfold purePlace at h ⊢
  simp only [Bool.or_eq_false_iff, decide_eq_false_iff_not, not_not] at h
  obtain ⟨hm, hidx⟩ := h
  rw [hidx] at hcell
  rw [← hcell, hm, hidx]
  simp

/-- If the whole line did not move, nothing merged and every tile was placed
back on its own cell: the pure state is extended by the input tiles verbatim. -/
theorem pureFold_no_move (coords : List (Nat × Nat)) (l : List (Tile × Nat)) (ps : PState)
    (hcells : ∀ p ∈ l, (p.1.row, p.1.col) = coords.getD p.2 (0, 0))
    (h : (pureFold coords ps l).movedF = false) :
    (pureFold coords ps l).placed = ps.placed ++ l.map (fun p => p.1) ∧
    (pureFold coords ps l).score = ps.score ∧
    (pureFold coords ps l).removed = ps.removed := by
  induction l generalizing ps with
  | nil => simp [pureFold_nil]
  | cons p l ih =>
    rw [pureFold_cons] at h ⊢
    have hstepF : (pureStep coords ps p).movedF = false := by
      by_contra hne
      rw [pureFold_movedF_mono coords _ l (by simpa using hne)] at h
      cases h
    have hstep := pureStep_no_move coords ps p (hcells p (List.mem_cons_self p l)) hstepF
    rw [hstep] at h ⊢
    obtain ⟨h1, h2, h3⟩ := ih _ (fun q hq => hcells q (List.mem_cons_of_mem p hq)) h
    refine ⟨?_, h2, h3⟩
    rw [h1]
    simp

/-! ### Unfolding equations for `stepTile` -/

theorem advanceTarget_stop (g : List (List (Option Nat))) (coords : List (Nat × Nat))
    (ti fuel : Nat) (hf : 0 < fuel)
    (h : cellGet g (coords.getD ti (0, 0)).1 (coords.getD ti (0, 0)).2 = none) :
    advanceTarget g coords ti fuel = ti := by
  cases fuel with
  | zero => omega
  | succ n =>
    unfold advanceTarget
    dsimp only
    rw [h]

theorem stepTile_merge_eq (coords : List (Nat × Nat)) (st : MoveSt)
    {curId pid : Nat} {current prevTile : Tile}
    (hcur : heapGet st.tiles curId = some current)
    (hti : 0 < st.targetIndex)
    (hgrid : cellGet st.grid (coords.getD (st.targetIndex - 1) (0, 0)).1
      (coords.getD (st.targetIndex - 1) (0, 0)).2 = some pid)
    (hheap : heapGet st.tiles pid = some prevTile)
    (hval : prevTile.value = current.value)
    (hmer : prevTile.merged = false) :
    stepTile coords st curId =
      { st with
        grid := cellSet st.grid current.row current.col none,
        moved := st.moved || !((current.row, current.col) ==
          ((coords.getD (st.targetIndex - 1) (0, 0)).1,
           (coords.getD (st.targetIndex - 1) (0, 0)).2)),
        tiles := heapSet st.tiles prevTile.id
          (fun t => { t with value := t.value * 2, merged := true }),
        scoreGain := st.scoreGain + prevTile.value * 2,
        toRemove := st.toRemove ++ [current.id] } := by
  unfold stepTile
  rw [hcur]
  dsimp only
  rw [if_pos hti, hgrid]
  dsimp only [Option.bind]
  rw [hheap]
  dsimp only
  rw [if_pos (by simp [hval, hmer])]

theorem stepTile_place_zero_eq (coords : List (Nat × Nat)) (st : MoveSt)
    {curId : Nat} {current : Tile}
    (hcur : heapGet st.tiles curId = some current)
    (hti : st.targetIndex = 0)
    (hfree : cellGet (cellSet st.grid current.row current.col none)
      (coords.getD st.targetIndex (0, 0)).1 (coords.getD st.targetIndex (0, 0)).2 = none) :
    stepTile coords st curId =
      { st with
        grid := cellSet (cellSet st.grid current.row current.col none)
          (coords.getD st.targetIndex (0, 0)).1 (coords.getD st.targetIndex (0, 0)).2
          (some curId),
        tiles := heapSet st.tiles curId (fun t =>
          { t with row := (coords.getD st.targetIndex (0, 0)).1,
                   col := (coords.getD st.targetIndex (0, 0)).2 }),
        moved := st.moved || !((current.row, current.col) ==
          ((coords.getD st.targetIndex (0, 0)).1, (coords.getD st.targetIndex (0, 0)).2)),
        targetIndex := st.targetIndex + 1 } := by
  unfold stepTile
  rw [hcur]
  dsimp only
  rw [if_neg (by omega)]
  dsimp only
  rw [advanceTarget_stop _ _ _ _ (by simp [SIZE]) hfree]

theorem stepTile_place_nomerge_eq (coords : List (Nat × Nat)) (st : MoveSt)
    {curId pid : Nat} {current prevTile : Tile}
    (hcur : heapGet st.tiles curId = some current)
    (hti : 0 < st.targetIndex)
    (hgrid : cellGet st.grid (coords.getD (st.targetIndex - 1) (0, 0)).1
      (coords.getD (st.targetIndex - 1) (0, 0)).2 = some pid)
    (hheap : heapGet st.tiles pid = some prevTile)
    (hcond : ¬ (prevTile.value = current.value ∧ prevTile.merged = false))
    (hfree : cellGet (cellSet st.grid current.row current.col none)
      (coords.getD st.targetIndex (0, 0)).1 (coords.getD st.targetIndex (0, 0)).2 = none) :
    stepTile coords st curId =
      { st with
        grid := cellSet (cellSet st.grid current.row current.col none)
          (coords.getD st.targetIndex (0, 0)).1 (coords.getD st.targetIndex (0, 0)).2
          (some curId),
        tiles := heapSet st.tiles curId (fun t =>
          { t with row := (coords.getD st.targetIndex (0, 0)).1,
                   col := (coords.getD st.targetIndex (0, 0)).2 }),
        moved := st.moved || !((current.row, current.col) ==
          ((coords.getD st.targetIndex (0, 0)).1, (coords.getD st.targetIndex (0, 0)).2)),
        targetIndex := st.targetIndex + 1 } := by
  unfold stepTile
  rw [hcur]
  dsimp only
  rw [if_pos hti, hgrid]
  dsimp only [Option.bind]
  rw [hheap]
  dsimp only
  rw [if_neg (by
    simp only [Bool.and_eq_true, beq_iff_eq, Bool.not_eq_true']
    exact fun hcontra => hcond ⟨hcontra.1, hcontra.2⟩)]
  rw [advanceTarget_stop _ _ _ _ (by simp [SIZE]) hfree]

/-! ### More list helpers for the line invariant -/

theorem getLast?_eq_getD {α : Type _} {l : List α} (h : l ≠ []) (d : α) :
    l.getLast? = some (l.getD (l.length - 1) d) := by
  have hlen : 0 < l.length := List.length_pos.2 h
  rw [List.getLast?_eq_getElem?, List.getD_eq_getElem _ _ (by omega),
    List.getElem?_eq_getElem (by omega)]

theorem getD_ne_of_nodup {α : Type _} {l : List α} (hnd : l.Nodup) {i j : Nat}
    (hi : i < l.length) (hj : j < l.length) (hne : i ≠ j) (d : α) :
    l.getD i d ≠ l.getD j d := by
  rw [List.getD_eq_getElem _ _ hi, List.getD_eq_getElem _ _ hj]
  intro he
  exact hne ((List.Nodup.getElem_inj_iff hnd).1 he)

theorem getD_dropLast {α : Type _} {l : List α} {i : Nat} (h : i < l.length - 1) (d : α) :
    l.dropLast.getD i d = l.getD i d := by
  rw [List.getD_eq_getElem _ _ (by simp; omega), List.getD_eq_getElem _ _ (by omega)]
  exact List.getElem_dropLast l i _

theorem mem_heapSet_iff {tiles : List Tile} {i : Nat} {f : Tile → Tile} {u : Tile} :
    u ∈ heapSet tiles i f ↔ ∃ t ∈ tiles, u = if t.id = i then f t else t := by
  unfold heapSet
  rw [List.mem_map]
  constructor
  · rintro ⟨t, ht, rfl⟩
    exact ⟨t, ht, by by_cases h : t.id = i <;> simp [h]⟩
  · rintro ⟨t, ht, rfl⟩
    exact ⟨t, ht, by by_cases h : t.id = i <;> simp [h]⟩

/-! ### The line invariant -/

/-- Well-formedness of a line's coordinates. -/
def WfLine (coords : List (Nat × Nat)) : Prop :=
  coords.Nodup ∧ (∀ p ∈ coords, p.1 < SIZE ∧ p.2 < SIZE) ∧ coords.length = SIZE

/-- The simulation relation between the imperative state in the middle of a
line (`st`, reached from `st0`), the pure summary `ps` of the processed
prefix, and the remaining line tiles `rem`, each paired with the index in
`coords` of the cell where it sits. -/
structure LineInv (coords : List (Nat × Nat)) (st0 st : MoveSt) (ps : PState)
    (rem : List (Tile × Nat)) : Prop where
  inv : Inv st
  ti : st.targetIndex = ps.placed.length
  placedLen : ps.placed.length + rem.length ≤ coords.length
  placedAt : ∀ j, j < ps.placed.length →
    heapGet st.tiles (ps.placed.getD j default).id = some (ps.placed.getD j default) ∧
    ((ps.placed.getD j default).row, (ps.placed.getD j default).col) = coords.getD j (0, 0) ∧
    cellGet st.grid (coords.getD j (0, 0)).1 (coords.getD j (0, 0)).2
      = some (ps.placed.getD j default).id ∧
    (ps.placed.getD j default).id ∉ st.toRemove
  remIdx : rem.Pairwise (fun a b => a.2 < b.2)
  remOk : ∀ p ∈ rem, ps.placed.length ≤ p.2 ∧ p.2 < coords.length ∧
    (p.1.row, p.1.col) = coords.getD p.2 (0, 0) ∧
    heapGet st.tiles p.1.id = some p.1 ∧ p.1.id ∉ st.toRemove
  freeCells : ∀ j, ps.placed.length ≤ j → j < coords.length →
    (∀ p ∈ rem, p.2 ≠ j) →
    cellGet st.grid (coords.getD j (0, 0)).1 (coords.getD j (0, 0)).2 = none
  frameGrid : ∀ r c, (r, c) ∉ coords → cellGet st.grid r c = cellGet st0.grid r c
  frameHeap : ∀ i, i ∉ ps.placed.map Tile.id → heapGet st.tiles i = heapGet st0.tiles i
  idsEq : st.tiles.map Tile.id = st0.tiles.map Tile.id
  accRemove : st.toRemove = st0.toRemove ++ ps.removed
  accScore : st.scoreGain = st0.scoreGain + ps.score
  accMoved : st.moved = (st0.moved || ps.movedF)
  sepRemPl : ∀ i ∈ ps.removed, i ∉ ps.placed.map Tile.id

theorem Inv.ids_ne_of_ne {st : MoveSt} (hinv : Inv st) {a b : Tile} (ha : a ∈ st.tiles)
    (hb : b ∈ st.tiles) (hne : a ≠ b) : a.id ≠ b.id :=
  fun he => hne (tile_eq_of_id_eq hinv.ids ha hb he)

/-- Preservation of the line invariant under a placement step. -/
theorem lineInv_place_fields (coords : List (Nat × Nat)) (st0 st : MoveSt) (ps : PState)
    (p : Tile × Nat) (rem : List (Tile × Nat)) (hwf : WfLine coords)
    (h : LineInv coords st0 st ps (p :: rem)) :
    LineInv coords st0
      { st with
        grid := cellSet (cellSet st.grid p.1.row p.1.col none)
          (coords.getD ps.placed.length (0, 0)).1 (coords.getD ps.placed.length (0, 0)).2
          (some p.1.id),
        tiles := heapSet st.tiles p.1.id (fun t =>
          { t with row := (coords.getD ps.placed.length (0, 0)).1,
                   col := (coords.getD ps.placed.length (0, 0)).2 }),
        moved := st.moved || !((p.1.row, p.1.col) ==
          ((coords.getD ps.placed.length (0, 0)).1, (coords.getD ps.placed.length (0, 0)).2)),
        targetIndex := ps.placed.length + 1 }
      (purePlace coords ps p) rem := by
  obtain ⟨hnd, hrange, hlen4⟩ := hwf
  obtain ⟨hp2ge, hp2lt, hpcell, hpheap, hpalive⟩ := h.remOk p (List.mem_cons_self p rem)
  have hmemp : p.1 ∈ st.tiles := (heapGet_some hpheap).1
  have hn_lt : ps.placed.length < coords.length := lt_of_le_of_lt hp2ge hp2lt
  have htgt_mem : coords.getD ps.placed.length (0, 0) ∈ coords := getD_mem _ hn_lt
  have htgt_range := hrange _ htgt_mem
  have hpcell_mem : coords.getD p.2 (0, 0) ∈ coords := getD_mem _ hp2lt
  have hprow : p.1.row < SIZE := by
    have := (hrange _ hpcell_mem).1
    rw [← congrArg Prod.fst hpcell] at this
    exact this
  have hpcol : p.1.col < SIZE := by
    have := (hrange _ hpcell_mem).2
    rw [← congrArg Prod.snd hpcell] at this
    exact this
  have hremtail : ∀ q ∈ rem, p.2 < q.2 := (List.pairwise_cons.1 h.remIdx).1
  have hplaced_ne : ∀ j, j < ps.placed.length → (ps.placed.getD j default).id ≠ p.1.id := by
    intro j hj heq
    obtain ⟨hheapj, hcellj, _, _⟩ := h.placedAt j hj
    rw [heq, hpheap] at hheapj
    have he : ps.placed.getD j default = p.1 := (Option.some.inj hheapj).symm
    rw [he] at hcellj
    have hjlt : j < coords.length := by omega
    exact getD_ne_of_nodup hnd hjlt hp2lt (by omega) (0, 0) (hcellj.symm.trans hpcell)
  have htgtfree : p.2 ≠ ps.placed.length →
      cellGet st.grid (coords.getD ps.placed.length (0, 0)).1
        (coords.getD ps.placed.length (0, 0)).2 = none := by
    intro hne
    apply h.freeCells _ le_rfl hn_lt
    intro q hq
    rcases List.mem_cons.1 hq with rfl | hq'
    · exact hne
    · have := hremtail q hq'
      omega
  have hother : ∀ t ∈ st.tiles, t.id ∉ st.toRemove → t.id ≠ p.1.id →
      ¬(t.row = p.1.row ∧ t.col = p.1.col) ∧
      (t.row, t.col) ≠ coords.getD ps.placed.length (0, 0) := by
    intro t ht hal hne
    constructor
    · intro hcells
      exact hne (congrArg Tile.id (h.inv.posInj ht hmemp hal hpalive hcells))
    · intro htgt
      by_cases hpn : p.2 = ps.placed.length
      · rw [← hpn, ← hpcell] at htgt
        have hpair := Prod.ext_iff.1 htgt
        exact hne (congrArg Tile.id (h.inv.posInj ht hmemp hal hpalive ⟨hpair.1, hpair.2⟩))
      · have hfree := htgtfree hpn
        have halive := (h.inv.alive t ht hal).2.2
        rw [show ((coords.getD ps.placed.length (0, 0)).1 : Nat)
            = t.row from (congrArg Prod.fst htgt).symm,
          show ((coords.getD ps.placed.length (0, 0)).2 : Nat)
            = t.col from (congrArg Prod.snd htgt).symm] at hfree
        rw [halive] at hfree
        cases hfree
  have hfid : ∀ t : Tile, ({ t with
      row := (coords.getD ps.placed.length (0, 0)).1,
      col := (coords.getD ps.placed.length (0, 0)).2 } : Tile).id = t.id := fun t => rfl
  have hpairne : ∀ i j : Nat, i < coords.length → j < coords.length → i ≠ j →
      ((coords.getD i (0, 0)).1, (coords.getD i (0, 0)).2) ≠
        ((coords.getD j (0, 0)).1, (coords.getD j (0, 0)).2) := by
    intro i j hi hj hij he
    exact getD_ne_of_nodup hnd hi hj hij (0, 0) he
  have hpne : ∀ j : Nat, j < coords.length → j ≠ p.2 →
      (p.1.row, p.1.col) ≠ ((coords.getD j (0, 0)).1, (coords.getD j (0, 0)).2) := by
    intro j hj hne he
    refine getD_ne_of_nodup hnd hp2lt hj (fun hx => hne hx.symm) (0, 0) ?_
    exact hpcell.symm.trans he
  refine ⟨?_, ?_, ?_, ?_, ?_, ?_, ?_, ?_, ?_, ?_, ?_, ?_, ?_, ?_⟩
  -- Inv
  · constructor
    · show ((heapSet st.tiles p.1.id _).map Tile.id).Nodup
      rw [heapSet_map_id hfid]
      exact h.inv.ids
    · exact gridDims_cellSet (gridDims_cellSet h.inv.dims _ _ _) _ _ _
    · intro t' ht' hal'
      rw [mem_heapSet_iff] at ht'
      obtain ⟨t, ht, rfl⟩ := ht'
      by_cases hid : t.id = p.1.id
      · rw [if_pos hid] at hal' ⊢
        refine ⟨htgt_range.1, htgt_range.2, ?_⟩
        show cellGet (cellSet _ (coords.getD ps.placed.length (0, 0)).1
          (coords.getD ps.placed.length (0, 0)).2 (some p.1.id)) _ _ = _
        rw [cellGet_cellSet_self (gridDims_cellSet h.inv.dims _ _ _)
          htgt_range.1 htgt_range.2]
        simp [hid]
      · rw [if_neg hid] at hal' ⊢
        obtain ⟨hr, hc, hcell⟩ := h.inv.alive t ht hal'
        obtain ⟨hne1, hne2⟩ := hother t ht hal' hid
        refine ⟨hr, hc, ?_⟩
        rw [cellGet_cellSet_ne (fun he => hne2 (by rw [← he])) _,
          cellGet_cellSet_ne (fun he => hne1 ⟨(congrArg Prod.fst he).symm,
            (congrArg Prod.snd he).symm⟩) _]
        exact hcell
    · intro r c i' hcg
      by_cases hrc : (r, c) = coords.getD ps.placed.length (0, 0)
      · obtain ⟨hr1, hc1⟩ := Prod.ext_iff.1 hrc
        subst hr1
        subst hc1
        rw [show cellGet (cellSet (cellSet st.grid p.1.row p.1.col none)
            (coords.getD ps.placed.length (0, 0)).1 (coords.getD ps.placed.length (0, 0)).2
            (some p.1.id)) (coords.getD ps.placed.length (0, 0)).1
            (coords.getD ps.placed.length (0, 0)).2 = some p.1.id from
          cellGet_cellSet_self (gridDims_cellSet h.inv.dims _ _ _)
            htgt_range.1 htgt_range.2 _] at hcg
        refine ⟨({ p.1 with
            row := (coords.getD ps.placed.length (0, 0)).1,
            col := (coords.getD ps.placed.length (0, 0)).2 } : Tile),
          mem_heapSet_iff.2 ⟨p.1, hmemp, by rw [if_pos rfl]⟩, ?_, ?_, rfl, rfl⟩
        · simpa using Option.some.inj hcg
        · exact hpalive
      · rw [cellGet_cellSet_ne (fun he => hrc (by rw [← he]))] at hcg
        by_cases hrc2 : (r, c) = (p.1.row, p.1.col)
        · obtain ⟨hr1, hc1⟩ := Prod.ext_iff.1 hrc2
          subst hr1
          subst hc1
          rw [cellGet_cellSet_self h.inv.dims hprow hpcol] at hcg
          cases hcg
        · rw [cellGet_cellSet_ne (fun he => hrc2 (by rw [← he]))] at hcg
          obtain ⟨t, ht, hid, hal, hrow, hcol⟩ := h.inv.gridSound r c i' hcg
          have hidne : t.id ≠ p.1.id := by
            intro he
            have : t = p.1 := tile_eq_of_id_eq h.inv.ids ht hmemp he
            rw [this] at hrow hcol
            exact hrc2 (by rw [← hrow, ← hcol])
          exact ⟨t, mem_heapSet_iff.2 ⟨t, ht, by rw [if_neg hidne]⟩, hid, hal, hrow, hcol⟩
    · intro i hi
      show i ∈ (heapSet st.tiles p.1.id _).map Tile.id
      rw [heapSet_map_id hfid]
      exact h.inv.removedSub i hi
  -- targetIndex
  · show ps.placed.length + 1 = (purePlace coords ps p).placed.length
    simp [purePlace]
  -- placedLen
  · have := h.placedLen
    simp only [List.length_cons] at this
    simp only [purePlace, List.length_append, List.length_singleton]
    omega
  -- placedAt
  · intro j hj
    simp only [purePlace, List.length_append, List.length_singleton] at hj
    by_cases hjn : j < ps.placed.length
    · simp only [purePlace]
      rw [List.getD_append _ _ _ _ hjn]
      obtain ⟨h1, h2, h3, h4⟩ := h.placedAt j hjn
      have hjlt : j < coords.length := by omega
      refine ⟨?_, h2, ?_, h4⟩
      · show heapGet (heapSet st.tiles p.1.id _) _ = _
        rw [heapGet_heapSet hfid, if_neg (hplaced_ne j hjn)]
        exact h1
      · rw [cellGet_cellSet_ne (hpairne _ _ hn_lt hjlt (by omega)) _,
          cellGet_cellSet_ne (hpne j hjlt (by omega)) _]
        exact h3
    · have hje : j = ps.placed.length := by omega
      subst hje
      simp only [purePlace]
      rw [List.getD_append_right _ _ _ _ (le_refl _), Nat.sub_self, List.getD_cons_zero]
      refine ⟨?_, rfl, ?_, ?_⟩
      · show heapGet (heapSet st.tiles p.1.id _) _ = _
        rw [heapGet_heapSet hfid]
        simp [hpheap]
      · show cellGet (cellSet _ _ _ (some p.1.id)) _ _ = _
        rw [cellGet_cellSet_self (gridDims_cellSet h.inv.dims _ _ _)
          htgt_range.1 htgt_range.2]
      · exact hpalive
  -- remIdx
  · exact (List.pairwise_cons.1 h.remIdx).2
  -- remOk
  · intro q hq
    obtain ⟨hge, hlt, hcell, hheap, halq⟩ := h.remOk q (List.mem_cons_of_mem p hq)
    have hq2 := hremtail q hq
    have hqidne : q.1.id ≠ p.1.id := by
      intro he
      rw [he, hpheap] at hheap
      have hq1 : q.1 = p.1 := (Option.some.inj hheap).symm
      rw [hq1, hpcell] at hcell
      exact getD_ne_of_nodup hnd hp2lt hlt (by omega) (0, 0) hcell
    refine ⟨?_, hlt, hcell, ?_, halq⟩
    · simp only [purePlace, List.length_append, List.length_singleton]
      omega
    · show heapGet (heapSet st.tiles p.1.id _) _ = _
      rw [heapGet_heapSet hfid, if_neg hqidne]
      exact hheap
  -- freeCells
  · intro j hge hlt hnotin
    simp only [purePlace, List.length_append, List.length_singleton] at hge
    rw [cellGet_cellSet_ne (hpairne _ _ hn_lt hlt (by omega)) _]
    by_cases hjp : j = p.2
    · subst hjp
      rw [← hpcell]
      exact cellGet_cellSet_self h.inv.dims hprow hpcol none
    · rw [cellGet_cellSet_ne (hpne j hlt (by omega)) _]
      apply h.freeCells j (by omega) hlt
      intro q hq
      rcases List.mem_cons.1 hq with rfl | hq'
      · omega
      · exact hnotin q hq'
  -- frameGrid
  · intro r c hnot
    rw [cellGet_cellSet_ne (fun he => hnot (by rw [← he]; exact htgt_mem)) _,
      cellGet_cellSet_ne (fun he => hnot (by rw [← he, hpcell]; exact hpcell_mem)) _]
    exact h.frameGrid r c hnot
  -- frameHeap
  · intro i hin
    simp only [purePlace, List.map_append, List.map_cons, List.map_nil,
      List.mem_append, List.mem_singleton] at hin
    push_neg at hin
    show heapGet (heapSet st.tiles p.1.id _) _ = _
    rw [heapGet_heapSet hfid, if_neg (by simpa using hin.2)]
    exact h.frameHeap i hin.1
  -- idsEq
  · show (heapSet st.tiles p.1.id _).map Tile.id = _
    rw [heapSet_map_id hfid]
    exact h.idsEq
  -- accRemove
  · show st.toRemove = st0.toRemove ++ (purePlace coords ps p).removed
    simpa [purePlace] using h.accRemove
  -- accScore
  · show st.scoreGain = st0.scoreGain + (purePlace coords ps p).score
    simpa [purePlace] using h.accScore
  -- accMoved
  · show (st.moved || (!((p.1.row, p.1.col) == ((coords.getD ps.placed.length (0, 0)).1,
      (coords.getD ps.placed.length (0, 0)).2)))) =
      (st0.moved || (purePlace coords ps p).movedF)
    have hbeq : (!((p.1.row, p.1.col) == ((coords.getD ps.placed.length (0, 0)).1,
        (coords.getD ps.placed.length (0, 0)).2))) = decide (¬ p.2 = ps.placed.length) := by
      by_cases hpn : p.2 = ps.placed.length
      · rw [← hpn]
        have : ((p.1.row, p.1.col) == ((coords.getD p.2 (0, 0)).1,
            (coords.getD p.2 (0, 0)).2)) = true := by
          rw [beq_iff_eq]
          exact hpcell
        rw [this]
        simp [hpn]
      · have hcne : (p.1.row, p.1.col) ≠ ((coords.getD ps.placed.length (0, 0)).1,
            (coords.getD ps.placed.length (0, 0)).2) := by
          intro he
          rw [hpcell] at he
          exact getD_ne_of_nodup hnd hp2lt hn_lt hpn (0, 0) he
        rw [show ((p.1.row, p.1.col) == ((coords.getD ps.placed.length (0, 0)).1,
            (coords.getD ps.placed.length (0, 0)).2)) = false by
          rw [beq_eq_false_iff_ne]
          exact hcne]
        simp [hpn]
    rw [hbeq, h.accMoved]
    simp only [purePlace]
    rw [Bool.or_assoc]
  -- sepRemPl
  · intro i hi
    simp only [purePlace, List.map_append, List.map_cons, List.map_nil,
      List.mem_append, List.mem_singleton]
    push_neg
    refine ⟨h.sepRemPl i hi, ?_⟩
    intro he
    apply hpalive
    rw [h.accRemove]
    rw [List.mem_append]
    right
    rw [← he]
    exact hi

/-- Preservation of the line invariant under a merge step. -/
theorem lineInv_merge_fields (coords : List (Nat × Nat)) (st0 st : MoveSt) (ps : PState)
    (p : Tile × Nat) (rem : List (Tile × Nat)) (hwf : WfLine coords)
    (h : LineInv coords st0 st ps (p :: rem))
    {e : Tile} (hlast : ps.placed.getLast? = some e)
    (hcond : e.value = p.1.value ∧ e.merged = false) :
    LineInv coords st0
      { st with
        grid := cellSet st.grid p.1.row p.1.col none,
        moved := st.moved || !((p.1.row, p.1.col) ==
          ((coords.getD (st.targetIndex - 1) (0, 0)).1,
           (coords.getD (st.targetIndex - 1) (0, 0)).2)),
        tiles := heapSet st.tiles e.id
          (fun t => { t with value := t.value * 2, merged := true }),
        scoreGain := st.scoreGain + e.value * 2,
        toRemove := st.toRemove ++ [p.1.id] }
      { placed := ps.placed.dropLast ++ [{ e with value := e.value * 2, merged := true }],
        score := ps.score + e.value * 2,
        removed := ps.removed ++ [p.1.id],
        movedF := true }
      rem := by
  obtain ⟨hnd, hrange, hlen4⟩ := hwf
  obtain ⟨hp2ge, hp2lt, hpcell, hpheap, hpalive⟩ := h.remOk p (List.mem_cons_self p rem)
  have hmemp : p.1 ∈ st.tiles := (heapGet_some hpheap).1
  have hn_lt : ps.placed.length < coords.length := lt_of_le_of_lt hp2ge hp2lt
  have hpcell_mem : coords.getD p.2 (0, 0) ∈ coords := getD_mem _ hp2lt
  have hprow : p.1.row < SIZE := by
    have := (hrange _ hpcell_mem).1
    rw [← congrArg Prod.fst hpcell] at this
    exact this
  have hpcol : p.1.col < SIZE := by
    have := (hrange _ hpcell_mem).2
    rw [← congrArg Prod.snd hpcell] at this
    exact this
  have hremtail : ∀ q ∈ rem, p.2 < q.2 := (List.pairwise_cons.1 h.remIdx).1
  have hne : ps.placed ≠ [] := by
    intro hc
    rw [hc] at hlast
    cases hlast
  have hnpos : 0 < ps.placed.length := List.length_pos.2 hne
  have heD : ps.placed.getD (ps.placed.length - 1) default = e := by
    rw [getLast?_eq_getD hne default] at hlast
    exact Option.some.inj hlast
  obtain ⟨hheapE, hcellE, hgridE, haliveE⟩ := h.placedAt (ps.placed.length - 1) (by omega)
  rw [heD] at hheapE hcellE hgridE haliveE
  have hmemE : e ∈ st.tiles := (heapGet_some hheapE).1
  have hdbl : ∀ t : Tile,
      ({ t with value := t.value * 2, merged := true } : Tile).id = t.id := fun t => rfl
  have hplaced_ne : ∀ j, j < ps.placed.length → (ps.placed.getD j default).id ≠ p.1.id := by
    intro j hj heq
    obtain ⟨hheapj, hcellj, _, _⟩ := h.placedAt j hj
    rw [heq, hpheap] at hheapj
    have he2 : ps.placed.getD j default = p.1 := (Option.some.inj hheapj).symm
    rw [he2] at hcellj
    have hjlt : j < coords.length := by omega
    exact getD_ne_of_nodup hnd hjlt hp2lt (by omega) (0, 0) (hcellj.symm.trans hpcell)
  have hpid_pl : p.1.id ∉ ps.placed.map Tile.id := by
    intro hmem
    rw [List.mem_map] at hmem
    obtain ⟨t, htmem, hid⟩ := hmem
    obtain ⟨j, hj, hjt⟩ := List.mem_iff_getElem.1 htmem
    refine hplaced_ne j hj ?_
    rw [List.getD_eq_getElem _ _ hj, hjt, hid]
  have heidne : e.id ≠ p.1.id := by
    have := hplaced_ne (ps.placed.length - 1) (by omega)
    rw [heD] at this
    exact this
  have hE : ps.placed = ps.placed.dropLast ++ [e] := by
    conv_lhs => rw [← List.dropLast_concat_getLast hne]
    rw [List.getLast?_eq_getLast _ hne] at hlast
    rw [Option.some.inj hlast]
  have hplids : (ps.placed.dropLast ++
      [({ e with value := e.value * 2, merged := true } : Tile)]).map Tile.id
      = ps.placed.map Tile.id := by
    conv_rhs => rw [hE]
    simp
  have hpne : ∀ j : Nat, j < coords.length → j ≠ p.2 →
      (p.1.row, p.1.col) ≠ ((coords.getD j (0, 0)).1, (coords.getD j (0, 0)).2) := by
    intro j hj hne2 he2
    refine getD_ne_of_nodup hnd hp2lt hj (fun hx => hne2 hx.symm) (0, 0) ?_
    exact hpcell.symm.trans he2
  have hcell_ne_p : ∀ t ∈ st.tiles, t.id ∉ st.toRemove → t.id ≠ p.1.id →
      ¬(t.row = p.1.row ∧ t.col = p.1.col) := by
    intro t ht hal hne2 hcells
    exact hne2 (congrArg Tile.id (h.inv.posInj ht hmemp hal hpalive hcells))
  refine ⟨?_, ?_, ?_, ?_, ?_, ?_, ?_, ?_, ?_, ?_, ?_, ?_, ?_, ?_⟩
  -- Inv
  · constructor
    · show ((heapSet st.tiles e.id _).map Tile.id).Nodup
      rw [heapSet_map_id hdbl]
      exact h.inv.ids
    · exact gridDims_cellSet h.inv.dims _ _ _
    · intro t' ht' hal'
      rw [mem_heapSet_iff] at ht'
      obtain ⟨t, ht, rfl⟩ := ht'
      have hal2 : t.id ∉ st.toRemove ∧ t.id ≠ p.1.id := by
        by_cases hte : t.id = e.id <;>
          simpa [hte, List.mem_append] using hal'
      obtain ⟨hr, hc, hcell⟩ := h.inv.alive t ht hal2.1
      have hnecell := hcell_ne_p t ht hal2.1 hal2.2
      by_cases hte : t.id = e.id
      · rw [if_pos hte]
        refine ⟨hr, hc, ?_⟩
        rw [cellGet_cellSet_ne (fun he2 => hnecell ⟨(congrArg Prod.fst he2).symm,
          (congrArg Prod.snd he2).symm⟩) _]
        exact hcell
      · rw [if_neg hte]
        refine ⟨hr, hc, ?_⟩
        rw [cellGet_cellSet_ne (fun he2 => hnecell ⟨(congrArg Prod.fst he2).symm,
          (congrArg Prod.snd he2).symm⟩) _]
        exact hcell
    · intro r c i' hcg
      by_cases hrc : (r, c) = (p.1.row, p.1.col)
      · obtain ⟨hr1, hc1⟩ := Prod.ext_iff.1 hrc
        subst hr1
        subst hc1
        rw [cellGet_cellSet_self h.inv.dims hprow hpcol] at hcg
        cases hcg
      · rw [cellGet_cellSet_ne (fun he2 => hrc he2.symm)] at hcg
        obtain ⟨t, ht, hid, hal, hrow, hcol⟩ := h.inv.gridSound r c i' hcg
        have hidne : t.id ≠ p.1.id := by
          intro he2
          have : t = p.1 := tile_eq_of_id_eq h.inv.ids ht hmemp he2
          rw [this] at hrow hcol
          exact hrc (by rw [← hrow, ← hcol])
        by_cases hte : t.id = e.id
        · refine ⟨({ t with value := t.value * 2, merged := true } : Tile),
            mem_heapSet_iff.2 ⟨t, ht, by rw [if_pos hte]⟩, hid, ?_, hrow, hcol⟩
          simp only [List.mem_append, List.mem_singleton]
          push_neg
          exact ⟨hal, hidne⟩
        · refine ⟨t, mem_heapSet_iff.2 ⟨t, ht, by rw [if_neg hte]⟩, hid, ?_, hrow, hcol⟩
          simp only [List.mem_append, List.mem_singleton]
          push_neg
          exact ⟨hal, hidne⟩
    · intro i hi
      show i ∈ (heapSet st.tiles e.id _).map Tile.id
      rw [heapSet_map_id hdbl]
      rcases List.mem_append.1 hi with hi' | hi'
      · exact h.inv.removedSub i hi'
      · rw [List.mem_singleton.1 hi']
        exact List.mem_map_of_mem Tile.id hmemp
  -- targetIndex
  · show st.targetIndex = _
    rw [h.ti, List.length_append, List.length_dropLast, List.length_singleton]
    omega
  -- placedLen
  · have := h.placedLen
    simp only [List.length_cons] at this
    rw [List.length_append, List.length_dropLast, List.length_singleton]
    omega
  -- placedAt
  · intro j hj
    rw [List.length_append, List.length_dropLast, List.length_singleton] at hj
    have hjn : j < ps.placed.length := by omega
    have hjlt : j < coords.length := by omega
    by_cases hjl : j < ps.placed.length - 1
    · rw [List.getD_append _ _ _ _ (by rw [List.length_dropLast]; omega),
        getD_dropLast hjl]
      obtain ⟨h1, h2, h3, h4⟩ := h.placedAt j hjn
      have hjidne : (ps.placed.getD j default).id ≠ e.id := by
        intro heq
        rw [heq, hheapE] at h1
        have : ps.placed.getD j default = e := (Option.some.inj h1).symm
        rw [this] at h2
        exact getD_ne_of_nodup hnd hjlt (by omega : ps.placed.length - 1 < coords.length)
          (by omega) (0, 0) (h2.symm.trans hcellE)
      refine ⟨?_, h2, ?_, ?_⟩
      · show heapGet (heapSet st.tiles e.id _) _ = _
        rw [heapGet_heapSet hdbl, if_neg hjidne]
        exact h1
      · rw [cellGet_cellSet_ne (hpne j hjlt (by omega)) _]
        exact h3
      · simp only [List.mem_append, List.mem_singleton]
        push_neg
        exact ⟨h4, hplaced_ne j hjn⟩
    · have hje : j = ps.placed.length - 1 := by omega
      subst hje
      rw [List.getD_append_right _ _ _ _ (by rw [List.length_dropLast]),
        List.length_dropLast, Nat.sub_self, List.getD_cons_zero]
      refine ⟨?_, ?_, ?_, ?_⟩
      · show heapGet (heapSet st.tiles e.id _) _ = _
        rw [show ({ e with value := e.value * 2, merged := true } : Tile).id = e.id from rfl,
          heapGet_heapSet hdbl, if_pos rfl, hheapE]
        rfl
      · exact hcellE
      · rw [cellGet_cellSet_ne (hpne _ (by omega) (by omega)) _]
        exact hgridE
      · simp only [List.mem_append, List.mem_singleton]
        push_neg
        exact ⟨haliveE, heidne⟩
  -- remIdx
  · exact (List.pairwise_cons.1 h.remIdx).2
  -- remOk
  · intro q hq
    obtain ⟨hge, hlt, hcell, hheap, halq⟩ := h.remOk q (List.mem_cons_of_mem p hq)
    have hq2 := hremtail q hq
    have hqidne : q.1.id ≠ p.1.id := by
      intro he2
      rw [he2, hpheap] at hheap
      have hq1 : q.1 = p.1 := (Option.some.inj hheap).symm
      rw [hq1, hpcell] at hcell
      exact getD_ne_of_nodup hnd hp2lt hlt (by omega) (0, 0) hcell
    have hqeidne : q.1.id ≠ e.id := by
      intro he2
      rw [he2, hheapE] at hheap
      have hq1 : q.1 = e := (Option.some.inj hheap).symm
      rw [hq1] at hcell
      exact getD_ne_of_nodup hnd (by omega : ps.placed.length - 1 < coords.length) hlt
        (by omega) (0, 0) (hcellE.symm.trans hcell)
    refine ⟨?_, hlt, hcell, ?_, ?_⟩
    · rw [List.length_append, List.length_dropLast, List.length_singleton]
      omega
    · show heapGet (heapSet st.tiles e.id _) _ = _
      rw [heapGet_heapSet hdbl, if_neg hqeidne]
      exact hheap
    · simp only [List.mem_append, List.mem_singleton]
      push_neg
      exact ⟨halq, hqidne⟩
  -- freeCells
  · intro j hge hlt hnotin
    rw [List.length_append, List.length_dropLast, List.length_singleton] at hge
    by_cases hjp : j = p.2
    · subst hjp
      rw [← hpcell]
      exact cellGet_cellSet_self h.inv.dims hprow hpcol none
    · rw [cellGet_cellSet_ne (hpne j hlt (by omega)) _]
      apply h.freeCells j (by omega) hlt
      intro q hq
      rcases List.mem_cons.1 hq with rfl | hq'
      · omega
      · exact hnotin q hq'
  -- frameGrid
  · intro r c hnot
    rw [cellGet_cellSet_ne (fun he2 => hnot (by rw [← he2, hpcell]; exact hpcell_mem)) _]
    exact h.frameGrid r c hnot
  -- frameHeap
  · intro i hin
    rw [hplids] at hin
    have hine : i ≠ e.id := by
      intro he2
      apply hin
      rw [he2, hE]
      simp
    show heapGet (heapSet st.tiles e.id _) _ = _
    rw [heapGet_heapSet hdbl, if_neg hine]
    exact h.frameHeap i hin
  -- idsEq
  · show (heapSet st.tiles e.id _).map Tile.id = _
    rw [heapSet_map_id hdbl]
    exact h.idsEq
  -- accRemove
  · show st.toRemove ++ [p.1.id] = st0.toRemove ++ (ps.removed ++ [p.1.id])
    rw [h.accRemove, List.append_assoc]
  -- accScore
  · show st.scoreGain + e.value * 2 = st0.scoreGain + (ps.score + e.value * 2)
    rw [h.accScore, Nat.add_assoc]
  -- accMoved
  · show (st.moved || _) = (st0.moved || true)
    have hx : (!((p.1.row, p.1.col) == ((coords.getD (st.targetIndex - 1) (0, 0)).1,
        (coords.getD (st.targetIndex - 1) (0, 0)).2))) = true := by
      rw [Bool.not_eq_true', beq_eq_false_iff_ne]
      rw [h.ti]
      exact hpne (ps.placed.length - 1) (by omega) (by omega)
    rw [hx]
    simp
  -- sepRemPl
  · intro i hi
    rw [hplids]
    rcases List.mem_append.1 hi with hi' | hi'
    · exact h.sepRemPl i hi'
    · rw [List.mem_singleton.1 hi']
      exact hpid_pl

/-- The line invariant is preserved by one `stepTile`, matched by `pureStep`. -/
theorem lineInv_step (coords : List (Nat × Nat)) (st0 st : MoveSt) (ps : PState)
    (p : Tile × Nat) (rem : List (Tile × Nat)) (hwf : WfLine coords)
    (h : LineInv coords st0 st ps (p :: rem)) :
    LineInv coords st0 (stepTile coords st p.1.id) (pureStep coords ps p) rem := by
  obtain ⟨hnd, hrange, hlen4⟩ := hwf
  obtain ⟨hp2ge, hp2lt, hpcell, hpheap, hpalive⟩ := h.remOk p (List.mem_cons_self p rem)
  have hn_lt : ps.placed.length < coords.length := lt_of_le_of_lt hp2ge hp2lt
  have hpcell_mem : coords.getD p.2 (0, 0) ∈ coords := getD_mem _ hp2lt
  have hprow : p.1.row < SIZE := by
    have := (hrange _ hpcell_mem).1
    rw [← congrArg Prod.fst hpcell] at this
    exact this
  have hpcol : p.1.col < SIZE := by
    have := (hrange _ hpcell_mem).2
    rw [← congrArg Prod.snd hpcell] at this
    exact this
  have hremtail : ∀ q ∈ rem, p.2 < q.2 := (List.pairwise_cons.1 h.remIdx).1
  have hfree : cellGet (cellSet st.grid p.1.row p.1.col none)
      (coords.getD ps.placed.length (0, 0)).1
      (coords.getD ps.placed.length (0, 0)).2 = none := by
    by_cases hpn : p.2 = ps.placed.length
    · have hcellp : coords.getD ps.placed.length (0, 0) = (p.1.row, p.1.col) := by
        rw [← hpn, ← hpcell]
      rw [hcellp]
      exact cellGet_cellSet_self h.inv.dims hprow hpcol none
    · have hfree0 := h.freeCells ps.placed.length le_rfl hn_lt (fun q hq => by
        rcases List.mem_cons.1 hq with rfl | hq'
        · exact hpn
        · have := hremtail q hq'
          omega)
      have hpne_pair : (p.1.row, p.1.col) ≠ ((coords.getD ps.placed.length (0, 0)).1,
          (coords.getD ps.placed.length (0, 0)).2) :=
        fun he => getD_ne_of_nodup hnd hp2lt hn_lt hpn (0, 0) (hpcell.symm.trans he)
      rw [cellGet_cellSet_ne hpne_pair _]
      exact hfree0
  have hfree' : cellGet (cellSet st.grid p.1.row p.1.col none)
      (coords.getD st.targetIndex (0, 0)).1
      (coords.getD st.targetIndex (0, 0)).2 = none := by
    rw [h.ti]
    exact hfree
  rcases hlast : ps.placed.getLast? with _ | e
  · have hplnil : ps.placed = [] := List.getLast?_eq_none_iff.mp hlast
    have hti0 : st.targetIndex = 0 := by rw [h.ti, hplnil]; rfl
    have hstep := stepTile_place_zero_eq coords st hpheap hti0 hfree'
    have hpure : pureStep coords ps p = purePlace coords ps p := by
      unfold pureStep
      rw [hlast]
    rw [hstep, hpure, h.ti]
    exact lineInv_place_fields coords st0 st ps p rem ⟨hnd, hrange, hlen4⟩ h
  · have hne : ps.placed ≠ [] := by
      intro hc
      rw [hc] at hlast
      cases hlast
    have hnpos : 0 < ps.placed.length := List.length_pos.2 hne
    have heD : ps.placed.getD (ps.placed.length - 1) default = e := by
      rw [getLast?_eq_getD hne default] at hlast
      exact Option.some.inj hlast
    obtain ⟨hheapE, hcellE, hgridE, haliveE⟩ := h.placedAt (ps.placed.length - 1) (by omega)
    rw [heD] at hheapE hcellE hgridE haliveE
    have htipos : 0 < st.targetIndex := by rw [h.ti]; exact hnpos
    have hgridE' : cellGet st.grid (coords.getD (st.targetIndex - 1) (0, 0)).1
        (coords.getD (st.targetIndex - 1) (0, 0)).2 = some e.id := by
      rw [h.ti]
      exact hgridE
    by_cases hcond : e.value = p.1.value ∧ e.merged = false
    · have hstep := stepTile_merge_eq coords st hpheap htipos hgridE' hheapE
        (hcond.1.symm ▸ rfl : e.value = p.1.value) hcond.2
      have hpure : pureStep coords ps p =
          { placed := ps.placed.dropLast ++
              [{ e with value := e.value * 2, merged := true }],
            score := ps.score + e.value * 2,
            removed := ps.removed ++ [p.1.id],
            movedF := true } := by
        unfold pureStep
        rw [hlast]
        dsimp only
        rw [if_pos hcond]
      rw [hstep, hpure]
      exact lineInv_merge_fields coords st0 st ps p rem ⟨hnd, hrange, hlen4⟩ h hlast hcond
    · have hcondb : ¬ (e.value = p.1.value ∧ e.merged = false) := hcond
      have hstep := stepTile_place_nomerge_eq coords st hpheap htipos hgridE' hheapE
        hcondb hfree'
      have hpure : pureStep coords ps p = purePlace coords ps p := by
        unfold pureStep
        rw [hlast]
        dsimp only
        rw [if_neg hcond]
      rw [hstep, hpure, h.ti]
      exact lineInv_place_fields coords st0 st ps p rem ⟨hnd, hrange, hlen4⟩ h

/-- Folding `stepTile` over the remaining line tiles preserves the invariant
and ends with no remaining tiles. -/
theorem lineInv_fold (coords : List (Nat × Nat)) (st0 : MoveSt) (hwf : WfLine coords) :
    ∀ (rem : List (Tile × Nat)) (st : MoveSt) (ps : PState),
    LineInv coords st0 st ps rem →
    LineInv coords st0 (List.foldl (stepTile coords) st (rem.map (fun q => q.1.id)))
      (pureFold coords ps rem) [] := by
  intro rem
  induction rem with
  | nil =>
    intro st ps h
    exact h
  | cons p rem ih =>
    intro st ps h
    rw [List.map_cons, List.foldl_cons, pureFold_cons]
    exact ih _ _ (lineInv_step coords st0 st ps p rem hwf h)

/-! ### Collecting the tiles of a line -/

/-- The line's tiles, each paired with the index (counting from `i`) of the
cell where it sits. -/
def collectFrom (st : MoveSt) : List (Nat × Nat) → Nat → List (Tile × Nat)
  | [], _ => []
  | q :: qs, i =>
    match (cellGet st.grid q.1 q.2).bind (heapGet st.tiles) with
    | some t => (t, i) :: collectFrom st qs (i + 1)
    | none => collectFrom st qs (i + 1)

def collectRem (st : MoveSt) (coords : List (Nat × Nat)) : List (Tile × Nat) :=
  collectFrom st coords 0

theorem collectFrom_length_le (st : MoveSt) :
    ∀ (qs : List (Nat × Nat)) (i : Nat), (collectFrom st qs i).length ≤ qs.length := by
  intro qs
  induction qs with
  | nil => intro i; simp [collectFrom]
  | cons q0 qs ih =>
    intro i
    unfold collectFrom
    rcases (cellGet st.grid q0.1 q0.2).bind (heapGet st.tiles) with _ | t
    · exact le_trans (ih (i + 1)) (by simp)
    · simpa using ih (i + 1)

theorem collectFrom_spec (st : MoveSt) (hinv : Inv st) (coords : List (Nat × Nat)) :
    ∀ (qs : List (Nat × Nat)) (i : Nat), coords.drop i = qs →
    (∀ q ∈ collectFrom st qs i,
       i ≤ q.2 ∧ q.2 < coords.length ∧
       cellGet st.grid (coords.getD q.2 (0, 0)).1 (coords.getD q.2 (0, 0)).2
         = some q.1.id ∧
       heapGet st.tiles q.1.id = some q.1) ∧
    (∀ j, i ≤ j → j < coords.length → (∀ q ∈ collectFrom st qs i, q.2 ≠ j) →
       cellGet st.grid (coords.getD j (0, 0)).1 (coords.getD j (0, 0)).2 = none) ∧
    (collectFrom st qs i).Pairwise (fun a b => a.2 < b.2) := by
  intro qs
  induction qs with
  | nil =>
    intro i hqs
    have hlen : coords.length ≤ i := by
      by_contra hcontra
      rw [List.drop_eq_getElem_cons (by omega)] at hqs
      cases hqs
    refine ⟨fun q hq => absurd hq (by simp [collectFrom]), fun j hij hjlt _ => ?_, by
      simp [collectFrom]⟩
    omega
  | cons q0 qs ih =>
    intro i hqs
    have hi : i < coords.length := by
      by_contra hcontra
      rw [List.drop_eq_nil_of_le (by omega)] at hqs
      cases hqs
    rw [List.drop_eq_getElem_cons hi] at hqs
    obtain ⟨hq0, hqs'⟩ : coords[i] = q0 ∧ coords.drop (i + 1) = qs := by
      exact ⟨(List.cons.inj hqs).1, (List.cons.inj hqs).2⟩
    have hgetD : coords.getD i (0, 0) = q0 := by
      rw [List.getD_eq_getElem _ _ hi, hq0]
    obtain ⟨A, B, C⟩ := ih (i + 1) hqs'
    unfold collectFrom
    rcases hocc : cellGet st.grid q0.1 q0.2 with _ | id0
    · dsimp only [Option.bind]
      refine ⟨fun q hq => ?_, fun j hij hjlt hne => ?_, C⟩
      · obtain ⟨h1, h2, h3, h4⟩ := A q hq
        exact ⟨by omega, h2, h3, h4⟩
      · by_cases hji : j = i
        · subst hji
          rw [hgetD]
          exact hocc
        · exact B j (by omega) hjlt hne
    · obtain ⟨t0, hmem0, hid0, hal0, hrow0, hcol0⟩ := hinv.gridSound q0.1 q0.2 id0 hocc
      have hheap0 : heapGet st.tiles id0 = some t0 := by
        rw [← hid0]
        exact hinv.heapAlive hmem0
      dsimp only [Option.bind]
      rw [hheap0]
      dsimp only
      refine ⟨fun q hq => ?_, fun j hij hjlt hne => ?_, ?_⟩
      · rcases List.mem_cons.1 hq with rfl | hq'
        · dsimp only
          refine ⟨le_rfl, hi, ?_, ?_⟩
          · rw [hgetD, hocc, hid0]
          · rw [← hid0] at hheap0
            exact hheap0
        · obtain ⟨h1, h2, h3, h4⟩ := A q hq'
          exact ⟨by omega, h2, h3, h4⟩
      · by_cases hji : j = i
        · exfalso
          exact hne (t0, i) (List.mem_cons_self _ _) (by omega)
        · exact B j (by omega) hjlt (fun q hq' => hne q (List.mem_cons_of_mem _ hq'))
      · rw [List.pairwise_cons]
        refine ⟨fun q hq => ?_, C⟩
        have := (A q hq).1
        omega

theorem filterMap_eq_collect (st : MoveSt) (hinv : Inv st) :
    ∀ (qs : List (Nat × Nat)) (i : Nat),
    qs.filterMap (fun pos => cellGet st.grid pos.1 pos.2)
      = (collectFrom st qs i).map (fun q => q.1.id) := by
  intro qs
  induction qs with
  | nil => intro i; simp [collectFrom]
  | cons q0 qs ih =>
    intro i
    unfold collectFrom
    rcases hocc : cellGet st.grid q0.1 q0.2 with _ | id0
    · simp only [List.filterMap_cons, hocc]
      dsimp only [Option.bind]
      exact ih (i + 1)
    · obtain ⟨t0, hmem0, hid0, _, _, _⟩ := hinv.gridSound q0.1 q0.2 id0 hocc
      have hheap0 : heapGet st.tiles id0 = some t0 := by
        rw [← hid0]
        exact hinv.heapAlive hmem0
      simp only [List.filterMap_cons, hocc]
      dsimp only [Option.bind]
      rw [hheap0]
      dsimp only
      rw [List.map_cons, ih (i + 1)]
      dsimp only
      rw [hid0]

/-- The invariant holds at the start of a line, with nothing placed yet. -/
theorem lineInv_init (st : MoveSt) (coords : List (Nat × Nat)) (hinv : Inv st) :
    LineInv coords st { st with targetIndex := 0 } ⟨[], 0, [], false⟩
      (collectRem st coords) := by
  obtain ⟨A, B, C⟩ := collectFrom_spec st hinv coords coords 0 (by simp)
  refine ⟨⟨hinv.ids, hinv.dims, hinv.alive, hinv.gridSound, hinv.removedSub⟩,
    rfl, ?_, ?_, C, ?_, ?_, fun r c _ => rfl, fun i _ => rfl, rfl, ?_, rfl, ?_, ?_⟩
  · simpa using collectFrom_length_le st coords 0
  · intro j hj
    exact absurd hj (by simp)
  · intro q hq
    obtain ⟨_, h2, h3, h4⟩ := A q hq
    obtain ⟨t, hmem, hid, hal, hrow, hcol⟩ := hinv.gridSound _ _ _ h3
    have : t = q.1 := by
      have h5 := hinv.heapAlive hmem
      rw [hid, h4] at h5
      exact (Option.some.inj h5).symm
    rw [this] at hrow hcol hal
    refine ⟨by simp, h2, ?_, h4, hal⟩
    rw [hrow, hcol]
  · intro j hge hlt hne
    exact B j (Nat.zero_le j) hlt hne
  · exact (List.append_nil st.toRemove).symm
  · exact (Bool.or_false st.moved).symm
  · intro i hi
    cases hi

/-- What one processed line delivers to the rest of the move: consistency,
the placed tiles on the leading cells, the rest of the line free, everything
off the line untouched, and the pure accumulator deltas. -/
structure LineRes (coords : List (Nat × Nat)) (st0 st1 : MoveSt) (ps : PState) : Prop where
  inv : Inv st1
  placedLen : ps.placed.length ≤ coords.length
  placedAt : ∀ j, j < ps.placed.length →
    heapGet st1.tiles (ps.placed.getD j default).id = some (ps.placed.getD j default) ∧
    ((ps.placed.getD j default).row, (ps.placed.getD j default).col) = coords.getD j (0, 0) ∧
    cellGet st1.grid (coords.getD j (0, 0)).1 (coords.getD j (0, 0)).2
      = some (ps.placed.getD j default).id ∧
    (ps.placed.getD j default).id ∉ st1.toRemove
  freeCells : ∀ j, ps.placed.length ≤ j → j < coords.length →
    cellGet st1.grid (coords.getD j (0, 0)).1 (coords.getD j (0, 0)).2 = none
  frameGrid : ∀ r c, (r, c) ∉ coords → cellGet st1.grid r c = cellGet st0.grid r c
  frameHeap : ∀ i, i ∉ ps.placed.map Tile.id → heapGet st1.tiles i = heapGet st0.tiles i
  idsEq : st1.tiles.map Tile.id = st0.tiles.map Tile.id
  accRemove : st1.toRemove = st0.toRemove ++ ps.removed
  accScore : st1.scoreGain = st0.scoreGain + ps.score
  accMoved : st1.moved = (st0.moved || ps.movedF)
  sepRemPl : ∀ i ∈ ps.removed, i ∉ ps.placed.map Tile.id

/-- The pure summary of a line of the grid. -/
def linePure (st : MoveSt) (coords : List (Nat × Nat)) : PState :=
  pureFold coords ⟨[], 0, [], false⟩ (collectRem st coords)

theorem processLine_res (st : MoveSt) (coords : List (Nat × Nat)) (hwf : WfLine coords)
    (hinv : Inv st) : LineRes coords st (processLine st coords) (linePure st coords) := by
  unfold processLine linePure
  rw [filterMap_eq_collect st hinv coords 0,
    (show collectFrom st coords 0 = collectRem st coords from rfl)]
  obtain ⟨A, B, C⟩ := collectFrom_spec st hinv coords coords 0 (by simp)
  rcases hcol : collectRem st coords with _ | ⟨p, rem⟩
  · have hB := B
    rw [show collectFrom st coords 0 = collectRem st coords from rfl, hcol] at hB
    simp only [List.map_nil, List.length_nil, if_pos rfl, pureFold_nil]
    exact ⟨hinv, by simp, fun j hj => absurd hj (by simp),
      fun j _ hlt => hB j (Nat.zero_le j) hlt (fun q hq => absurd hq (List.not_mem_nil q)),
      fun r c _ => rfl, fun i _ => rfl, rfl, (List.append_nil st.toRemove).symm, rfl,
      (Bool.or_false st.moved).symm, fun i hi => absurd hi (List.not_mem_nil i)⟩
  · have hinit := lineInv_init st coords hinv
    rw [hcol] at hinit
    have hfold := lineInv_fold coords st hwf (p :: rem) _ _ hinit
    rw [if_neg (by simp)]
    exact ⟨hfold.inv, by simpa using hfold.placedLen, hfold.placedAt,
      fun j hge hlt => hfold.freeCells j hge hlt (fun q hq => absurd hq (List.not_mem_nil q)),
      hfold.frameGrid, hfold.frameHeap, hfold.idsEq, hfold.accRemove, hfold.accScore,
      hfold.accMoved, hfold.sepRemPl⟩

/-! ### Ids produced by the pure fold come from its input -/

theorem pureStep_placed_ids (coords : List (Nat × Nat)) (ps : PState) (p : Tile × Nat)
    {i : Nat} (h : i ∈ (pureStep coords ps p).placed.map Tile.id) :
    i ∈ ps.placed.map Tile.id ∨ i = p.1.id := by
  unfold pureStep at h
  rcases hlast : ps.placed.getLast? with _ | e
  · rw [hlast] at h
    dsimp only at h
    unfold purePlace at h
    simp only [List.map_append, List.mem_append, List.map_cons, List.map_nil,
      List.mem_singleton] at h
    rcases h with h | h
    · exact Or.inl h
    · exact Or.inr (by simpa using h)
  · rw [hlast] at h
    dsimp only at h
    by_cases hc : e.value = p.1.value ∧ e.merged = false
    · rw [if_pos hc] at h
      simp only [List.map_append, List.mem_append, List.map_cons, List.map_nil,
        List.mem_singleton] at h
      rcases h with h | h
      · exact Or.inl (List.mem_map.2 (by
          obtain ⟨t, ht, rfl⟩ := List.mem_map.1 h
          exact ⟨t, (ps.placed.dropLast_sublist).mem ht, rfl⟩))
      · left
        rw [List.mem_map]
        refine ⟨e, List.mem_of_mem_getLast? hlast, ?_⟩
        simpa using h.symm
    · rw [if_neg hc] at h
      unfold purePlace at h
      simp only [List.map_append, List.mem_append, List.map_cons, List.map_nil,
        List.mem_singleton] at h
      rcases h with h | h
      · exact Or.inl h
      · exact Or.inr (by simpa using h)

theorem pureStep_removed_ids (coords : List (Nat × Nat)) (ps : PState) (p : Tile × Nat)
    {i : Nat} (h : i ∈ (pureStep coords ps p).removed) :
    i ∈ ps.removed ∨ i = p.1.id := by
  unfold pureStep at h
  rcases hlast : ps.placed.getLast? with _ | e
  · rw [hlast] at h
    exact Or.inl h
  · rw [hlast] at h
    dsimp only at h
    by_cases hc : e.value = p.1.value ∧ e.merged = false
    · rw [if_pos hc] at h
      simp only [List.mem_append, List.mem_singleton] at h
      exact h
    · rw [if_neg hc] at h
      exact Or.inl h

theorem pureFold_placed_ids (coords : List (Nat × Nat)) :
    ∀ (l : List (Tile × Nat)) (ps : PState) (i : Nat),
    i ∈ (pureFold coords ps l).placed.map Tile.id →
    i ∈ ps.placed.map Tile.id ∨ i ∈ l.map (fun q => q.1.id) := by
  intro l
  induction l with
  | nil =>
    intro ps i h
    exact Or.inl h
  | cons p l ih =>
    intro ps i h
    rw [pureFold_cons] at h
    rcases ih _ i h with h' | h'
    · rcases pureStep_placed_ids coords ps p h' with h'' | h''
      · exact Or.inl h''
      · exact Or.inr (by simp [h''])
    · exact Or.inr (by simp [h'])

theorem pureFold_removed_ids (coords : List (Nat × Nat)) :
    ∀ (l : List (Tile × Nat)) (ps : PState) (i : Nat),
    i ∈ (pureFold coords ps l).removed →
    i ∈ ps.removed ∨ i ∈ l.map (fun q => q.1.id) := by
  intro l
  induction l with
  | nil =>
    intro ps i h
    exact Or.inl h
  | cons p l ih =>
    intro ps i h
    rw [pureFold_cons] at h
    rcases ih _ i h with h' | h'
    · rcases pureStep_removed_ids coords ps p h' with h'' | h''
      · exact Or.inl h''
      · exact Or.inr (by simp [h''])
    · exact Or.inr (by simp [h'])

/-! ### A full line with no merge does not move -/

theorem pairwise_idx_bound : ∀ (l : List (Tile × Nat)) (b L : Nat),
    l.Pairwise (fun a b => a.2 < b.2) → (∀ q ∈ l, b ≤ q.2 ∧ q.2 < L) → b ≤ L →
    b + l.length ≤ L := by
  intro l
  induction l with
  | nil =>
    intro b L _ _ hbL
    simpa using hbL
  | cons p l ih =>
    intro b L hpw hbound _
    have hp := hbound p (List.mem_cons_self p l)
    have htail := (List.pairwise_cons.1 hpw).1
    have := ih (p.2 + 1) L (List.pairwise_cons.1 hpw).2
      (fun q hq => ⟨htail q hq, (hbound q (List.mem_cons_of_mem p hq)).2⟩) (by omega)
    simp only [List.length_cons]
    omega

theorem pureFold_full_noMove (coords : List (Nat × Nat)) :
    ∀ (l : List (Tile × Nat)) (ps : PState),
    l.Pairwise (fun a b => a.2 < b.2) →
    (∀ q ∈ l, ps.placed.length ≤ q.2 ∧ q.2 < coords.length) →
    ps.placed.length + l.length = coords.length →
    (pureFold coords ps l).removed = ps.removed →
    (pureFold coords ps l).movedF = ps.movedF := by
  intro l
  induction l with
  | nil =>
    intro ps _ _ _ _
    rfl
  | cons p l ih =>
    intro ps hpw hbound hcount hrem
    have hp := hbound p (List.mem_cons_self p l)
    have htail := (List.pairwise_cons.1 hpw).1
    have hbnd := pairwise_idx_bound l (p.2 + 1) coords.length
      (List.pairwise_cons.1 hpw).2
      (fun q hq => ⟨htail q hq, (hbound q (List.mem_cons_of_mem p hq)).2⟩) (by omega)
    have hidx : p.2 = ps.placed.length := by
      simp only [List.length_cons] at hcount
      omega
    rw [pureFold_cons] at hrem ⊢
    have hplace : pureStep coords ps p = purePlace coords ps p := by
      unfold pureStep
      rcases hlast : ps.placed.getLast? with _ | e
      · rfl
      · dsimp only
        by_cases hc : e.value = p.1.value ∧ e.merged = false
        · exfalso
          obtain ⟨ex, hex⟩ := pureFold_removed_grows coords
            (pureStep coords ps p) l
          rw [hex] at hrem
          have : (pureStep coords ps p).removed = ps.removed ++ [p.1.id] := by
            unfold pureStep
            rw [hlast]
            dsimp only
            rw [if_pos hc]
          rw [this] at hrem
          have := congrArg List.length hrem
          simp at this
        · rw [if_neg hc]
    rw [hplace] at hrem ⊢
    have hmF : (purePlace coords ps p).movedF = ps.movedF := by
      unfold purePlace
      simp [hidx]
    rw [ih (purePlace coords ps p) (List.pairwise_cons.1 hpw).2 (fun q hq => by
        have h1 := htail q hq
        have h2 := (hbound q (List.mem_cons_of_mem p hq)).2
        unfold purePlace
        constructor
        · simp only [List.length_append, List.length_singleton]
          omega
        · exact h2)
      (by
        unfold purePlace
        simp only [List.length_append, List.length_singleton]
        simp only [List.length_cons] at hcount
        omega)
      (by
        rw [show (purePlace coords ps p).removed = ps.removed from rfl]
        exact hrem), hmF]

/-! ### Grid extensionality -/

theorem gridExt {g1 g2 : List (List (Option α))} (h1 : GridDims g1) (h2 : GridDims g2)
    (h : ∀ r c, r < SIZE → c < SIZE → cellGet g1 r c = cellGet g2 r c) : g1 = g2 := by
  obtain ⟨h1l, h1r⟩ := h1
  obtain ⟨h2l, h2r⟩ := h2
  apply List.ext_getElem (by omega)
  intro r hr1 hr2
  have hrS : r < SIZE := by omega
  apply List.ext_getElem (by rw [h1r _ (g1.getElem_mem hr1), h2r _ (g2.getElem_mem hr2)])
  intro c hc1 hc2
  have hcS : c < SIZE := by
    have := h1r _ (g1.getElem_mem hr1)
    omega
  have := h r c hrS hcS
  unfold cellGet at this
  rw [List.getD_eq_getElem _ _ hr1, List.getD_eq_getElem _ _ hr2,
    List.getD_eq_getElem _ _ hc1, List.getD_eq_getElem _ _ hc2] at this
  exact this

/-! ### Facts about the four lines of each direction -/

instance : DecidablePred WfLine := fun L => by
  unfold WfLine
  infer_instance

theorem wfLine_lines (dir : Direction) : ∀ L ∈ lines dir, WfLine L := by
  cases dir <;> decide

theorem lines_disjoint (dir : Direction) :
    (lines dir).Pairwise (fun L1 L2 => ∀ p ∈ L1, p ∉ L2) := by
  cases dir <;> decide

theorem lines_cover (dir : Direction) :
    ∀ r < SIZE, ∀ c < SIZE, ∃ L ∈ lines dir, (r, c) ∈ L := by
  cases dir <;> decide

theorem lines_length (dir : Direction) : (lines dir).length = 4 := by
  cases dir <;> rfl

/-! ### The initial resolver state -/

theorem clearFlags_map_id (tiles : List Tile) :
    (clearFlags tiles).map Tile.id = tiles.map Tile.id := by
  unfold clearFlags
  rw [List.map_map]
  rfl

theorem clearFlags_map_pos (tiles : List Tile) :
    (clearFlags tiles).map (fun t => (t.row, t.col)) = tiles.map (fun t => (t.row, t.col)) := by
  unfold clearFlags
  rw [List.map_map]
  rfl

theorem clearFlags_length (tiles : List Tile) :
    (clearFlags tiles).length = tiles.length := by
  simp [clearFlags]

theorem wfTiles_clearFlags {tiles : List Tile} (hw : wfTiles tiles) :
    wfTiles (clearFlags tiles) := by
  obtain ⟨h1, h2, h3⟩ := hw
  refine ⟨?_, ?_, ?_⟩
  · intro t ht
    obtain ⟨u, hu, rfl⟩ := List.mem_map.1 ht
    exact h1 u hu
  · rw [clearFlags_map_id]
    exact h2
  · rw [clearFlags_map_pos]
    exact h3

theorem inv_initSt {tiles0 : List Tile} (hw : wfTiles tiles0) : Inv (initSt tiles0) := by
  have hwc := wfTiles_clearFlags hw
  obtain ⟨h1, h2, h3⟩ := hwc
  refine ⟨h2, buildGrid_dims Tile.id (clearFlags tiles0), ?_, ?_, ?_⟩
  · intro t ht _
    exact ⟨(h1 t ht).1, (h1 t ht).2, buildGrid_get_of_mem h3 h1 ht⟩
  · intro r c i hcg
    obtain ⟨t, ht, hrow, hcol, hid⟩ := buildGrid_get_some_of h1 hcg
    exact ⟨t, ht, hid, fun hmem => absurd hmem (List.not_mem_nil _), hrow, hcol⟩
  · intro i hi
    exact absurd hi (List.not_mem_nil i)

/-! ### Facts about the collected line tiles -/

theorem collectRem_ok (st : MoveSt) (coords : List (Nat × Nat)) (hinv : Inv st) :
    ∀ q ∈ collectRem st coords, q.2 < coords.length ∧
      (q.1.row, q.1.col) = coords.getD q.2 (0, 0) ∧
      heapGet st.tiles q.1.id = some q.1 ∧ q.1.id ∉ st.toRemove ∧ q.1 ∈ st.tiles ∧
      cellGet st.grid (coords.getD q.2 (0, 0)).1 (coords.getD q.2 (0, 0)).2
        = some q.1.id := by
  intro q hq
  obtain ⟨A, _, _⟩ := collectFrom_spec st hinv coords coords 0 (by simp)
  obtain ⟨_, h2, h3, h4⟩ := A q hq
  obtain ⟨t, hmem, hid, hal, hrow, hcol⟩ := hinv.gridSound _ _ _ h3
  have hteq : t = q.1 := by
    have h5 := hinv.heapAlive hmem
    rw [hid, h4] at h5
    exact (Option.some.inj h5).symm
  rw [hteq] at hrow hcol hal hmem
  exact ⟨h2, by rw [hrow, hcol], h4, hal, hmem, h3⟩

theorem collectRem_pairwise (st : MoveSt) (coords : List (Nat × Nat)) (hinv : Inv st) :
    (collectRem st coords).Pairwise (fun a b => a.2 < b.2) :=
  (collectFrom_spec st hinv coords coords 0 (by simp)).2.2

theorem collectRem_free (st : MoveSt) (coords : List (Nat × Nat)) (hinv : Inv st) :
    ∀ j, j < coords.length → (∀ q ∈ collectRem st coords, q.2 ≠ j) →
    cellGet st.grid (coords.getD j (0, 0)).1 (coords.getD j (0, 0)).2 = none :=
  fun j hj hne =>
    (collectFrom_spec st hinv coords coords 0 (by simp)).2.1 j (Nat.zero_le j) hj hne

/-! ### Chaining the lines of a move -/

theorem inv_foldLines : ∀ (ls : List (List (Nat × Nat))) (st : MoveSt),
    (∀ L ∈ ls, WfLine L) → Inv st → Inv (List.foldl processLine st ls) := by
  intro ls
  induction ls with
  | nil =>
    intro st _ hinv
    exact hinv
  | cons L ls ih =>
    intro st hwf hinv
    rw [List.foldl_cons]
    exact ih _ (fun L' hL' => hwf L' (List.mem_cons_of_mem L hL'))
      (processLine_res st L (hwf L (List.mem_cons_self L ls)) hinv).inv

theorem moved_foldLines_mono : ∀ (ls : List (List (Nat × Nat))) (st : MoveSt),
    (∀ L ∈ ls, WfLine L) → Inv st → st.moved = true →
    (List.foldl processLine st ls).moved = true := by
  intro ls
  induction ls with
  | nil =>
    intro st _ _ h
    exact h
  | cons L ls ih =>
    intro st hwf hinv h
    rw [List.foldl_cons]
    have res := processLine_res st L (hwf L (List.mem_cons_self L ls)) hinv
    exact ih _ (fun L' hL' => hwf L' (List.mem_cons_of_mem L hL')) res.inv
      (by rw [res.accMoved, h, Bool.true_or])

/-- Ids found in a line's cells cannot also be alive elsewhere: an id alive
at a cell outside the line is untouched by processing the line and stays
alive. -/
theorem processLine_off_id (st : MoveSt) (L : List (Nat × Nat)) (hwf : WfLine L)
    (hinv : Inv st) {r c i : Nat} (hpos : (r, c) ∉ L)
    (hcg : cellGet st.grid r c = some i) :
    heapGet (processLine st L).tiles i = heapGet st.tiles i ∧
    (i ∉ st.toRemove → i ∉ (processLine st L).toRemove) ∧
    cellGet (processLine st L).grid r c = cellGet st.grid r c := by
  have res := processLine_res st L hwf hinv
  have hnotin : i ∉ (linePure st L).placed.map Tile.id ∧ i ∉ (linePure st L).removed := by
    have hkey : i ∈ (collectRem st L).map (fun q => q.1.id) → False := by
      intro hmem
      obtain ⟨q, hq, hqi⟩ := List.mem_map.1 hmem
      obtain ⟨hqlt, hqcell, hqheap, _, hqmem, _⟩ := collectRem_ok st L hinv q hq
      obtain ⟨t, htmem, htid, _, htrow, htcol⟩ := hinv.gridSound r c i hcg
      have : t = q.1 := by
        have h5 := hinv.heapAlive htmem
        rw [htid, ← hqi, hqheap] at h5
        exact (Option.some.inj h5).symm
      rw [this] at htrow htcol
      apply hpos
      rw [← htrow, ← htcol]
      have : (q.1.row, q.1.col) ∈ L := by
        rw [hqcell]
        exact getD_mem _ hqlt
      simpa using this
    constructor
    · intro hmem
      rcases pureFold_placed_ids L (collectRem st L) ⟨[], 0, [], false⟩ i hmem with h' | h'
      · exact absurd h' (by simp)
      · exact hkey h'
    · intro hmem
      rcases pureFold_removed_ids L (collectRem st L) ⟨[], 0, [], false⟩ i hmem with h' | h'
      · exact absurd h' (by simp)
      · exact hkey h'
  refine ⟨res.frameHeap i hnotin.1, ?_, res.frameGrid r c hpos⟩
  intro hal hcontra
  rw [res.accRemove] at hcontra
  rcases List.mem_append.1 hcontra with h' | h'
  · exact hal h'
  · exact hnotin.2 h'

theorem frame_foldLines : ∀ (ls : List (List (Nat × Nat))) (st : MoveSt)
    (S : List (Nat × Nat)),
    (∀ L ∈ ls, WfLine L) → Inv st → (∀ L ∈ ls, ∀ pos ∈ S, pos ∉ L) →
    ∀ pos ∈ S, cellGet (List.foldl processLine st ls).grid pos.1 pos.2
        = cellGet st.grid pos.1 pos.2 ∧
      ∀ i, cellGet st.grid pos.1 pos.2 = some i →
        heapGet (List.foldl processLine st ls).tiles i = heapGet st.tiles i ∧
        (i ∉ st.toRemove → i ∉ (List.foldl processLine st ls).toRemove) := by
  intro ls
  induction ls with
  | nil =>
    intro st S _ _ _ pos _
    exact ⟨rfl, fun i _ => ⟨rfl, fun h => h⟩⟩
  | cons L ls ih =>
    intro st S hwf hinv hdisj pos hpos
    rw [List.foldl_cons]
    have hwfL := hwf L (List.mem_cons_self L ls)
    have hLS := hdisj L (List.mem_cons_self L ls) pos hpos
    have res := processLine_res st L hwfL hinv
    have hgrid1 : cellGet (processLine st L).grid pos.1 pos.2
        = cellGet st.grid pos.1 pos.2 := res.frameGrid pos.1 pos.2 (by
      intro h
      exact hLS (by simpa using h))
    have ihspec := ih (processLine st L) S
      (fun L' hL' => hwf L' (List.mem_cons_of_mem L hL')) res.inv
      (fun L' hL' pos' hpos' => hdisj L' (List.mem_cons_of_mem L hL') pos' hpos')
      pos hpos
    refine ⟨by rw [ihspec.1, hgrid1], ?_⟩
    intro i hcg
    have hoff := processLine_off_id st L hwfL hinv
      (by intro h; exact hLS (by simpa using h)) hcg
    have ihtail := ihspec.2 i (by rw [hgrid1]; exact hcg)
    refine ⟨by rw [ihtail.1, hoff.1], ?_⟩
    intro hal
    exact ihtail.2 (hoff.2.1 hal)

/-! ### A line that did not move leaves the state unchanged -/

theorem processLine_noMove (st : MoveSt) (L : List (Nat × Nat)) (hwf : WfLine L)
    (hinv : Inv st) (h : (processLine st L).moved = false) :
    (processLine st L).tiles = st.tiles ∧ (processLine st L).grid = st.grid ∧
    (processLine st L).scoreGain = st.scoreGain ∧
    (processLine st L).toRemove = st.toRemove ∧ st.moved = false := by
  have res := processLine_res st L hwf hinv
  have hor : (st.moved || (linePure st L).movedF) = false := by
    rw [← res.accMoved]
    exact h
  have hmF : (linePure st L).movedF = false := (Bool.or_eq_false_iff.1 hor).2
  have hstF : st.moved = false := (Bool.or_eq_false_iff.1 hor).1
  have hcells : ∀ q ∈ collectRem st L, (q.1.row, q.1.col) = L.getD q.2 (0, 0) :=
    fun q hq => (collectRem_ok st L hinv q hq).2.1
  obtain ⟨hplaced, hscore, hremoved⟩ :=
    pureFold_no_move L (collectRem st L) ⟨[], 0, [], false⟩ hcells hmF
  have hplaced' : (linePure st L).placed = (collectRem st L).map (fun q => q.1) := by
    rw [linePure]
    simpa using hplaced
  have hlenm : (linePure st L).placed.length = (collectRem st L).length := by
    rw [hplaced', List.length_map]
  have hgetP : ∀ k, k < (linePure st L).placed.length →
      (linePure st L).placed.getD k default
        = ((collectRem st L).getD k (default, 0)).1 := by
    intro k hk
    rw [hplaced'] at hk ⊢
    rw [List.length_map] at hk
    rw [List.getD_eq_getElem _ _ (by simpa using hk), List.getD_eq_getElem _ _ hk,
      List.getElem_map]
  have hIdxEq : ∀ k, k < (linePure st L).placed.length →
      ((collectRem st L).getD k (default, 0)).2 = k := by
    intro k hk
    have hkc : k < (collectRem st L).length := by rw [← hlenm]; exact hk
    have hqmem : (collectRem st L).getD k (default, 0) ∈ collectRem st L := getD_mem _ hkc
    have hok := collectRem_ok st L hinv _ hqmem
    have hAt := res.placedAt k hk
    rw [hgetP k hk] at hAt
    have hcell1 := hAt.2.1
    rw [hok.2.1] at hcell1
    by_contra hne
    exact getD_ne_of_nodup hwf.1 hok.1 (lt_of_lt_of_le hk res.placedLen) hne (0, 0) hcell1
  refine ⟨?_, ?_, ?_, ?_, hstF⟩
  · apply heap_ext res.idsEq res.inv.ids
    intro i
    by_cases hmem : i ∈ (linePure st L).placed.map Tile.id
    · obtain ⟨e, he, heid⟩ := List.mem_map.1 hmem
      obtain ⟨j, hj, hje⟩ := List.mem_iff_getElem.1 he
      have hAt := res.placedAt j hj
      have hgd : (linePure st L).placed.getD j default = e := by
        rw [List.getD_eq_getElem _ _ hj, hje]
      rw [hgd] at hAt
      have he2 := he
      rw [hplaced'] at he2
      obtain ⟨q, hq, hqe⟩ := List.mem_map.1 he2
      have hok := collectRem_ok st L hinv q hq
      rw [← heid, hAt.1]
      rw [hqe] at hok
      exact hok.2.2.1.symm
    · rw [res.frameHeap i hmem]
  · apply gridExt res.inv.dims hinv.dims
    intro r c hr hc
    by_cases hLmem : (r, c) ∈ L
    · obtain ⟨j, hjlt, hj⟩ := List.mem_iff_getElem.1 hLmem
      have hjD : L.getD j (0, 0) = (r, c) := by
        rw [List.getD_eq_getElem _ _ hjlt, hj]
      by_cases hjm : j < (linePure st L).placed.length
      · have hAt := res.placedAt j hjm
        have hkc : j < (collectRem st L).length := by rw [← hlenm]; exact hjm
        have hqmem : (collectRem st L).getD j (default, 0) ∈ collectRem st L :=
          getD_mem _ hkc
        have hok := collectRem_ok st L hinv _ hqmem
        have hcg1 := hAt.2.2.1
        rw [hjD] at hcg1
        have hcg2 := hok.2.2.2.2.2
        rw [hIdxEq j hjm, hjD] at hcg2
        rw [hcg1, hcg2, hgetP j hjm]
      · have hcg1 := res.freeCells j (by omega) hjlt
        rw [hjD] at hcg1
        have hcg2 := collectRem_free st L hinv j hjlt (by
          intro q hq
          obtain ⟨k, hk, hkq⟩ := List.mem_iff_getElem.1 hq
          have hkm : k < (linePure st L).placed.length := by rw [hlenm]; exact hk
          have hgd : (collectRem st L).getD k (default, 0) = q := by
            rw [List.getD_eq_getElem _ _ hk, hkq]
          have hq2 := hIdxEq k hkm
          rw [hgd] at hq2
          omega)
        rw [hjD] at hcg2
        rw [hcg1, hcg2]
    · exact res.frameGrid r c hLmem
  · rw [res.accScore]
    have : (linePure st L).score = 0 := by
      rw [linePure]
      simpa using hscore
    rw [this]
    rfl
  · rw [res.accRemove]
    have : (linePure st L).removed = [] := by
      rw [linePure]
      simpa using hremoved
    rw [this, List.append_nil]

theorem foldLines_noMove : ∀ (ls : List (List (Nat × Nat))) (st : MoveSt),
    (∀ L ∈ ls, WfLine L) → Inv st →
    (List.foldl processLine st ls).moved = false →
    (List.foldl processLine st ls).tiles = st.tiles ∧
    (List.foldl processLine st ls).grid = st.grid ∧
    (List.foldl processLine st ls).scoreGain = st.scoreGain ∧
    (List.foldl processLine st ls).toRemove = st.toRemove := by
  intro ls
  induction ls with
  | nil =>
    intro st _ _ _
    exact ⟨rfl, rfl, rfl, rfl⟩
  | cons L ls ih =>
    intro st hwf hinv h
    rw [List.foldl_cons] at h ⊢
    have hwfL := hwf L (List.mem_cons_self L ls)
    have res := processLine_res st L hwfL hinv
    have h1 : (processLine st L).moved = false := by
      by_contra hc
      rw [moved_foldLines_mono ls (processLine st L)
        (fun L' hL' => hwf L' (List.mem_cons_of_mem L hL')) res.inv
        (by simpa using hc)] at h
      cases h
    obtain ⟨ht, hg, hs, hrm, _⟩ := processLine_noMove st L hwfL hinv h1
    obtain ⟨ht2, hg2, hs2, hrm2⟩ := ih (processLine st L)
      (fun L' hL' => hwf L' (List.mem_cons_of_mem L hL')) res.inv h
    exact ⟨by rw [ht2, ht], by rw [hg2, hg], by rw [hs2, hs], by rw [hrm2, hrm]⟩

/-! ### Resolve-level wrappers -/

theorem resolve_inv {tiles0 : List Tile} {dir : Direction} (hw : wfTiles tiles0) :
    Inv (resolve tiles0 dir) :=
  inv_foldLines (lines dir) _ (wfLine_lines dir) (inv_initSt hw)

theorem resolve_noMove {tiles0 : List Tile} {dir : Direction} (hw : wfTiles tiles0)
    (h : (resolve tiles0 dir).moved = false) :
    (resolve tiles0 dir).tiles = clearFlags tiles0 ∧
    (resolve tiles0 dir).scoreGain = 0 ∧
    (resolve tiles0 dir).toRemove = [] := by
  obtain ⟨ht, _, hs, hrm⟩ :=
    foldLines_noMove (lines dir) (initSt tiles0) (wfLine_lines dir) (inv_initSt hw) h
  exact ⟨ht, hs, hrm⟩

theorem mem_settled {st : MoveSt} {t : Tile} :
    t ∈ settled st ↔ t ∈ st.tiles ∧ t.id ∉ st.toRemove := by
  unfold settled
  rw [List.mem_filter]
  constructor
  · rintro ⟨h1, h2⟩
    refine ⟨h1, fun hmem => ?_⟩
    rw [Bool.not_eq_eq_eq_not, Bool.not_true] at h2
    rw [List.contains_eq_any_beq] at h2
    have : st.toRemove.any (fun x => t.id == x) = true := by
      rw [List.any_eq_true]
      exact ⟨t.id, hmem, by simp⟩
    rw [this] at h2
    cases h2
  · rintro ⟨h1, h2⟩
    refine ⟨h1, ?_⟩
    rw [Bool.not_eq_eq_eq_not, Bool.not_true, List.contains_eq_any_beq]
    rw [Bool.eq_false_iff]
    intro hany
    rw [List.any_eq_true] at hany
    obtain ⟨i, hi, hbeq⟩ := hany
    exact h2 ((by simpa using hbeq : t.id = i).symm ▸ hi)

theorem settled_toRemove_nil {st : MoveSt} (h : st.toRemove = []) :
    settled st = st.tiles := by
  unfold settled
  rw [h]
  simp

theorem settled_wf {st : MoveSt} (hinv : Inv st) : wfTiles (settled st) := by
  have hsub : List.Sublist (settled st) st.tiles := List.filter_sublist st.tiles
  have hnd0 : st.tiles.Nodup := List.Nodup.of_map Tile.id hinv.ids
  refine ⟨?_, ?_, ?_⟩
  · intro t ht
    obtain ⟨h1, h2⟩ := mem_settled.1 ht
    exact ⟨(hinv.alive t h1 h2).1, (hinv.alive t h1 h2).2.1⟩
  · exact List.Nodup.sublist (List.Sublist.map Tile.id hsub) hinv.ids
  · refine List.Nodup.map_on ?_ (List.Sublist.nodup hsub hnd0)
    intro x hx y hy hxy
    obtain ⟨hx1, hx2⟩ := mem_settled.1 hx
    obtain ⟨hy1, hy2⟩ := mem_settled.1 hy
    exact hinv.posInj hx1 hy1 hx2 hy2
      ⟨congrArg Prod.fst hxy, congrArg Prod.snd hxy⟩

theorem settled_sub {st : MoveSt} : ∀ t ∈ settled st, t ∈ st.tiles :=
  fun t ht => (mem_settled.1 ht).1

/-! ### Specification of `canAnyMove` -/

/-! ### The spawner -/

theorem floor_mul_lt {r : ℚ} {n : Nat} (h1 : r < 1) (hn : 0 < n) :
    Int.toNat ⌊r * (n : ℚ)⌋ < n := by
  have hfl : ⌊r * (n : ℚ)⌋ < (n : ℤ) := by
    rw [Int.floor_lt]
    push_cast
    calc r * (n : ℚ) < 1 * (n : ℚ) :=
          mul_lt_mul_of_pos_right h1 (by exact_mod_cast hn)
      _ = (n : ℚ) := one_mul _
  omega

theorem randomSpawn_eq {r1 r2 : ℚ} {idSeq : Nat} {tiles : List Tile}
    (hne : emptyCells tiles ≠ []) :
    randomSpawn r1 r2 idSeq tiles =
      (tiles ++ [⟨idSeq,
          ((emptyCells tiles).getD
            (Int.toNat ⌊r1 * ((emptyCells tiles).length : ℚ)⌋) (0, 0)).1,
          ((emptyCells tiles).getD
            (Int.toNat ⌊r1 * ((emptyCells tiles).length : ℚ)⌋) (0, 0)).2,
          if r2 < 1 / 10 then 4 else 2, true, false⟩],
        idSeq + 1) := by
  unfold randomSpawn
  rw [if_neg (fun h => hne (List.length_eq_zero.1 h))]

theorem spawn_cell_uniform {r1 : ℚ} {n : Nat} (h0 : 0 ≤ r1) (h1 : r1 < 1)
    (hn : 0 < n) (j : Nat) (hj : j < n) :
    Int.toNat ⌊r1 * (n : ℚ)⌋ = j ↔
      ((j : ℚ) / n ≤ r1 ∧ r1 < ((j : ℚ) + 1) / n) := by
  have hnQ : (0 : ℚ) < n := by exact_mod_cast hn
  constructor
  · intro h
    have h0f : 0 ≤ ⌊r1 * (n : ℚ)⌋ :=
      Int.floor_nonneg.2 (mul_nonneg h0 (le_of_lt hnQ))
    have hfl : ⌊r1 * (n : ℚ)⌋ = (j : ℤ) := by omega
    have hle : ((j : ℤ) : ℚ) ≤ r1 * n := by
      rw [← hfl]
      exact Int.floor_le _
    have hlt : r1 * n < ((j : ℤ) : ℚ) + 1 := by
      rw [← hfl]
      exact Int.lt_floor_add_one _
    constructor
    · rw [div_le_iff hnQ]
      push_cast at hle ⊢
      linarith
    · rw [lt_div_iff hnQ]
      push_cast at hlt ⊢
      linarith
  · rintro ⟨hle, hlt⟩
    have hfl : ⌊r1 * (n : ℚ)⌋ = (j : ℤ) := by
      rw [Int.floor_eq_iff]
      constructor
      · rw [div_le_iff hnQ] at hle
        push_cast
        linarith
      · rw [lt_div_iff hnQ] at hlt
        push_cast
        linarith
    rw [hfl]
    simp

theorem randomSpawn_cell_mem {r1 : ℚ} {tiles : List Tile} (h0 : 0 ≤ r1) (h1 : r1 < 1)
    (hne : emptyCells tiles ≠ []) :
    (emptyCells tiles).getD
        (Int.toNat ⌊r1 * ((emptyCells tiles).length : ℚ)⌋) (0, 0)
      ∈ emptyCells tiles := by
  apply getD_mem
  apply floor_mul_lt h1
  exact List.length_pos.2 hne

theorem randomSpawn_wf {r1 r2 : ℚ} {idSeq : Nat} {tiles : List Tile}
    (hw : wfTiles tiles) (hbound : ∀ t ∈ tiles, t.id < idSeq)
    (h0 : 0 ≤ r1) (h1 : r1 < 1) :
    wfTiles (randomSpawn r1 r2 idSeq tiles).1 ∧
    (∀ t ∈ (randomSpawn r1 r2 idSeq tiles).1, t.id < (randomSpawn r1 r2 idSeq tiles).2) := by
  obtain ⟨hrange, hids, hpos⟩ := hw
  rcases hemp : emptyCells tiles with _ | ⟨e0, es⟩
  · have : randomSpawn r1 r2 idSeq tiles = (tiles, idSeq) := by
      unfold randomSpawn
      rw [if_pos (by rw [hemp]; rfl)]
    rw [this]
    exact ⟨⟨hrange, hids, hpos⟩, hbound⟩
  · have hne : emptyCells tiles ≠ [] := by
      rw [hemp]
      exact List.cons_ne_nil e0 es
    have hcell := randomSpawn_cell_mem h0 h1 hne
    obtain ⟨cr, cc, hc⟩ : ∃ cr cc,
        (emptyCells tiles).getD
          (Int.toNat ⌊r1 * ((emptyCells tiles).length : ℚ)⌋) (0, 0) = (cr, cc) :=
      ⟨_, _, rfl⟩
    rw [hc] at hcell
    obtain ⟨hcr, hcc, hcfree⟩ := mem_emptyCells.1 hcell
    rw [randomSpawn_eq hne, hc]
    refine ⟨⟨?_, ?_, ?_⟩, ?_⟩
    · intro t ht
      rcases List.mem_append.1 ht with h | h
      · exact hrange t h
      · rcases List.mem_singleton.1 h with rfl
        exact ⟨hcr, hcc⟩
    · rw [List.map_append]
      rw [List.nodup_append]
      refine ⟨hids, List.nodup_singleton _, ?_⟩
      intro a ha hb
      rw [List.mem_map] at ha
      obtain ⟨t, ht, rfl⟩ := ha
      simp only [List.map_cons, List.map_nil, List.mem_singleton] at hb
      have := hbound t ht
      omega
    · rw [List.map_append]
      rw [List.nodup_append]
      refine ⟨hpos, List.nodup_singleton _, ?_⟩
      intro a ha hb
      rw [List.mem_map] at ha
      obtain ⟨t, ht, rfl⟩ := ha
      simp only [List.map_cons, List.map_nil, List.mem_singleton] at hb
      exact hcfree t ht ⟨congrArg Prod.fst hb, congrArg Prod.snd hb⟩
    · intro t ht
      rcases List.mem_append.1 ht with h | h
      · have := hbound t h
        omega
      · rcases List.mem_singleton.1 h with rfl
        show idSeq < idSeq + 1
        omega

theorem randomSpawn_values {r1 r2 : ℚ} {idSeq : Nat} {tiles : List Tile} {t : Tile}
    (ht : t ∈ (randomSpawn r1 r2 idSeq tiles).1) :
    t ∈ tiles ∨ t.value = 2 ∨ t.value = 4 := by
  by_cases hz : emptyCells tiles = []
  · have hsp : randomSpawn r1 r2 idSeq tiles = (tiles, idSeq) := by
      unfold randomSpawn
      rw [if_pos (by rw [hz]; rfl)]
    rw [hsp] at ht
    exact Or.inl ht
  · rw [randomSpawn_eq hz] at ht
    rcases List.mem_append.1 ht with h | h
    · exact Or.inl h
    · rcases List.mem_singleton.1 h with rfl
      by_cases hv : r2 < 1 / 10
      · right
        right
        show (if r2 < 1 / 10 then 4 else 2) = 4
        rw [if_pos hv]
      · right
        left
        show (if r2 < 1 / 10 then 4 else 2) = 2
        rw [if_neg hv]

/-! ### A full board from which nothing was merged away cannot have moved -/

theorem collectFrom_full (st : MoveSt) (hinv : Inv st) :
    ∀ (qs : List (Nat × Nat)) (i : Nat),
    (∀ pos ∈ qs, cellGet st.grid pos.1 pos.2 ≠ none) →
    (collectFrom st qs i).length = qs.length := by
  intro qs
  induction qs with
  | nil =>
    intro i _
    simp [collectFrom]
  | cons q0 qs ih =>
    intro i hocc
    unfold collectFrom
    rcases hc0 : cellGet st.grid q0.1 q0.2 with _ | id0
    · exact absurd hc0 (hocc q0 (List.mem_cons_self q0 qs))
    · obtain ⟨t0, hmem0, hid0, _, _, _⟩ := hinv.gridSound q0.1 q0.2 id0 hc0
      have hheap0 : heapGet st.tiles id0 = some t0 := by
        rw [← hid0]
        exact hinv.heapAlive hmem0
      dsimp only [Option.bind]
      rw [hheap0]
      dsimp only
      rw [List.length_cons, List.length_cons,
        ih (i + 1) (fun p hp => hocc p (List.mem_cons_of_mem q0 hp))]

theorem pureStep_placed_len (coords : List (Nat × Nat)) (ps : PState) (p : Tile × Nat)
    (h : (pureStep coords ps p).removed = ps.removed) :
    (pureStep coords ps p).placed.length = ps.placed.length + 1 := by
  unfold pureStep at h ⊢
  rcases hg : ps.placed.getLast? with _ | e
  · rw [hg] at h
    simp [purePlace]
  · rw [hg] at h
    dsimp only at h ⊢
    by_cases hm : e.value = p.1.value ∧ e.merged = false
    · rw [if_pos hm] at h
      dsimp only at h
      have := congrArg List.length h
      simp at this
    · rw [if_neg hm]
      simp [purePlace]

theorem pureFold_placed_len (coords : List (Nat × Nat)) :
    ∀ (l : List (Tile × Nat)) (ps : PState),
    (pureFold coords ps l).removed = ps.removed →
    (pureFold coords ps l).placed.length = ps.placed.length + l.length := by
  intro l
  induction l with
  | nil =>
    intro ps _
    simp [pureFold_nil]
  | cons p l ih =>
    intro ps hrm
    rw [pureFold_cons] at hrm ⊢
    have hstep : (pureStep coords ps p).removed = ps.removed := by
      obtain ⟨ex1, h1⟩ := pureStep_removed_grows coords ps p
      obtain ⟨ex2, h2⟩ := pureFold_removed_grows coords (pureStep coords ps p) l
      rw [h2, h1, List.append_assoc] at hrm
      have hlen := congrArg List.length hrm
      simp only [List.length_append] at hlen
      have hex1 : ex1 = [] := List.length_eq_zero.1 (by omega)
      rw [h1, hex1, List.append_nil]
    have hrm2 : (pureFold coords (pureStep coords ps p) l).removed
        = (pureStep coords ps p).removed := by
      rw [hstep]
      exact hrm
    rw [ih _ hrm2, pureStep_placed_len coords ps p hstep]
    simp only [List.length_cons]
    omega

theorem processLine_full (st : MoveSt) (L : List (Nat × Nat)) (hwf : WfLine L)
    (hinv : Inv st) (hfull : ∀ pos ∈ L, cellGet st.grid pos.1 pos.2 ≠ none)
    (hrm : (processLine st L).toRemove = st.toRemove) :
    (processLine st L).moved = st.moved ∧
    (∀ pos ∈ L, cellGet (processLine st L).grid pos.1 pos.2 ≠ none) := by
  have res := processLine_res st L hwf hinv
  have hremnil : (linePure st L).removed = [] := by
    have hacc := res.accRemove
    rw [hrm] at hacc
    have hlen := congrArg List.length hacc
    simp only [List.length_append] at hlen
    exact List.length_eq_zero.1 (by omega)
  have hclen : (collectRem st L).length = L.length := collectFrom_full st hinv L 0 hfull
  have hnm : (linePure st L).movedF = false := by
    unfold linePure
    exact pureFold_full_noMove L (collectRem st L) ⟨[], 0, [], false⟩
      (collectRem_pairwise st L hinv)
      (fun q hq => ⟨Nat.zero_le _, (collectRem_ok st L hinv q hq).1⟩)
      (by simpa using hclen) hremnil
  refine ⟨?_, ?_⟩
  · rw [res.accMoved, hnm, Bool.or_false]
  · have hplen : (linePure st L).placed.length = L.length := by
      unfold linePure
      rw [pureFold_placed_len L (collectRem st L) ⟨[], 0, [], false⟩ hremnil]
      simpa using hclen
    intro pos hpos
    obtain ⟨j, hj, hjpos⟩ := List.mem_iff_getElem.1 hpos
    have hjlt : j < (linePure st L).placed.length := by
      rw [hplen]
      exact hj
    have hat := (res.placedAt j hjlt).2.2.1
    have hgd : L.getD j (0, 0) = pos := by
      rw [List.getD_eq_getElem _ _ hj, hjpos]
    rw [hgd] at hat
    rw [hat]
    simp

theorem toRemove_foldLines_grows : ∀ (ls : List (List (Nat × Nat))) (st : MoveSt),
    (∀ L ∈ ls, WfLine L) → Inv st →
    ∃ ex, (List.foldl processLine st ls).toRemove = st.toRemove ++ ex := by
  intro ls
  induction ls with
  | nil =>
    intro st _ _
    exact ⟨[], by simp⟩
  | cons L ls ih =>
    intro st hwf hinv
    rw [List.foldl_cons]
    have res := processLine_res st L (hwf L (List.mem_cons_self L ls)) hinv
    obtain ⟨ex2, h2⟩ := ih (processLine st L)
      (fun L' h => hwf L' (List.mem_cons_of_mem L h)) res.inv
    exact ⟨(linePure st L).removed ++ ex2, by rw [h2, res.accRemove, List.append_assoc]⟩

theorem foldLines_full_noMove : ∀ (ls : List (List (Nat × Nat))) (st : MoveSt),
    (∀ L ∈ ls, WfLine L) → Inv st →
    (∀ r c, r < SIZE → c < SIZE → cellGet st.grid r c ≠ none) →
    (List.foldl processLine st ls).toRemove = st.toRemove →
    (List.foldl processLine st ls).moved = st.moved := by
  intro ls
  induction ls with
  | nil =>
    intro st _ _ _ _
    rfl
  | cons L ls ih =>
    intro st hwf hinv hfull hrm
    rw [List.foldl_cons] at hrm ⊢
    have hwfL := hwf L (List.mem_cons_self L ls)
    have res := processLine_res st L hwfL hinv
    have h1 : (processLine st L).toRemove = st.toRemove := by
      obtain ⟨ex2, h2⟩ := toRemove_foldLines_grows ls (processLine st L)
        (fun L' h => hwf L' (List.mem_cons_of_mem L h)) res.inv
      rw [h2, res.accRemove, List.append_assoc] at hrm
      have hlen := congrArg List.length hrm
      simp only [List.length_append] at hlen
      have hr1 : (linePure st L).removed = [] := List.length_eq_zero.1 (by omega)
      rw [res.accRemove, hr1, List.append_nil]
    obtain ⟨hmv1, hfull1⟩ := processLine_full st L hwfL hinv
      (fun pos hpos => hfull pos.1 pos.2 (hwfL.2.1 pos hpos).1 (hwfL.2.1 pos hpos).2)
      h1
    have hfull2 : ∀ r c, r < SIZE → c < SIZE →
        cellGet (processLine st L).grid r c ≠ none := by
      intro r c hr hc
      by_cases hin : (r, c) ∈ L
      · exact hfull1 (r, c) hin
      · rw [res.frameGrid r c hin]
        exact hfull r c hr hc
    have hrm2 : (List.foldl processLine (processLine st L) ls).toRemove
        = (processLine st L).toRemove := by
      rw [h1]
      exact hrm
    rw [ih (processLine st L) (fun L' h => hwf L' (List.mem_cons_of_mem L h)) res.inv
      hfull2 hrm2, hmv1]

theorem full_cell_of_sixteen {tiles : List Tile} (hw : wfTiles tiles)
    (hlen : tiles.length = 16) {r c : Nat} (hr : r < SIZE) (hc : c < SIZE) :
    ∃ t ∈ tiles, t.row = r ∧ t.col = c := by
  obtain ⟨hrange, _, hpos⟩ := hw
  by_contra hnone
  push_neg at hnone
  have hsub : tiles.map (fun t => (t.row, t.col)) ⊆ allCells.erase (r, c) := by
    intro p hp
    rw [List.mem_map] at hp
    obtain ⟨t, ht, rfl⟩ := hp
    have hmem : (t.row, t.col) ∈ allCells :=
      mem_allCells.2 ⟨(hrange t ht).1, (hrange t ht).2⟩
    have hne : (t.row, t.col) ≠ (r, c) := by
      intro he
      exact hnone t ht (congrArg Prod.fst he) (congrArg Prod.snd he)
    exact (List.mem_erase_of_ne hne).2 hmem
  have hsp := (hpos.subperm hsub).length_le
  have herase : (allCells.erase (r, c)).length = 15 := by
    rw [List.length_erase_of_mem (mem_allCells.2 ⟨hr, hc⟩)]
    decide
  rw [herase, List.length_map, hlen] at hsp
  omega

theorem initSt_full {tiles0 : List Tile} (hw : wfTiles tiles0)
    (hlen : tiles0.length = 16) :
    ∀ r c, r < SIZE → c < SIZE → cellGet (initSt tiles0).grid r c ≠ none := by
  intro r c hr hc
  have hwc := wfTiles_clearFlags hw
  have hlc : (clearFlags tiles0).length = 16 := by
    rw [clearFlags_length, hlen]
  obtain ⟨t, ht, hrow, hcol⟩ := full_cell_of_sixteen hwc hlc hr hc
  have hinv := inv_initSt hw
  have htm : t ∈ (initSt tiles0).tiles := ht
  have hal : t.id ∉ (initSt tiles0).toRemove := by
    intro h
    cases h
  have := (hinv.alive t htm hal).2.2
  rw [hrow, hcol] at this
  rw [this]
  simp

theorem resolve_full_noMove {tiles0 : List Tile} {dir : Direction} (hw : wfTiles tiles0)
    (hlen : tiles0.length = 16) (hrm : (resolve tiles0 dir).toRemove = []) :
    (resolve tiles0 dir).moved = false := by
  have h := foldLines_full_noMove (lines dir) (initSt tiles0) (wfLine_lines dir)
    (inv_initSt hw) (initSt_full hw hlen) hrm
  exact h

theorem ids_foldLines : ∀ (ls : List (List (Nat × Nat))) (st : MoveSt),
    (∀ L ∈ ls, WfLine L) → Inv st →
    (List.foldl processLine st ls).tiles.map Tile.id = st.tiles.map Tile.id := by
  intro ls
  induction ls with
  | nil =>
    intro st _ _
    rfl
  | cons L ls ih =>
    intro st hwf hinv
    rw [List.foldl_cons]
    have res := processLine_res st L (hwf L (List.mem_cons_self L ls)) hinv
    rw [ih (processLine st L) (fun L' h => hwf L' (List.mem_cons_of_mem L h)) res.inv,
      res.idsEq]

theorem resolve_ids {tiles0 : List Tile} {dir : Direction} (hw : wfTiles tiles0) :
    (resolve tiles0 dir).tiles.map Tile.id = tiles0.map Tile.id := by
  have h := ids_foldLines (lines dir) (initSt tiles0) (wfLine_lines dir) (inv_initSt hw)
  rw [show (resolve tiles0 dir) = List.foldl processLine (initSt tiles0) (lines dir)
    from rfl, h]
  exact clearFlags_map_id tiles0

theorem resolve_length {tiles0 : List Tile} {dir : Direction} (hw : wfTiles tiles0) :
    (resolve tiles0 dir).tiles.length = tiles0.length := by
  have h := congrArg List.length (@resolve_ids tiles0 dir hw)
  simpa using h

/-- The key safety fact behind the spawner: an effective move always leaves
an empty cell on the compressed board. -/
theorem moved_empty {tiles0 : List Tile} {dir : Direction} (hw : wfTiles tiles0)
    (hm : (resolve tiles0 dir).moved = true) :
    emptyCells (settled (resolve tiles0 dir)) ≠ [] := by
  have hinv := @resolve_inv tiles0 dir hw
  have hwset := settled_wf hinv
  have hlen16 : tiles0.length ≤ 16 := tiles_length_le_sixteen hw
  have hlenres : (resolve tiles0 dir).tiles.length = tiles0.length := resolve_length hw
  rcases hrm : (resolve tiles0 dir).toRemove with _ | ⟨i, is⟩
  · rcases Nat.lt_or_ge tiles0.length 16 with hlt | hge
    · have hwres : wfTiles (resolve tiles0 dir).tiles := by
        rw [← settled_toRemove_nil hrm]
        exact hwset
      rw [settled_toRemove_nil hrm]
      exact emptyCells_ne_nil_of_length_lt hwres (by omega)
    · have hl16 : tiles0.length = 16 := le_antisymm hlen16 hge
      rw [resolve_full_noMove hw hl16 hrm] at hm
      cases hm
  · have hmem : ∃ t ∈ (resolve tiles0 dir).tiles,
        ¬ ((!((resolve tiles0 dir).toRemove.contains t.id)) = true) := by
      have hin : i ∈ (resolve tiles0 dir).toRemove := by
        rw [hrm]
        exact List.mem_cons_self i is
      have hid := hinv.removedSub i hin
      rw [List.mem_map] at hid
      obtain ⟨t, ht, hti⟩ := hid
      refine ⟨t, ht, ?_⟩
      rw [List.contains_eq_any_beq]
      have hany : ((resolve tiles0 dir).toRemove.any fun x => t.id == x) = true := by
        rw [List.any_eq_true]
        exact ⟨i, hin, by rw [hti]; simp⟩
      rw [hany]
      simp
    have hflt : (settled (resolve tiles0 dir)).length
        < (resolve tiles0 dir).tiles.length := by
      unfold settled
      exact List.length_filter_lt_length_iff_exists.2 hmem
    exact emptyCells_ne_nil_of_length_lt hwset (by omega)

theorem canAnyMove_iff {tiles : List Tile} (hw : wfTiles tiles) :
    canAnyMove tiles = true ↔
      (emptyCells tiles ≠ [] ∨
       ∃ t ∈ tiles, ∃ u ∈ tiles, Adjacent t u ∧ t.value = u.value) := by
  obtain ⟨hrange, hids, hpos⟩ := hw
  unfold canAnyMove
  by_cases hemp : 0 < (emptyCells tiles).length
  · rw [if_pos hemp]
    simp only [true_iff]
    left
    intro hnil
    rw [hnil] at hemp
    cases hemp
  · rw [if_neg hemp]
    have hnil : emptyCells tiles = [] := by
      rcases hx : emptyCells tiles with _ | ⟨a, l⟩
      · rfl
      · rw [hx] at hemp
        exact absurd (by simp) hemp
    constructor
    · intro hany
      right
      rw [List.any_eq_true] at hany
      obtain ⟨r, hr, hany2⟩ := hany
      rw [List.any_eq_true] at hany2
      obtain ⟨c, hc, hbody⟩ := hany2
      rw [List.mem_range] at hr hc
      rcases hcg : cellGet (buildGrid (fun t => t) tiles) r c with _ | t
      · rw [hcg] at hbody
        cases hbody
      · rw [hcg] at hbody
        dsimp only at hbody
        obtain ⟨t', ht', hrow, hcol, hteq0⟩ := buildGrid_get_some_of hrange hcg
        have hteq : t' = t := hteq0
        rw [Bool.or_eq_true, Bool.and_eq_true, Bool.and_eq_true] at hbody
        rcases hbody with ⟨hlt, hopt⟩ | ⟨hlt, hopt⟩
        · rcases hcg2 : cellGet (buildGrid (fun t => t) tiles) (r + 1) c with _ | u
          · rw [hcg2] at hopt
            cases hopt
          · rw [hcg2] at hopt
            obtain ⟨u', hu', hurow, hucol, hueq0⟩ := buildGrid_get_some_of hrange hcg2
            have hueq : u' = u := hueq0
            refine ⟨t', ht', u', hu', ?_, ?_⟩
            · right
              exact ⟨by rw [hcol, hucol], Or.inl (by rw [hrow, hurow])⟩
            · have hval : u.value = t.value := by simpa using hopt
              rw [hteq, hueq]
              exact hval.symm
        · rcases hcg2 : cellGet (buildGrid (fun t => t) tiles) r (c + 1) with _ | u
          · rw [hcg2] at hopt
            cases hopt
          · rw [hcg2] at hopt
            obtain ⟨u', hu', hurow, hucol, hueq0⟩ := buildGrid_get_some_of hrange hcg2
            have hueq : u' = u := hueq0
            refine ⟨t', ht', u', hu', ?_, ?_⟩
            · left
              exact ⟨by rw [hrow, hurow], Or.inl (by rw [hcol, hucol])⟩
            · have hval : u.value = t.value := by simpa using hopt
              rw [hteq, hueq]
              exact hval.symm
    · intro hpair
      rcases hpair with hnil' | ⟨t, ht, u, hu, hadj, hval⟩
      · exact absurd hnil hnil'
      have hkey : ∀ a, a ∈ tiles → ∀ b, b ∈ tiles →
          ((b.row = a.row ∧ b.col = a.col + 1) ∨ (b.col = a.col ∧ b.row = a.row + 1)) →
          a.value = b.value →
          ((List.range SIZE).any fun r =>
            (List.range SIZE).any fun c =>
              match cellGet (buildGrid (fun t => t) tiles) r c with
              | none => false
              | some t =>
                (decide (r + 1 < SIZE) &&
                  (cellGet (buildGrid (fun t => t) tiles) (r + 1) c).any
                    (fun u => u.value == t.value)) ||
                (decide (c + 1 < SIZE) &&
                  (cellGet (buildGrid (fun t => t) tiles) r (c + 1)).any
                    (fun u => u.value == t.value))) = true := by
        intro a ha b hb hrel hv
        rw [List.any_eq_true]
        refine ⟨a.row, List.mem_range.2 (hrange a ha).1, ?_⟩
        rw [List.any_eq_true]
        refine ⟨a.col, List.mem_range.2 (hrange a ha).2, ?_⟩
        have hacell := buildGrid_get_of_mem (f := fun t => t) hpos hrange ha
        rw [hacell]
        dsimp only
        have hbcell := buildGrid_get_of_mem (f := fun t => t) hpos hrange hb
        rcases hrel with ⟨h1, h2⟩ | ⟨h1, h2⟩
        · rw [h1, h2] at hbcell
          have hc1 : a.col + 1 < SIZE := by
            rw [← h2]
            exact (hrange b hb).2
          rw [Bool.or_eq_true]
          right
          rw [Bool.and_eq_true]
          refine ⟨by simpa using hc1, ?_⟩
          rw [hbcell]
          simpa using hv.symm
        · rw [h1, h2] at hbcell
          have hr1 : a.row + 1 < SIZE := by
            rw [← h2]
            exact (hrange b hb).1
          rw [Bool.or_eq_true]
          left
          rw [Bool.and_eq_true]
          refine ⟨by simpa using hr1, ?_⟩
          rw [hbcell]
          simpa using hv.symm
      rcases hadj with ⟨hrow, hcol | hcol⟩ | ⟨hcol, hrow | hrow⟩
      · exact hkey t ht u hu (Or.inl ⟨hrow.symm, hcol.symm⟩) hval
      · exact hkey u hu t ht (Or.inl ⟨hrow, hcol.symm⟩) hval.symm
      · exact hkey t ht u hu (Or.inr ⟨hcol.symm, hrow.symm⟩) hval
      · exact hkey u hu t ht (Or.inr ⟨hcol, hrow.symm⟩) hval.symm



/-! ### Move-level equations -/

theorem bool_eq_of_iff {a b : Bool} (h : a = true ↔ b = true) : a = b := by
  cases a <;> cases b <;> simp_all

theorem gameStateExt {a b : GameState} (h1 : a.tiles = b.tiles)
    (h2 : a.score = b.score) (h3 : a.best = b.best) (h4 : a.won = b.won)
    (h5 : a.over = b.over) : a = b := by
  cases a
  cases b
  simp_all

theorem prodExt {α β : Type _} {p q : α × β} (h1 : p.1 = q.1) (h2 : p.2 = q.2) :
    p = q := by
  cases p
  cases q
  simp_all

theorem move_tiles_eq (r1 r2 : ℚ) (idSeq : Nat) (prev : GameState) (dir : Direction) :
    (move r1 r2 idSeq prev dir).1.tiles
      = (if (resolve prev.tiles dir).moved then
          randomSpawn r1 r2 idSeq (settled (resolve prev.tiles dir))
        else (settled (resolve prev.tiles dir), idSeq)).1 := rfl

theorem move_idSeq_eq (r1 r2 : ℚ) (idSeq : Nat) (prev : GameState) (dir : Direction) :
    (move r1 r2 idSeq prev dir).2
      = (if (resolve prev.tiles dir).moved then
          randomSpawn r1 r2 idSeq (settled (resolve prev.tiles dir))
        else (settled (resolve prev.tiles dir), idSeq)).2 := rfl

theorem move_score_eq (r1 r2 : ℚ) (idSeq : Nat) (prev : GameState) (dir : Direction) :
    (move r1 r2 idSeq prev dir).1.score
      = prev.score + (resolve prev.tiles dir).scoreGain := rfl

theorem move_best_eq (r1 r2 : ℚ) (idSeq : Nat) (prev : GameState) (dir : Direction) :
    (move r1 r2 idSeq prev dir).1.best
      = max prev.best (prev.score + (resolve prev.tiles dir).scoreGain) := rfl

theorem move_won_eq (r1 r2 : ℚ) (idSeq : Nat) (prev : GameState) (dir : Direction) :
    (move r1 r2 idSeq prev dir).1.won
      = (prev.won ||
          (settled (resolve prev.tiles dir)).any (fun t => decide (2048 ≤ t.value))) := rfl

theorem move_over_eq (r1 r2 : ℚ) (idSeq : Nat) (prev : GameState) (dir : Direction) :
    (move r1 r2 idSeq prev dir).1.over
      = (!(move r1 r2 idSeq prev dir).1.won
          && !canAnyMove (move r1 r2 idSeq prev dir).1.tiles) := rfl

theorem move_moved_tiles {r1 r2 : ℚ} {idSeq : Nat} {prev : GameState} {dir : Direction}
    (hm : (resolve prev.tiles dir).moved = true) :
    (move r1 r2 idSeq prev dir).1.tiles
        = (randomSpawn r1 r2 idSeq (settled (resolve prev.tiles dir))).1 ∧
    (move r1 r2 idSeq prev dir).2
        = (randomSpawn r1 r2 idSeq (settled (resolve prev.tiles dir))).2 := by
  rw [move_tiles_eq, move_idSeq_eq, hm]
  exact ⟨rfl, rfl⟩

theorem move_notMoved_tiles {r1 r2 : ℚ} {idSeq : Nat} {prev : GameState} {dir : Direction}
    (hm : (resolve prev.tiles dir).moved = false) :
    (move r1 r2 idSeq prev dir).1.tiles = settled (resolve prev.tiles dir) ∧
    (move r1 r2 idSeq prev dir).2 = idSeq := by
  rw [move_tiles_eq, move_idSeq_eq, hm]
  exact ⟨rfl, rfl⟩

theorem move_wf {r1 r2 : ℚ} {idSeq : Nat} {prev : GameState} {dir : Direction}
    (hw : wfTiles prev.tiles) (hbound : ∀ t ∈ prev.tiles, t.id < idSeq)
    (h0 : 0 ≤ r1) (h1 : r1 < 1) :
    wfTiles (move r1 r2 idSeq prev dir).1.tiles ∧
    ∀ t ∈ (move r1 r2 idSeq prev dir).1.tiles, t.id < (move r1 r2 idSeq prev dir).2 := by
  have hinv := @resolve_inv prev.tiles dir hw
  have hwset := settled_wf hinv
  have hbset : ∀ t ∈ settled (resolve prev.tiles dir), t.id < idSeq := by
    intro t ht
    have htm := settled_sub t ht
    have hid : t.id ∈ (resolve prev.tiles dir).tiles.map Tile.id :=
      List.mem_map_of_mem _ htm
    rw [resolve_ids hw, List.mem_map] at hid
    obtain ⟨u, hu, hui⟩ := hid
    rw [← hui]
    exact hbound u hu
  rcases hmv : (resolve prev.tiles dir).moved with _ | _
  · obtain ⟨ht, hs⟩ := @move_notMoved_tiles r1 r2 idSeq prev dir hmv
    rw [ht, hs]
    exact ⟨hwset, hbset⟩
  · obtain ⟨ht, hs⟩ := @move_moved_tiles r1 r2 idSeq prev dir hmv
    rw [ht, hs]
    exact randomSpawn_wf hwset hbset h0 h1

/-! ### Flag clearing is invisible to everything but the flags -/

theorem mem_clearFlags {tiles : List Tile} {u : Tile} :
    u ∈ clearFlags tiles ↔
      ∃ t ∈ tiles, u = { t with merged := false, spawned := false } := by
  unfold clearFlags
  rw [List.mem_map]
  constructor
  · rintro ⟨t, ht, rfl⟩
    exact ⟨t, ht, rfl⟩
  · rintro ⟨t, ht, rfl⟩
    exact ⟨t, ht, rfl⟩

theorem emptyCells_clearFlags (tiles : List Tile) :
    emptyCells (clearFlags tiles) = emptyCells tiles := by
  unfold emptyCells
  rw [clearFlags_map_pos]

theorem canAnyMove_clearFlags {tiles : List Tile} (hw : wfTiles tiles) :
    canAnyMove (clearFlags tiles) = canAnyMove tiles := by
  apply bool_eq_of_iff
  rw [canAnyMove_iff (wfTiles_clearFlags hw), canAnyMove_iff hw, emptyCells_clearFlags]
  constructor
  · rintro (h | ⟨t, ht, u, hu, hadj, hval⟩)
    · exact Or.inl h
    · obtain ⟨t0, ht0, rfl⟩ := mem_clearFlags.1 ht
      obtain ⟨u0, hu0, rfl⟩ := mem_clearFlags.1 hu
      exact Or.inr ⟨t0, ht0, u0, hu0, hadj, hval⟩
  · rintro (h | ⟨t, ht, u, hu, hadj, hval⟩)
    · exact Or.inl h
    · refine Or.inr ⟨{ t with merged := false, spawned := false },
        mem_clearFlags.2 ⟨t, ht, rfl⟩,
        { u with merged := false, spawned := false },
        mem_clearFlags.2 ⟨u, hu, rfl⟩, ?_, ?_⟩
      · exact hadj
      · exact hval

theorem clearFlags_idem (tiles : List Tile) :
    clearFlags (clearFlags tiles) = clearFlags tiles := by
  unfold clearFlags
  rw [List.map_map]
  rfl

theorem initSt_clearFlags (tiles0 : List Tile) :
    initSt (clearFlags tiles0) = initSt tiles0 := by
  unfold initSt
  rw [clearFlags_idem]

theorem resolve_clearFlags (tiles0 : List Tile) (dir : Direction) :
    resolve (clearFlags tiles0) dir = resolve tiles0 dir := by
  unfold resolve
  rw [initSt_clearFlags]

theorem move_noMove_spec {r1 r2 : ℚ} {idSeq : Nat} {prev : GameState} {dir : Direction}
    (hw : wfTiles prev.tiles) (hm : (resolve prev.tiles dir).moved = false) :
    move r1 r2 idSeq prev dir =
      ({ tiles := clearFlags prev.tiles,
         score := prev.score,
         best := max prev.best prev.score,
         won := prev.won ||
             (clearFlags prev.tiles).any (fun t => decide (2048 ≤ t.value)),
         over := !(prev.won ||
               (clearFlags prev.tiles).any (fun t => decide (2048 ≤ t.value)))
             && !canAnyMove (clearFlags prev.tiles) }, idSeq) := by
  obtain ⟨hrt, hrs, hrrm⟩ := resolve_noMove hw hm
  have hset : settled (resolve prev.tiles dir) = clearFlags prev.tiles := by
    rw [settled_toRemove_nil hrrm, hrt]
  obtain ⟨hmt, hms⟩ := @move_notMoved_tiles r1 r2 idSeq prev dir hm
  apply prodExt
  · apply gameStateExt
    · rw [hmt, hset]
    · rw [move_score_eq, hrs]
      simp
    · rw [move_best_eq, hrs]
      simp
    · rw [move_won_eq, hset]
    · rw [move_over_eq, move_won_eq, hmt, hset]
  · rw [hms]


/-! ### Tile values only ever double -/

/-- A value that is a power of two and at least `2`. -/
def IsPow (n : Nat) : Prop := ∃ k : Nat, n = 2 ^ (k + 1)

theorem heapSet_values {tiles : List Tile} {i : Nat} {f : Tile → Tile} {t' : Tile}
    (ht' : t' ∈ heapSet tiles i f)
    (hf : ∀ t, (f t).value = t.value ∨ (f t).value = t.value * 2) :
    ∃ t ∈ tiles, t'.value = t.value ∨ t'.value = t.value * 2 := by
  rw [mem_heapSet_iff] at ht'
  obtain ⟨t, ht, rfl⟩ := ht'
  refine ⟨t, ht, ?_⟩
  by_cases hb : t.id = i
  · rw [if_pos hb]
    exact hf t
  · rw [if_neg hb]
    exact Or.inl rfl

theorem stepTile_values (coords : List (Nat × Nat)) (st : MoveSt) (i : Nat) :
    ∀ t' ∈ (stepTile coords st i).tiles, ∃ t ∈ st.tiles,
      t'.value = t.value ∨ t'.value = t.value * 2 := by
  unfold stepTile
  rcases hcur : heapGet st.tiles i with _ | current
  · intro t' ht'
    exact ⟨t', ht', Or.inl rfl⟩
  · dsimp only
    by_cases hti : 0 < st.targetIndex
    · rw [if_pos hti]
      rcases hocc : (cellGet st.grid (coords.getD (st.targetIndex - 1) (0, 0)).1
          (coords.getD (st.targetIndex - 1) (0, 0)).2).bind (heapGet st.tiles)
          with _ | prevTile
      · dsimp only
        intro t' ht'
        exact heapSet_values ht' (fun t => Or.inl rfl)
      · dsimp only
        by_cases hcond : (prevTile.value == current.value && !prevTile.merged) = true
        · rw [if_pos hcond]
          dsimp only
          intro t' ht'
          exact heapSet_values ht' (fun t => Or.inr rfl)
        · rw [if_neg hcond]
          dsimp only
          intro t' ht'
          exact heapSet_values ht' (fun t => Or.inl rfl)
    · rw [if_neg hti]
      dsimp only
      intro t' ht'
      exact heapSet_values ht' (fun t => Or.inl rfl)

theorem foldl_stepTile_values (coords : List (Nat × Nat)) :
    ∀ (ids : List Nat) (st : MoveSt), ∀ t' ∈ (List.foldl (stepTile coords) st ids).tiles,
    ∃ t ∈ st.tiles, ∃ m : Nat, t'.value = t.value * 2 ^ m := by
  intro ids
  induction ids with
  | nil =>
    intro st t' ht'
    exact ⟨t', ht', 0, by simp⟩
  | cons j ids ih =>
    intro st t' ht'
    rw [List.foldl_cons] at ht'
    obtain ⟨t1, ht1, m1, hm1⟩ := ih (stepTile coords st j) t' ht'
    obtain ⟨t0, ht0, hor⟩ := stepTile_values coords st j t1 ht1
    rcases hor with h | h
    · exact ⟨t0, ht0, m1, by rw [hm1, h]⟩
    · exact ⟨t0, ht0, m1 + 1, by rw [hm1, h]; ring⟩

theorem processLine_values (st : MoveSt) (L : List (Nat × Nat)) :
    ∀ t' ∈ (processLine st L).tiles, ∃ t ∈ st.tiles, ∃ m : Nat,
      t'.value = t.value * 2 ^ m := by
  intro t' ht'
  unfold processLine at ht'
  dsimp only at ht'
  by_cases hz : (L.filterMap (fun p => cellGet st.grid p.1 p.2)).length = 0
  · rw [if_pos hz] at ht'
    exact ⟨t', ht', 0, by simp⟩
  · rw [if_neg hz] at ht'
    obtain ⟨t, ht, m, hm⟩ := foldl_stepTile_values L _ { st with targetIndex := 0 } t' ht'
    exact ⟨t, ht, m, hm⟩

theorem foldLines_values : ∀ (ls : List (List (Nat × Nat))) (st : MoveSt),
    ∀ t' ∈ (List.foldl processLine st ls).tiles,
    ∃ t ∈ st.tiles, ∃ m : Nat, t'.value = t.value * 2 ^ m := by
  intro ls
  induction ls with
  | nil =>
    intro st t' ht'
    exact ⟨t', ht', 0, by simp⟩
  | cons L ls ih =>
    intro st t' ht'
    rw [List.foldl_cons] at ht'
    obtain ⟨t1, ht1, m1, h1⟩ := ih (processLine st L) t' ht'
    obtain ⟨t0, ht0, m0, h0⟩ := processLine_values st L t1 ht1
    exact ⟨t0, ht0, m0 + m1, by rw [h1, h0]; ring⟩

theorem resolve_values {tiles0 : List Tile} {dir : Direction} :
    ∀ t' ∈ (resolve tiles0 dir).tiles, ∃ t ∈ tiles0, ∃ m : Nat,
      t'.value = t.value * 2 ^ m := by
  intro t' ht'
  obtain ⟨t1, ht1, m, hm⟩ := foldLines_values (lines dir) (initSt tiles0) t' ht'
  obtain ⟨t0, ht0, rfl⟩ := mem_clearFlags.1 ht1
  exact ⟨t0, ht0, m, hm⟩

theorem move_values {r1 r2 : ℚ} {idSeq : Nat} {prev : GameState} {dir : Direction}
    (hgood : ∀ t ∈ prev.tiles, IsPow t.value) :
    ∀ t ∈ (move r1 r2 idSeq prev dir).1.tiles, IsPow t.value := by
  have hset : ∀ t ∈ settled (resolve prev.tiles dir), IsPow t.value := by
    intro t ht
    obtain ⟨t0, ht0, m, hm⟩ := resolve_values t (settled_sub t ht)
    obtain ⟨k, hk⟩ := hgood t0 ht0
    exact ⟨k + m, by rw [hm, hk, ← pow_add, Nat.add_right_comm]⟩
  rcases hmv : (resolve prev.tiles dir).moved with _ | _
  · rw [(@move_notMoved_tiles r1 r2 idSeq prev dir hmv).1]
    exact hset
  · rw [(@move_moved_tiles r1 r2 idSeq prev dir hmv).1]
    intro t ht
    rcases randomSpawn_values ht with h | h | h
    · exact hset t h
    · exact ⟨0, by rw [h]; norm_num⟩
    · exact ⟨1, by rw [h]; norm_num⟩

theorem newGame_wf {r1 r2 r3 r4 : ℚ} {s : GameState}
    (h0 : 0 ≤ r1) (h1 : r1 < 1) (h2 : 0 ≤ r3) (h3 : r3 < 1) :
    wfTiles (newGame r1 r2 r3 r4 s).1.tiles ∧
    (∀ t ∈ (newGame r1 r2 r3 r4 s).1.tiles, t.id < (newGame r1 r2 r3 r4 s).2) ∧
    (∀ t ∈ (newGame r1 r2 r3 r4 s).1.tiles, IsPow t.value) := by
  have hw0 : wfTiles ([] : List Tile) :=
    ⟨fun t ht => absurd ht (List.not_mem_nil t), List.nodup_nil, List.nodup_nil⟩
  have hb0 : ∀ t ∈ ([] : List Tile), t.id < 1 :=
    fun t ht => absurd ht (List.not_mem_nil t)
  obtain ⟨hw1, hb1⟩ := @randomSpawn_wf r1 r2 1 [] hw0 hb0 h0 h1
  obtain ⟨hw2, hb2⟩ := @randomSpawn_wf r3 r4 (randomSpawn r1 r2 1 []).2
    (randomSpawn r1 r2 1 []).1 hw1 hb1 h2 h3
  refine ⟨hw2, hb2, ?_⟩
  intro t ht
  rcases randomSpawn_values ht with h | h | h
  · rcases randomSpawn_values h with h' | h' | h'
    · exact absurd h' (List.not_mem_nil t)
    · exact ⟨0, by rw [h']; norm_num⟩
    · exact ⟨1, by rw [h']; norm_num⟩
  · exact ⟨0, by rw [h]; norm_num⟩
  · exact ⟨1, by rw [h]; norm_num⟩


/-! ### Sequences of moves -/

theorem applyMoves_nil (p : GameState × Nat) : applyMoves p [] = p := rfl

theorem applyMoves_cons (p : GameState × Nat) (m : Direction × ℚ × ℚ)
    (ms : List (Direction × ℚ × ℚ)) :
    applyMoves p (m :: ms) = applyMoves (move m.2.1 m.2.2 p.2 p.1 m.1) ms := rfl

theorem scoresOf_cons (p : GameState × Nat) (m : Direction × ℚ × ℚ)
    (ms : List (Direction × ℚ × ℚ)) :
    scoresOf p (m :: ms) =
      (move m.2.1 m.2.2 p.2 p.1 m.1).1.score
        :: scoresOf (move m.2.1 m.2.2 p.2 p.1 m.1) ms := rfl

theorem won_applyMoves : ∀ (ms : List (Direction × ℚ × ℚ)) (p : GameState × Nat),
    p.1.won = true → (applyMoves p ms).1.won = true := by
  intro ms
  induction ms with
  | nil =>
    intro p h
    exact h
  | cons m ms ih =>
    intro p h
    rw [applyMoves_cons]
    apply ih
    rw [move_won_eq, h, Bool.true_or]

theorem best_applyMoves : ∀ (ms : List (Direction × ℚ × ℚ)) (p : GameState × Nat),
    (applyMoves p ms).1.best = max p.1.best ((scoresOf p ms).foldr max 0) := by
  intro ms
  induction ms with
  | nil =>
    intro p
    rw [applyMoves_nil]
    show p.1.best = max p.1.best (List.foldr max 0 [])
    rw [List.foldr_nil]
    omega
  | cons m ms ih =>
    intro p
    rw [applyMoves_cons, ih, scoresOf_cons, List.foldr_cons]
    rw [move_best_eq, move_score_eq, max_assoc]

theorem newGame_state (r1 r2 r3 r4 : ℚ) (s : GameState) :
    (newGame r1 r2 r3 r4 s).1.best = s.best ∧
    (newGame r1 r2 r3 r4 s).1.score = 0 ∧
    (newGame r1 r2 r3 r4 s).1.won = false ∧
    (newGame r1 r2 r3 r4 s).1.over = false := ⟨rfl, rfl, rfl, rfl⟩


/-! ### Locating one line inside a move -/

theorem lines_disjoint_idx (dir : Direction) : ∀ i ∈ List.range 4, ∀ j ∈ List.range 4,
    i ≠ j → ∀ p ∈ (lines dir).getD i [], p ∉ (lines dir).getD j [] := by
  cases dir <;> decide

theorem take_lines_disjoint {dir : Direction} {k : Nat} (hk : k < 4) :
    ∀ L' ∈ (lines dir).take k, ∀ pos ∈ (lines dir).getD k [], pos ∉ L' := by
  intro L' hL' pos hpos
  obtain ⟨i, hi, heq⟩ := List.mem_iff_getElem.1 hL'
  have hil : i < k := by
    have h := hi
    simp only [List.length_take, lines_length] at h
    omega
  have hi4 : i < (lines dir).length := by
    rw [lines_length]
    omega
  have hLi : L' = (lines dir).getD i [] := by
    rw [List.getD_eq_getElem _ _ hi4, ← heq]
    exact List.getElem_take _
  rw [hLi]
  exact lines_disjoint_idx dir k (List.mem_range.2 hk) i
    (List.mem_range.2 (by rw [lines_length] at hi4; omega)) (by omega) pos hpos

theorem drop_lines_disjoint {dir : Direction} {k : Nat} (hk : k < 4) :
    ∀ L' ∈ (lines dir).drop (k + 1), ∀ pos ∈ (lines dir).getD k [], pos ∉ L' := by
  intro L' hL' pos hpos
  obtain ⟨i, hi, heq⟩ := List.mem_iff_getElem.1 hL'
  have hi4 : k + 1 + i < (lines dir).length := by
    have h := hi
    simp only [List.length_drop, lines_length] at h ⊢
    omega
  have hLi : L' = (lines dir).getD (k + 1 + i) [] := by
    rw [List.getD_eq_getElem _ _ hi4, ← heq]
    exact List.getElem_drop _
  rw [hLi]
  exact lines_disjoint_idx dir k (List.mem_range.2 hk) (k + 1 + i)
    (List.mem_range.2 (by rw [lines_length] at hi4; omega)) (by omega) pos hpos

theorem resolveUpTo_succ (tiles0 : List Tile) (dir : Direction) {k : Nat} (hk : k < 4) :
    resolveUpTo tiles0 dir (k + 1)
      = processLine (resolveUpTo tiles0 dir k) ((lines dir).getD k []) := by
  have hk4 : k < (lines dir).length := by
    rw [lines_length]
    omega
  unfold resolveUpTo
  rw [List.take_succ, List.getElem?_eq_getElem hk4]
  rw [show (some ((lines dir)[k])).toList = [(lines dir)[k]] from rfl]
  rw [List.foldl_append, List.foldl_cons, List.foldl_nil]
  rw [List.getD_eq_getElem _ _ hk4]

theorem resolve_eq_drop (tiles0 : List Tile) (dir : Direction) (k : Nat) :
    resolve tiles0 dir
      = List.foldl processLine (resolveUpTo tiles0 dir k) ((lines dir).drop k) := by
  unfold resolve resolveUpTo
  rw [← List.foldl_append, List.take_append_drop]

theorem resolveUpTo_inv {tiles0 : List Tile} {dir : Direction} (k : Nat)
    (hw : wfTiles tiles0) : Inv (resolveUpTo tiles0 dir k) := by
  unfold resolveUpTo
  exact inv_foldLines _ _
    (fun L hL => wfLine_lines dir L ((List.take_sublist k (lines dir)).subset hL))
    (inv_initSt hw)

theorem pairwise_lt_getD_ge : ∀ (l : List (Tile × Nat)) (b : Nat),
    l.Pairwise (fun a c => a.2 < c.2) → (∀ q ∈ l, b ≤ q.2) →
    ∀ j, j < l.length → b + j ≤ (l.getD j (default, 0)).2 := by
  intro l
  induction l with
  | nil =>
    intro b _ _ j hj
    simp at hj
  | cons p l ih =>
    intro b hpw hb j hj
    cases j with
    | zero =>
      simpa using hb p (List.mem_cons_self p l)
    | succ j =>
      have hpw2 := List.pairwise_cons.1 hpw
      have hstep := ih (p.2 + 1) hpw2.2 (fun q hq => hpw2.1 q hq) j (by simpa using hj)
      have hbp : b ≤ p.2 := hb p (List.mem_cons_self p l)
      rw [show (p :: l).getD (j + 1) (default, 0) = l.getD j (default, 0) from rfl]
      omega

theorem pairwise_lt_full_idx {l : List (Tile × Nat)} {n : Nat}
    (hpw : l.Pairwise (fun a c => a.2 < c.2)) (hlen : l.length = n)
    (hub : ∀ q ∈ l, q.2 < n) :
    ∀ j, j < n → (l.getD j (default, 0)).2 = j := by
  intro j hj
  have hjl : j < l.length := by omega
  have hlow := pairwise_lt_getD_ge l 0 hpw (fun q _ => Nat.zero_le _) j hjl
  have hpwd : (l.drop j).Pairwise (fun a c => a.2 < c.2) :=
    List.Pairwise.sublist (List.drop_sublist j l) hpw
  have hb : ∀ q ∈ l.drop j, (l.getD j (default, 0)).2 ≤ q.2 := by
    intro q hq
    have hhead : l.drop j = l.getD j (default, 0) :: l.drop (j + 1) := by
      rw [List.drop_eq_getElem_cons hjl, List.getD_eq_getElem _ _ hjl]
    rw [hhead] at hq
    have hpwd2 := hpwd
    rw [hhead] at hpwd2
    rcases List.mem_cons.1 hq with rfl | hq2
    · exact le_rfl
    · exact le_of_lt ((List.pairwise_cons.1 hpwd2).1 q hq2)
  have hup := pairwise_idx_bound (l.drop j) ((l.getD j (default, 0)).2) n hpwd
    (fun q hq => ⟨hb q hq, hub q ((List.drop_sublist j l).subset hq)⟩)
    (le_of_lt (hub _ (getD_mem _ hjl)))
  rw [List.length_drop, hlen] at hup
  omega

theorem line_state_at {tiles0 : List Tile} {dir : Direction} {k : Nat}
    (hw : wfTiles tiles0) (hk : k < 4) {pos : Nat × Nat}
    (hpos : pos ∈ (lines dir).getD k []) :
    cellGet (resolveUpTo tiles0 dir k).grid pos.1 pos.2
        = cellGet (initSt tiles0).grid pos.1 pos.2 ∧
    ∀ i, cellGet (initSt tiles0).grid pos.1 pos.2 = some i →
      heapGet (resolveUpTo tiles0 dir k).tiles i = heapGet (initSt tiles0).tiles i ∧
      i ∉ (resolveUpTo tiles0 dir k).toRemove := by
  have hframe := frame_foldLines ((lines dir).take k) (initSt tiles0)
    ((lines dir).getD k [])
    (fun L hL => wfLine_lines dir L ((List.take_sublist k (lines dir)).subset hL))
    (inv_initSt hw)
    (fun L2 hL2 pos2 hpos2 => take_lines_disjoint hk L2 hL2 pos2 hpos2)
    pos hpos
  refine ⟨hframe.1, fun i hi => ?_⟩
  have h2 := hframe.2 i hi
  exact ⟨h2.1, h2.2 (List.not_mem_nil i)⟩


/-! ### A fully occupied line collects its four tiles in order -/

theorem line_collect_full {tiles0 : List Tile} {dir : Direction} {k : Nat}
    (hw : wfTiles tiles0) (hk : k < 4)
    (hline : ∀ j, j < 4 →
      ∃ t ∈ tiles0, (t.row, t.col) = ((lines dir).getD k []).getD j (0, 0)) :
    ∃ q0 q1 q2 q3 : Tile,
      collectRem (resolveUpTo tiles0 dir k) ((lines dir).getD k [])
        = [(q0, 0), (q1, 1), (q2, 2), (q3, 3)] ∧
      (∀ j, j < 4 → ∀ t ∈ tiles0,
        (t.row, t.col) = ((lines dir).getD k []).getD j (0, 0) →
        ([q0, q1, q2, q3].getD j default).value = t.value ∧
        ([q0, q1, q2, q3].getD j default).merged = false) := by
  have hmemL : (lines dir).getD k [] ∈ lines dir := by
    apply getD_mem
    rw [lines_length]
    omega
  have hwfL := wfLine_lines dir _ hmemL
  have hL4 : ((lines dir).getD k []).length = 4 := hwfL.2.2
  have hinv := @resolveUpTo_inv tiles0 dir k hw
  have hinv0 := inv_initSt hw
  have hcell : ∀ j, j < 4 → ∃ c : Tile, c.merged = false ∧
      cellGet (resolveUpTo tiles0 dir k).grid
          (((lines dir).getD k []).getD j (0, 0)).1
          (((lines dir).getD k []).getD j (0, 0)).2 = some c.id ∧
      heapGet (resolveUpTo tiles0 dir k).tiles c.id = some c ∧
      (∀ t ∈ tiles0, (t.row, t.col) = ((lines dir).getD k []).getD j (0, 0) →
        c.value = t.value) := by
    intro j hj
    obtain ⟨t0, ht0, hp0⟩ := hline j hj
    have hc0 : ({ t0 with merged := false, spawned := false } : Tile)
        ∈ (initSt tiles0).tiles := mem_clearFlags.2 ⟨t0, ht0, rfl⟩
    have hal := (hinv0.alive _ hc0 (List.not_mem_nil _)).2.2
    have hrow : t0.row = (((lines dir).getD k []).getD j (0, 0)).1 :=
      congrArg Prod.fst hp0
    have hcol : t0.col = (((lines dir).getD k []).getD j (0, 0)).2 :=
      congrArg Prod.snd hp0
    have hal2 : cellGet (initSt tiles0).grid
        (((lines dir).getD k []).getD j (0, 0)).1
        (((lines dir).getD k []).getD j (0, 0)).2
          = some ({ t0 with merged := false, spawned := false } : Tile).id := by
      rw [← hrow, ← hcol]
      exact hal
    have hposmem : ((lines dir).getD k []).getD j (0, 0) ∈ (lines dir).getD k [] :=
      getD_mem _ (by omega)
    have hframe := line_state_at hw hk hposmem
    refine ⟨{ t0 with merged := false, spawned := false }, rfl, ?_, ?_, ?_⟩
    · rw [hframe.1]
      exact hal2
    · rw [(hframe.2 _ hal2).1]
      exact heapGet_of_mem hinv0.ids hc0
    · intro t ht hp
      have hteq : t = t0 := by
        apply List.inj_on_of_nodup_map hw.2.2 ht ht0
        show (t.row, t.col) = (t0.row, t0.col)
        rw [hp, hp0]
      rw [hteq]
  obtain ⟨c0, hm0, hg0, hh0, hv0⟩ := hcell 0 (by omega)
  obtain ⟨c1, hm1, hg1, hh1, hv1⟩ := hcell 1 (by omega)
  obtain ⟨c2, hm2, hg2, hh2, hv2⟩ := hcell 2 (by omega)
  obtain ⟨c3, hm3, hg3, hh3, hv3⟩ := hcell 3 (by omega)
  have hfull : ∀ pos ∈ (lines dir).getD k [],
      cellGet (resolveUpTo tiles0 dir k).grid pos.1 pos.2 ≠ none := by
    intro pos hpos
    obtain ⟨j, hj, hjeq⟩ := List.mem_iff_getElem.1 hpos
    have hj4 : j < 4 := by omega
    obtain ⟨c, _, hg, _, _⟩ := hcell j hj4
    rw [← hjeq,
      show ((lines dir).getD k [])[j] = ((lines dir).getD k []).getD j (0, 0) from
        (List.getD_eq_getElem _ _ hj).symm,
      hg]
    simp
  have hclen : (collectRem (resolveUpTo tiles0 dir k) ((lines dir).getD k [])).length
      = 4 := by
    unfold collectRem
    rw [collectFrom_full _ hinv _ 0 hfull]
    exact hL4
  have hpw := collectRem_pairwise (resolveUpTo tiles0 dir k) ((lines dir).getD k []) hinv
  have hub : ∀ q ∈ collectRem (resolveUpTo tiles0 dir k) ((lines dir).getD k []),
      q.2 < 4 := by
    intro q hq
    have h := (collectRem_ok _ _ hinv q hq).1
    omega
  have hidx := pairwise_lt_full_idx hpw hclen hub
  have helem : ∀ j, j < 4 → ∀ c : Tile,
      cellGet (resolveUpTo tiles0 dir k).grid
          (((lines dir).getD k []).getD j (0, 0)).1
          (((lines dir).getD k []).getD j (0, 0)).2 = some c.id →
      heapGet (resolveUpTo tiles0 dir k).tiles c.id = some c →
      (collectRem (resolveUpTo tiles0 dir k) ((lines dir).getD k [])).getD j
          (default, 0) = (c, j) := by
    intro j hj c hg hh
    have hjlen : j < (collectRem (resolveUpTo tiles0 dir k)
        ((lines dir).getD k [])).length := by omega
    have hqmem := getD_mem ((default : Tile), 0) hjlen
    obtain ⟨hqlt, hqcell, hqheap, _, _, hqgrid⟩ := collectRem_ok _ _ hinv _ hqmem
    have hj2 := hidx j hj
    rw [hj2] at hqgrid
    have hcid : c.id = ((collectRem (resolveUpTo tiles0 dir k)
        ((lines dir).getD k [])).getD j (default, 0)).1.id :=
      Option.some.inj (hg.symm.trans hqgrid)
    have hceq : ((collectRem (resolveUpTo tiles0 dir k)
        ((lines dir).getD k [])).getD j (default, 0)).1 = c := by
      rw [← hcid] at hqheap
      exact (Option.some.inj (hh.symm.trans hqheap)).symm
    apply prodExt
    · exact hceq
    · exact hj2
  refine ⟨c0, c1, c2, c3, ?_, ?_⟩
  · apply List.ext_getElem (by rw [hclen]; rfl)
    intro i h1 h2
    have hi4 : i < 4 := by
      simpa using h2
    have hgd : ∀ c : Tile,
        (collectRem (resolveUpTo tiles0 dir k) ((lines dir).getD k [])).getD i
            (default, 0) = (c, i) →
        (collectRem (resolveUpTo tiles0 dir k) ((lines dir).getD k []))[i]
          = (c, i) := by
      intro c hc
      rw [← List.getD_eq_getElem _ (default, 0) h1]
      exact hc
    interval_cases i
    · exact hgd c0 (helem 0 (by omega) c0 hg0 hh0)
    · exact hgd c1 (helem 1 (by omega) c1 hg1 hh1)
    · exact hgd c2 (helem 2 (by omega) c2 hg2 hh2)
    · exact hgd c3 (helem 3 (by omega) c3 hg3 hh3)
  · intro j hj t ht hp
    interval_cases j
    · exact ⟨hv0 t ht hp, hm0⟩
    · exact ⟨hv1 t ht hp, hm1⟩
    · exact ⟨hv2 t ht hp, hm2⟩
    · exact ⟨hv3 t ht hp, hm3⟩


/-! ### The two classic merge scenarios, in the pure model -/

theorem pureFold_line_2222 (coords : List (Nat × Nat)) (t0 t1 t2 t3 : Tile)
    (h0v : t0.value = 2) (h0m : t0.merged = false)
    (h1v : t1.value = 2)
    (h2v : t2.value = 2) (h2m : t2.merged = false)
    (h3v : t3.value = 2) :
    pureFold coords ⟨[], 0, [], false⟩ [(t0, 0), (t1, 1), (t2, 2), (t3, 3)] =
      ⟨[{ t0 with
            row := (coords.getD 0 (0, 0)).1,
            col := (coords.getD 0 (0, 0)).2,
            value := 4,
            merged := true },
        { t2 with
            row := (coords.getD 1 (0, 0)).1,
            col := (coords.getD 1 (0, 0)).2,
            value := 4,
            merged := true }],
       8, [t1.id, t3.id], true⟩ := by
  simp [pureFold, pureStep, purePlace, h0v, h0m, h1v, h2v, h2m, h3v]

theorem pureFold_line_2244 (coords : List (Nat × Nat)) (t0 t1 t2 t3 : Tile)
    (h0v : t0.value = 2) (h0m : t0.merged = false)
    (h1v : t1.value = 2)
    (h2v : t2.value = 4) (h2m : t2.merged = false)
    (h3v : t3.value = 4) :
    pureFold coords ⟨[], 0, [], false⟩ [(t0, 0), (t1, 1), (t2, 2), (t3, 3)] =
      ⟨[{ t0 with
            row := (coords.getD 0 (0, 0)).1,
            col := (coords.getD 0 (0, 0)).2,
            value := 4,
            merged := true },
        { t2 with
            row := (coords.getD 1 (0, 0)).1,
            col := (coords.getD 1 (0, 0)).2,
            value := 8,
            merged := true }],
       12, [t1.id, t3.id], true⟩ := by
  simp [pureFold, pureStep, purePlace, h0v, h0m, h1v, h2v, h2m, h3v]

/-! ### What a processed line contributes to the final board -/

theorem line_result_final {tiles0 : List Tile} {dir : Direction} {k : Nat}
    (hw : wfTiles tiles0) (hk : k < 4) :
    (∀ j, j < (linePure (resolveUpTo tiles0 dir k)
          ((lines dir).getD k [])).placed.length →
      ((linePure (resolveUpTo tiles0 dir k)
          ((lines dir).getD k [])).placed.getD j default)
        ∈ settled (resolve tiles0 dir) ∧
      (((linePure (resolveUpTo tiles0 dir k)
            ((lines dir).getD k [])).placed.getD j default).row,
        ((linePure (resolveUpTo tiles0 dir k)
            ((lines dir).getD k [])).placed.getD j default).col)
          = ((lines dir).getD k []).getD j (0, 0)) ∧
    (∀ j, (linePure (resolveUpTo tiles0 dir k)
          ((lines dir).getD k [])).placed.length ≤ j → j < 4 →
      ∀ t ∈ settled (resolve tiles0 dir),
        (t.row, t.col) ≠ ((lines dir).getD k []).getD j (0, 0)) ∧
    (resolveUpTo tiles0 dir (k + 1)).scoreGain
      = (resolveUpTo tiles0 dir k).scoreGain
        + (linePure (resolveUpTo tiles0 dir k) ((lines dir).getD k [])).score := by
  have hmemL : (lines dir).getD k [] ∈ lines dir := by
    apply getD_mem
    rw [lines_length]
    omega
  have hwfL := wfLine_lines dir _ hmemL
  have hL4 : ((lines dir).getD k []).length = 4 := hwfL.2.2
  have hinvk := @resolveUpTo_inv tiles0 dir k hw
  have res := processLine_res (resolveUpTo tiles0 dir k) ((lines dir).getD k [])
    hwfL hinvk
  have hst1 : processLine (resolveUpTo tiles0 dir k) ((lines dir).getD k [])
      = resolveUpTo tiles0 dir (k + 1) := (resolveUpTo_succ tiles0 dir hk).symm
  have hinv1 : Inv (resolveUpTo tiles0 dir (k + 1)) :=
    resolveUpTo_inv (k + 1) hw
  have hresolve : resolve tiles0 dir = List.foldl processLine
      (resolveUpTo tiles0 dir (k + 1)) ((lines dir).drop (k + 1)) :=
    resolve_eq_drop tiles0 dir (k + 1)
  have hframe := frame_foldLines ((lines dir).drop (k + 1))
    (resolveUpTo tiles0 dir (k + 1)) ((lines dir).getD k [])
    (fun L hL => wfLine_lines dir L ((List.drop_sublist _ _).subset hL))
    hinv1
    (fun L2 hL2 pos hpos => drop_lines_disjoint hk L2 hL2 pos hpos)
  have hinvf := @resolve_inv tiles0 dir hw
  refine ⟨?_, ?_, ?_⟩
  · intro j hj
    have hat := res.placedAt j hj
    rw [hst1] at hat
    obtain ⟨hheap, hpos, hgrid, hrm⟩ := hat
    have hcellmem : ((lines dir).getD k []).getD j (0, 0) ∈ (lines dir).getD k [] := by
      apply getD_mem
      have hle := res.placedLen
      omega
    have hfr := hframe _ hcellmem
    have hfr2 := hfr.2 _ hgrid
    have hheapf : heapGet (resolve tiles0 dir).tiles
        ((linePure (resolveUpTo tiles0 dir k)
          ((lines dir).getD k [])).placed.getD j default).id
        = some ((linePure (resolveUpTo tiles0 dir k)
          ((lines dir).getD k [])).placed.getD j default) := by
      rw [hresolve, hfr2.1]
      exact hheap
    have hrmf : ((linePure (resolveUpTo tiles0 dir k)
        ((lines dir).getD k [])).placed.getD j default).id
        ∉ (resolve tiles0 dir).toRemove := by
      rw [hresolve]
      exact hfr2.2 hrm
    refine ⟨mem_settled.2 ⟨?_, hrmf⟩, hpos⟩
    unfold heapGet at hheapf
    exact List.mem_of_find?_eq_some hheapf
  · intro j hge hlt t ht hcell
    have hfreecell : cellGet (resolveUpTo tiles0 dir (k + 1)).grid
        (((lines dir).getD k []).getD j (0, 0)).1
        (((lines dir).getD k []).getD j (0, 0)).2 = none := by
      rw [← hst1]
      exact res.freeCells j hge (by omega)
    have hcellmem : ((lines dir).getD k []).getD j (0, 0) ∈ (lines dir).getD k [] := by
      apply getD_mem
      omega
    have hfr := hframe _ hcellmem
    have hnonef : cellGet (resolve tiles0 dir).grid
        (((lines dir).getD k []).getD j (0, 0)).1
        (((lines dir).getD k []).getD j (0, 0)).2 = none := by
      rw [hresolve, hfr.1]
      exact hfreecell
    obtain ⟨htm, htrm⟩ := mem_settled.1 ht
    have hal := (hinvf.alive t htm htrm).2.2
    rw [show t.row = (((lines dir).getD k []).getD j (0, 0)).1 from
        congrArg Prod.fst hcell,
      show t.col = (((lines dir).getD k []).getD j (0, 0)).2 from
        congrArg Prod.snd hcell] at hal
    rw [hnonef] at hal
    cases hal
  · rw [resolveUpTo_succ tiles0 dir hk]
    exact res.accScore


/-! ### The claims -/

/-- C1: whenever the four cells of a travel-order line hold tiles of values
`[2, 2, 2, 2]`, resolving a move in that direction leaves `[4, 4]` on the two
leading cells of that line, its two trailing cells empty (so never a triple or
quadruple merge such as `[8]`), and that line contributes a score gain of
exactly 8. -/
theorem claim_C1 {tiles0 : List Tile} {dir : Direction} {k : Nat}
    (hw : wfTiles tiles0) (hk : k < 4)
    (hline : ∀ j, j < 4 → ∃ t ∈ tiles0,
      (t.row, t.col) = ((lines dir).getD k []).getD j (0, 0) ∧ t.value = 2) :
    (∃ a ∈ settled (resolve tiles0 dir),
        (a.row, a.col) = ((lines dir).getD k []).getD 0 (0, 0) ∧ a.value = 4) ∧
    (∃ b ∈ settled (resolve tiles0 dir),
        (b.row, b.col) = ((lines dir).getD k []).getD 1 (0, 0) ∧ b.value = 4) ∧
    (∀ j, 2 ≤ j → j < 4 → ∀ t ∈ settled (resolve tiles0 dir),
        (t.row, t.col) ≠ ((lines dir).getD k []).getD j (0, 0)) ∧
    (resolveUpTo tiles0 dir (k + 1)).scoreGain
      = (resolveUpTo tiles0 dir k).scoreGain + 8 := by
  obtain ⟨q0, q1, q2, q3, hcol, hprop⟩ := line_collect_full hw hk
    (fun j hj => (hline j hj).imp (fun t ht => ⟨ht.1, ht.2.1⟩))
  have hq : ∀ j, j < 4 → ([q0, q1, q2, q3].getD j default).value = 2 ∧
      ([q0, q1, q2, q3].getD j default).merged = false := by
    intro j hj
    obtain ⟨t, ht, hp, hv⟩ := hline j hj
    have hpp := hprop j hj t ht hp
    exact ⟨by rw [hpp.1, hv], hpp.2⟩
  have hq0 := hq 0 (by omega)
  have hq1 := hq 1 (by omega)
  have hq2 := hq 2 (by omega)
  have hq3 := hq 3 (by omega)
  have hlp : linePure (resolveUpTo tiles0 dir k) ((lines dir).getD k [])
      = ⟨[{ q0 with
              row := (((lines dir).getD k []).getD 0 (0, 0)).1,
              col := (((lines dir).getD k []).getD 0 (0, 0)).2,
              value := 4,
              merged := true },
          { q2 with
              row := (((lines dir).getD k []).getD 1 (0, 0)).1,
              col := (((lines dir).getD k []).getD 1 (0, 0)).2,
              value := 4,
              merged := true }],
         8, [q1.id, q3.id], true⟩ := by
    unfold linePure
    rw [hcol]
    exact pureFold_line_2222 _ q0 q1 q2 q3 hq0.1 hq0.2 hq1.1 hq2.1 hq2.2 hq3.1
  obtain ⟨hplaced, hfree, hscore⟩ := @line_result_final tiles0 dir k hw hk
  rw [hlp] at hplaced hfree hscore
  refine ⟨?_, ?_, ?_, ?_⟩
  · have h0 := hplaced 0 (by simp)
    exact ⟨_, h0.1, h0.2, rfl⟩
  · have h1 := hplaced 1 (by simp)
    exact ⟨_, h1.1, h1.2, rfl⟩
  · intro j hj2 hj4 t ht hcell
    exact hfree j (by simpa using hj2) hj4 t ht hcell
  · exact hscore

/-- C1 witness: a concrete board whose top row is `[2, 2, 2, 2]`, slid left. -/
theorem claim_C1_witness :
    wfTiles [(⟨1, 0, 0, 2, false, false⟩ : Tile), ⟨2, 0, 1, 2, false, false⟩,
      ⟨3, 0, 2, 2, false, false⟩, ⟨4, 0, 3, 2, false, false⟩] ∧
    (0 : Nat) < 4 ∧
    ((∃ a ∈ settled (resolve [(⟨1, 0, 0, 2, false, false⟩ : Tile),
          ⟨2, 0, 1, 2, false, false⟩, ⟨3, 0, 2, 2, false, false⟩,
          ⟨4, 0, 3, 2, false, false⟩] Direction.left),
        (a.row, a.col) = ((lines Direction.left).getD 0 []).getD 0 (0, 0) ∧
        a.value = 4) ∧
     (∃ b ∈ settled (resolve [(⟨1, 0, 0, 2, false, false⟩ : Tile),
          ⟨2, 0, 1, 2, false, false⟩, ⟨3, 0, 2, 2, false, false⟩,
          ⟨4, 0, 3, 2, false, false⟩] Direction.left),
        (b.row, b.col) = ((lines Direction.left).getD 0 []).getD 1 (0, 0) ∧
        b.value = 4) ∧
     (∀ j, 2 ≤ j → j < 4 →
       ∀ t ∈ settled (resolve [(⟨1, 0, 0, 2, false, false⟩ : Tile),
          ⟨2, 0, 1, 2, false, false⟩, ⟨3, 0, 2, 2, false, false⟩,
          ⟨4, 0, 3, 2, false, false⟩] Direction.left),
         (t.row, t.col) ≠ ((lines Direction.left).getD 0 []).getD j (0, 0)) ∧
     (resolveUpTo [(⟨1, 0, 0, 2, false, false⟩ : Tile), ⟨2, 0, 1, 2, false, false⟩,
          ⟨3, 0, 2, 2, false, false⟩, ⟨4, 0, 3, 2, false, false⟩] Direction.left 1).scoreGain
       = (resolveUpTo [(⟨1, 0, 0, 2, false, false⟩ : Tile), ⟨2, 0, 1, 2, false, false⟩,
          ⟨3, 0, 2, 2, false, false⟩, ⟨4, 0, 3, 2, false, false⟩] Direction.left 0).scoreGain
         + 8) :=
  ⟨by decide, by decide, claim_C1 (by decide) (by decide) (by decide)⟩

/-- C2: whenever the four cells of a travel-order line hold tiles of values
`[2, 2, 4, 4]`, resolving a move in that direction leaves `[4, 8]` on the two
leading cells — each tile merges at most once per move, so the fresh `4` does
not merge again with the following `4` — its two trailing cells empty, and
that line contributes a score gain of exactly 12. -/
theorem claim_C2 {tiles0 : List Tile} {dir : Direction} {k : Nat}
    (hw : wfTiles tiles0) (hk : k < 4)
    (hline2 : ∀ j, j < 2 → ∃ t ∈ tiles0,
      (t.row, t.col) = ((lines dir).getD k []).getD j (0, 0) ∧ t.value = 2)
    (hline4 : ∀ j, 2 ≤ j → j < 4 → ∃ t ∈ tiles0,
      (t.row, t.col) = ((lines dir).getD k []).getD j (0, 0) ∧ t.value = 4) :
    (∃ a ∈ settled (resolve tiles0 dir),
        (a.row, a.col) = ((lines dir).getD k []).getD 0 (0, 0) ∧ a.value = 4) ∧
    (∃ b ∈ settled (resolve tiles0 dir),
        (b.row, b.col) = ((lines dir).getD k []).getD 1 (0, 0) ∧ b.value = 8) ∧
    (∀ j, 2 ≤ j → j < 4 → ∀ t ∈ settled (resolve tiles0 dir),
        (t.row, t.col) ≠ ((lines dir).getD k []).getD j (0, 0)) ∧
    (resolveUpTo tiles0 dir (k + 1)).scoreGain
      = (resolveUpTo tiles0 dir k).scoreGain + 12 := by
  have hline : ∀ j, j < 4 → ∃ t ∈ tiles0,
      (t.row, t.col) = ((lines dir).getD k []).getD j (0, 0) := by
    intro j hj
    by_cases hj2 : j < 2
    · exact (hline2 j hj2).imp (fun t ht => ⟨ht.1, ht.2.1⟩)
    · exact (hline4 j (by omega) hj).imp (fun t ht => ⟨ht.1, ht.2.1⟩)
  obtain ⟨q0, q1, q2, q3, hcol, hprop⟩ := line_collect_full hw hk hline
  have hqv2 : ∀ j, j < 2 → ([q0, q1, q2, q3].getD j default).value = 2 ∧
      ([q0, q1, q2, q3].getD j default).merged = false := by
    intro j hj
    obtain ⟨t, ht, hp, hv⟩ := hline2 j hj
    have hpp := hprop j (by omega) t ht hp
    exact ⟨by rw [hpp.1, hv], hpp.2⟩
  have hqv4 : ∀ j, 2 ≤ j → j < 4 → ([q0, q1, q2, q3].getD j default).value = 4 ∧
      ([q0, q1, q2, q3].getD j default).merged = false := by
    intro j hj2 hj
    obtain ⟨t, ht, hp, hv⟩ := hline4 j hj2 hj
    have hpp := hprop j (by omega) t ht hp
    exact ⟨by rw [hpp.1, hv], hpp.2⟩
  have hq0 := hqv2 0 (by omega)
  have hq1 := hqv2 1 (by omega)
  have hq2 := hqv4 2 (by omega) (by omega)
  have hq3 := hqv4 3 (by omega) (by omega)
  have hlp : linePure (resolveUpTo tiles0 dir k) ((lines dir).getD k [])
      = ⟨[{ q0 with
              row := (((lines dir).getD k []).getD 0 (0, 0)).1,
              col := (((lines dir).getD k []).getD 0 (0, 0)).2,
              value := 4,
              merged := true },
          { q2 with
              row := (((lines dir).getD k []).getD 1 (0, 0)).1,
              col := (((lines dir).getD k []).getD 1 (0, 0)).2,
              value := 8,
              merged := true }],
         12, [q1.id, q3.id], true⟩ := by
    unfold linePure
    rw [hcol]
    exact pureFold_line_2244 _ q0 q1 q2 q3 hq0.1 hq0.2 hq1.1 hq2.1 hq2.2 hq3.1
  obtain ⟨hplaced, hfree, hscore⟩ := @line_result_final tiles0 dir k hw hk
  rw [hlp] at hplaced hfree hscore
  refine ⟨?_, ?_, ?_, ?_⟩
  · have h0 := hplaced 0 (by simp)
    exact ⟨_, h0.1, h0.2, rfl⟩
  · have h1 := hplaced 1 (by simp)
    exact ⟨_, h1.1, h1.2, rfl⟩
  · intro j hj2 hj4 t ht hcell
    exact hfree j (by simpa using hj2) hj4 t ht hcell
  · exact hscore

/-- C2 witness: a concrete board whose top row is `[2, 2, 4, 4]`, slid left. -/
theorem claim_C2_witness :
    wfTiles [(⟨1, 0, 0, 2, false, false⟩ : Tile), ⟨2, 0, 1, 2, false, false⟩,
      ⟨3, 0, 2, 4, false, false⟩, ⟨4, 0, 3, 4, false, false⟩] ∧
    (0 : Nat) < 4 ∧
    ((∃ a ∈ settled (resolve [(⟨1, 0, 0, 2, false, false⟩ : Tile),
          ⟨2, 0, 1, 2, false, false⟩, ⟨3, 0, 2, 4, false, false⟩,
          ⟨4, 0, 3, 4, false, false⟩] Direction.left),
        (a.row, a.col) = ((lines Direction.left).getD 0 []).getD 0 (0, 0) ∧
        a.value = 4) ∧
     (∃ b ∈ settled (resolve [(⟨1, 0, 0, 2, false, false⟩ : Tile),
          ⟨2, 0, 1, 2, false, false⟩, ⟨3, 0, 2, 4, false, false⟩,
          ⟨4, 0, 3, 4, false, false⟩] Direction.left),
        (b.row, b.col) = ((lines Direction.left).getD 0 []).getD 1 (0, 0) ∧
        b.value = 8) ∧
     (∀ j, 2 ≤ j → j < 4 →
       ∀ t ∈ settled (resolve [(⟨1, 0, 0, 2, false, false⟩ : Tile),
          ⟨2, 0, 1, 2, false, false⟩, ⟨3, 0, 2, 4, false, false⟩,
          ⟨4, 0, 3, 4, false, false⟩] Direction.left),
         (t.row, t.col) ≠ ((lines Direction.left).getD 0 []).getD j (0, 0)) ∧
     (resolveUpTo [(⟨1, 0, 0, 2, false, false⟩ : Tile), ⟨2, 0, 1, 2, false, false⟩,
          ⟨3, 0, 2, 4, false, false⟩, ⟨4, 0, 3, 4, false, false⟩] Direction.left 1).scoreGain
       = (resolveUpTo [(⟨1, 0, 0, 2, false, false⟩ : Tile), ⟨2, 0, 1, 2, false, false⟩,
          ⟨3, 0, 2, 4, false, false⟩, ⟨4, 0, 3, 4, false, false⟩] Direction.left 0).scoreGain
         + 12) :=
  ⟨by decide, by decide, claim_C2 (by decide) (by decide) (by decide) (by decide)⟩


/-- C3: after any move from a well-formed state (with fresh `idSeq` and an
in-range cell draw), the `over` flag is true exactly when the game is not won,
the resulting board has no empty cell, and no two orthogonally adjacent tiles
share a value. -/
theorem claim_C3 {r1 r2 : ℚ} {idSeq : Nat} {prev : GameState} {dir : Direction}
    (hw : wfTiles prev.tiles) (hbound : ∀ t ∈ prev.tiles, t.id < idSeq)
    (h0 : 0 ≤ r1) (h1 : r1 < 1) :
    (move r1 r2 idSeq prev dir).1.over = true ↔
      ((move r1 r2 idSeq prev dir).1.won = false ∧
       emptyCells (move r1 r2 idSeq prev dir).1.tiles = [] ∧
       (∀ t ∈ (move r1 r2 idSeq prev dir).1.tiles,
         ∀ u ∈ (move r1 r2 idSeq prev dir).1.tiles,
           Adjacent t u → t.value ≠ u.value)) := by
  have hwf := (@move_wf r1 r2 idSeq prev dir hw hbound h0 h1).1
  rw [move_over_eq]
  constructor
  · intro h
    rw [Bool.and_eq_true, Bool.not_eq_true', Bool.not_eq_true'] at h
    obtain ⟨hwon, hcan⟩ := h
    refine ⟨hwon, ?_, ?_⟩
    · by_contra hne
      have hcontra : canAnyMove (move r1 r2 idSeq prev dir).1.tiles = true :=
        (canAnyMove_iff hwf).2 (Or.inl hne)
      rw [hcan] at hcontra
      cases hcontra
    · intro t ht u hu hadj hval
      have hcontra : canAnyMove (move r1 r2 idSeq prev dir).1.tiles = true :=
        (canAnyMove_iff hwf).2 (Or.inr ⟨t, ht, u, hu, hadj, hval⟩)
      rw [hcan] at hcontra
      cases hcontra
  · rintro ⟨hwon, hemp, hpair⟩
    rw [Bool.and_eq_true, Bool.not_eq_true', Bool.not_eq_true']
    refine ⟨hwon, ?_⟩
    rw [Bool.eq_false_iff]
    intro hcan
    rcases (canAnyMove_iff hwf).1 hcan with h | ⟨t, ht, u, hu, hadj, hval⟩
    · exact h hemp
    · exact hpair t ht u hu hadj hval

/-- C3 witness: a single `2` on the board, slid left with draws `0`. -/
theorem claim_C3_witness :
    wfTiles [(⟨1, 0, 0, 2, false, false⟩ : Tile)] ∧
    (∀ t ∈ [(⟨1, 0, 0, 2, false, false⟩ : Tile)], t.id < 2) ∧
    (0 : ℚ) ≤ 0 ∧ (0 : ℚ) < 1 ∧
    ((move 0 0 2 (⟨[⟨1, 0, 0, 2, false, false⟩], 0, 0, false, false⟩)
        Direction.left).1.over = true ↔
      ((move 0 0 2 (⟨[⟨1, 0, 0, 2, false, false⟩], 0, 0, false, false⟩)
          Direction.left).1.won = false ∧
       emptyCells (move 0 0 2 (⟨[⟨1, 0, 0, 2, false, false⟩], 0, 0, false, false⟩)
          Direction.left).1.tiles = [] ∧
       (∀ t ∈ (move 0 0 2 (⟨[⟨1, 0, 0, 2, false, false⟩], 0, 0, false, false⟩)
            Direction.left).1.tiles,
         ∀ u ∈ (move 0 0 2 (⟨[⟨1, 0, 0, 2, false, false⟩], 0, 0, false, false⟩)
            Direction.left).1.tiles,
           Adjacent t u → t.value ≠ u.value))) :=
  ⟨by decide, by decide, by decide, by decide,
    claim_C3 (by decide) (by decide) (by decide) (by decide)⟩

/-- C4: `won` is the OR of its previous value with "some settled tile has
value at least 2048"; consequently any state whose tile reaches 2048 sets it,
and once set it stays true through every later move of the game, even after
the 2048 tile is consumed. -/
theorem claim_C4 :
    (∀ (r1 r2 : ℚ) (idSeq : Nat) (prev : GameState) (dir : Direction),
      (move r1 r2 idSeq prev dir).1.won
        = (prev.won ||
            (settled (resolve prev.tiles dir)).any (fun t => decide (2048 ≤ t.value)))) ∧
    (∀ (r1 r2 : ℚ) (idSeq : Nat) (prev : GameState) (dir : Direction) (t : Tile),
      t ∈ settled (resolve prev.tiles dir) → 2048 ≤ t.value →
      (move r1 r2 idSeq prev dir).1.won = true) ∧
    (∀ (p : GameState × Nat) (ms : List (Direction × ℚ × ℚ)),
      p.1.won = true → (applyMoves p ms).1.won = true) :=
  ⟨fun r1 r2 idSeq prev dir => move_won_eq r1 r2 idSeq prev dir,
   fun r1 r2 idSeq prev dir t ht hv => by
     rw [move_won_eq, Bool.or_eq_true]
     right
     rw [List.any_eq_true]
     exact ⟨t, ht, by simpa using hv⟩,
   fun p ms h => won_applyMoves ms p h⟩

/-- C4 witness: a state with `won = true` keeps it through a further move. -/
theorem claim_C4_witness :
    ((⟨⟨[], 5, 5, true, false⟩, 1⟩ : GameState × Nat).1.won = true) ∧
    (applyMoves (⟨⟨[], 5, 5, true, false⟩, 1⟩ : GameState × Nat)
      [(Direction.left, 0, 0)]).1.won = true :=
  ⟨rfl, claim_C4.2.2 (⟨⟨[], 5, 5, true, false⟩, 1⟩ : GameState × Nat)
    [(Direction.left, 0, 0)] rfl⟩

/-- C5: a move whose resolution reports `moved = false` spawns nothing (tile
count and `idSeq` unchanged), leaves the score unchanged, keeps every tile's
id, position and value, and can only report `over = true` if the previous
board was already dead (not won and without any legal move). -/
theorem claim_C5 {r1 r2 : ℚ} {idSeq : Nat} {prev : GameState} {dir : Direction}
    (hw : wfTiles prev.tiles) (hm : (resolve prev.tiles dir).moved = false) :
    (move r1 r2 idSeq prev dir).1.tiles.length = prev.tiles.length ∧
    (move r1 r2 idSeq prev dir).2 = idSeq ∧
    (move r1 r2 idSeq prev dir).1.score = prev.score ∧
    (move r1 r2 idSeq prev dir).1.tiles.map (fun t => (t.id, t.row, t.col, t.value))
      = prev.tiles.map (fun t => (t.id, t.row, t.col, t.value)) ∧
    ((move r1 r2 idSeq prev dir).1.over = true →
      prev.won = false ∧ canAnyMove prev.tiles = false) := by
  rw [move_noMove_spec hw hm]
  refine ⟨by simp [clearFlags_length], rfl, rfl, ?_, ?_⟩
  · show (clearFlags prev.tiles).map (fun t => (t.id, t.row, t.col, t.value))
      = prev.tiles.map (fun t => (t.id, t.row, t.col, t.value))
    unfold clearFlags
    rw [List.map_map]
    rfl
  · intro hover
    have hover2 : (!(prev.won ||
          (clearFlags prev.tiles).any (fun t => decide (2048 ≤ t.value)))
        && !canAnyMove (clearFlags prev.tiles)) = true := hover
    rw [Bool.and_eq_true, Bool.not_eq_true', Bool.not_eq_true'] at hover2
    obtain ⟨hwon, hcan⟩ := hover2
    rw [Bool.or_eq_false_iff] at hwon
    rw [canAnyMove_clearFlags hw] at hcan
    exact ⟨hwon.1, hcan⟩

/-- C5 witness: the already compressed row `[2, 4]` slid left. -/
theorem claim_C5_witness :
    wfTiles [(⟨1, 0, 0, 2, false, false⟩ : Tile), ⟨2, 0, 1, 4, false, false⟩] ∧
    (resolve [(⟨1, 0, 0, 2, false, false⟩ : Tile), ⟨2, 0, 1, 4, false, false⟩]
        Direction.left).moved = false ∧
    ((move 0 0 3 (⟨[⟨1, 0, 0, 2, false, false⟩, ⟨2, 0, 1, 4, false, false⟩],
          7, 9, false, false⟩) Direction.left).1.tiles.length
        = (⟨[⟨1, 0, 0, 2, false, false⟩, ⟨2, 0, 1, 4, false, false⟩],
          7, 9, false, false⟩ : GameState).tiles.length ∧
      (move 0 0 3 (⟨[⟨1, 0, 0, 2, false, false⟩, ⟨2, 0, 1, 4, false, false⟩],
          7, 9, false, false⟩) Direction.left).2 = 3 ∧
      (move 0 0 3 (⟨[⟨1, 0, 0, 2, false, false⟩, ⟨2, 0, 1, 4, false, false⟩],
          7, 9, false, false⟩) Direction.left).1.score
        = (⟨[⟨1, 0, 0, 2, false, false⟩, ⟨2, 0, 1, 4, false, false⟩],
          7, 9, false, false⟩ : GameState).score ∧
      (move 0 0 3 (⟨[⟨1, 0, 0, 2, false, false⟩, ⟨2, 0, 1, 4, false, false⟩],
          7, 9, false, false⟩) Direction.left).1.tiles.map
          (fun t => (t.id, t.row, t.col, t.value))
        = (⟨[⟨1, 0, 0, 2, false, false⟩, ⟨2, 0, 1, 4, false, false⟩],
          7, 9, false, false⟩ : GameState).tiles.map
          (fun t => (t.id, t.row, t.col, t.value)) ∧
      ((move 0 0 3 (⟨[⟨1, 0, 0, 2, false, false⟩, ⟨2, 0, 1, 4, false, false⟩],
          7, 9, false, false⟩) Direction.left).1.over = true →
        (⟨[⟨1, 0, 0, 2, false, false⟩, ⟨2, 0, 1, 4, false, false⟩],
          7, 9, false, false⟩ : GameState).won = false ∧
        canAnyMove (⟨[⟨1, 0, 0, 2, false, false⟩, ⟨2, 0, 1, 4, false, false⟩],
          7, 9, false, false⟩ : GameState).tiles = false)) :=
  ⟨by decide, by decide, claim_C5 (by decide) (by decide)⟩


/-- C6 (amended): after an effective move the spawner adds exactly one tile to
the compressed board (the pre-move tile count may stay the same when merges
occurred, see the counterexample); the new tile's value is 2, or 4 exactly
when the value draw is below 1/10; and its cell is the empty cell indexed by
`⌊r1·len⌋`, which picks each empty cell on an interval of draws of equal
length `1/len` — the uniform choice. -/
theorem claim_C6 {r1 r2 : ℚ} {idSeq : Nat} {prev : GameState} {dir : Direction}
    (hw : wfTiles prev.tiles) (hm : (resolve prev.tiles dir).moved = true)
    (h0 : 0 ≤ r1) (h1 : r1 < 1) :
    (move r1 r2 idSeq prev dir).1.tiles.length
        = (settled (resolve prev.tiles dir)).length + 1 ∧
    (∃ t : Tile,
      (move r1 r2 idSeq prev dir).1.tiles
        = settled (resolve prev.tiles dir) ++ [t] ∧
      (t.value = 2 ∨ t.value = 4) ∧
      (t.value = 4 ↔ r2 < 1 / 10) ∧
      (t.row, t.col) = (emptyCells (settled (resolve prev.tiles dir))).getD
          (Int.toNat ⌊r1 *
            ((emptyCells (settled (resolve prev.tiles dir))).length : ℚ)⌋) (0, 0) ∧
      (t.row, t.col) ∈ emptyCells (settled (resolve prev.tiles dir))) ∧
    (∀ j, j < (emptyCells (settled (resolve prev.tiles dir))).length →
      (Int.toNat ⌊r1 *
          ((emptyCells (settled (resolve prev.tiles dir))).length : ℚ)⌋ = j ↔
        ((j : ℚ) / (emptyCells (settled (resolve prev.tiles dir))).length ≤ r1 ∧
         r1 < ((j : ℚ) + 1) /
          (emptyCells (settled (resolve prev.tiles dir))).length))) := by
  have hne := moved_empty hw hm
  obtain ⟨hmt, hms⟩ := @move_moved_tiles r1 r2 idSeq prev dir hm
  have hsp := @randomSpawn_eq r1 r2 idSeq (settled (resolve prev.tiles dir)) hne
  have hlen0 : 0 < (emptyCells (settled (resolve prev.tiles dir))).length :=
    List.length_pos.2 hne
  refine ⟨?_, ?_, ?_⟩
  · rw [hmt, hsp]
    simp
  · refine ⟨⟨idSeq,
      ((emptyCells (settled (resolve prev.tiles dir))).getD
        (Int.toNat ⌊r1 *
          ((emptyCells (settled (resolve prev.tiles dir))).length : ℚ)⌋) (0, 0)).1,
      ((emptyCells (settled (resolve prev.tiles dir))).getD
        (Int.toNat ⌊r1 *
          ((emptyCells (settled (resolve prev.tiles dir))).length : ℚ)⌋) (0, 0)).2,
      if r2 < 1 / 10 then 4 else 2, true, false⟩, ?_, ?_, ?_, ?_, ?_⟩
    · rw [hmt, hsp]
    · show ((if r2 < 1 / 10 then (4 : Nat) else 2) = 2) ∨
        ((if r2 < 1 / 10 then (4 : Nat) else 2) = 4)
      by_cases hv : r2 < 1 / 10
      · right
        rw [if_pos hv]
      · left
        rw [if_neg hv]
    · constructor
      · intro h4
        by_contra hv
        have h4b : (if r2 < 1 / 10 then (4 : Nat) else 2) = 4 := h4
        rw [if_neg hv] at h4b
        exact absurd h4b (by norm_num)
      · intro hv
        show (if r2 < 1 / 10 then (4 : Nat) else 2) = 4
        rw [if_pos hv]
    · rfl
    · exact randomSpawn_cell_mem h0 h1 hne
  · intro j hj
    exact spawn_cell_uniform h0 h1 hlen0 j hj

/-- C6 witness: the row `[2, 2]` slid left merges and a fresh tile spawns. -/
theorem claim_C6_witness :
    wfTiles [(⟨1, 0, 0, 2, false, false⟩ : Tile), ⟨2, 0, 1, 2, false, false⟩] ∧
    (resolve [(⟨1, 0, 0, 2, false, false⟩ : Tile), ⟨2, 0, 1, 2, false, false⟩]
        Direction.left).moved = true ∧
    (0 : ℚ) ≤ 0 ∧ (0 : ℚ) < 1 ∧
    (move 0 (1 / 2) 3 (⟨[⟨1, 0, 0, 2, false, false⟩, ⟨2, 0, 1, 2, false, false⟩],
        0, 0, false, false⟩) Direction.left).1.tiles.length
      = (settled (resolve [(⟨1, 0, 0, 2, false, false⟩ : Tile),
          ⟨2, 0, 1, 2, false, false⟩] Direction.left)).length + 1 :=
  ⟨by decide, by decide, by decide, by decide,
    (claim_C6 (by decide) (by decide) (by decide) (by decide)).1⟩

/-- C6 counterexample: on the board `[2, 2]` the move left merges, so the
total tile count after the move (merged tile plus spawn) equals the pre-move
count of 2 — it does not increase by exactly 1 relative to the pre-move
board, refuting the literal reading of the claim. -/
theorem claim_C6_counterexample :
    (resolve [(⟨1, 0, 0, 2, false, false⟩ : Tile), ⟨2, 0, 1, 2, false, false⟩]
        Direction.left).moved = true ∧
    (⟨[⟨1, 0, 0, 2, false, false⟩, ⟨2, 0, 1, 2, false, false⟩], 0, 0, false,
        false⟩ : GameState).tiles.length = 2 ∧
    (move 0 (1 / 2) 3 (⟨[⟨1, 0, 0, 2, false, false⟩, ⟨2, 0, 1, 2, false, false⟩],
        0, 0, false, false⟩) Direction.left).1.tiles.length = 2 := by
  refine ⟨by decide, by decide, by decide⟩

/-- C7 (amended): `best` after a sequence of moves is the maximum of its value
before the sequence and every score observed along it (so it can exceed the
maximum observed score, see the counterexample); each move takes the max of
the previous best with the new score, and `newGame` resets the score but
keeps `best`. -/
theorem claim_C7 :
    (∀ (p : GameState × Nat) (ms : List (Direction × ℚ × ℚ)),
      (applyMoves p ms).1.best = max p.1.best ((scoresOf p ms).foldr max 0)) ∧
    (∀ (r1 r2 : ℚ) (idSeq : Nat) (prev : GameState) (dir : Direction),
      (move r1 r2 idSeq prev dir).1.best
        = max prev.best (move r1 r2 idSeq prev dir).1.score) ∧
    (∀ (r1 r2 r3 r4 : ℚ) (s : GameState),
      (newGame r1 r2 r3 r4 s).1.best = s.best ∧
      (newGame r1 r2 r3 r4 s).1.score = 0 ∧
      (newGame r1 r2 r3 r4 s).1.won = false ∧
      (newGame r1 r2 r3 r4 s).1.over = false) :=
  ⟨fun p ms => best_applyMoves ms p,
   fun r1 r2 idSeq prev dir => by rw [move_best_eq, move_score_eq],
   fun r1 r2 r3 r4 s => ⟨rfl, rfl, rfl, rfl⟩⟩

/-- C7 counterexample: starting with `best = 100` and merging `[2, 2]` (the
only score observed is 4), `best` stays 100, which differs from the maximum
score observed across the sequence — refuting the literal reading of the
claim. -/
theorem claim_C7_counterexample :
    (applyMoves (⟨⟨[⟨1, 0, 0, 2, false, false⟩, ⟨2, 0, 1, 2, false, false⟩],
        0, 100, false, false⟩, 3⟩ : GameState × Nat)
      [(Direction.left, 0, 1 / 2)]).1.best = 100 ∧
    ((scoresOf (⟨⟨[⟨1, 0, 0, 2, false, false⟩, ⟨2, 0, 1, 2, false, false⟩],
        0, 100, false, false⟩, 3⟩ : GameState × Nat)
      [(Direction.left, 0, 1 / 2)]).foldr max 0) = 4 := by
  refine ⟨by decide, by decide⟩

/-- C8: when a direction's resolution reports `moved = false`, repeating the
move from the resulting state (with any fresh random draws) returns exactly
the same `GameState` and `idSeq` — the no-op move has no hidden side
effects. -/
theorem claim_C8 {r1 r2 r3 r4 : ℚ} {idSeq : Nat} {prev : GameState}
    {dir : Direction} (hw : wfTiles prev.tiles)
    (hm : (resolve prev.tiles dir).moved = false) :
    move r3 r4 (move r1 r2 idSeq prev dir).2 (move r1 r2 idSeq prev dir).1 dir
      = move r1 r2 idSeq prev dir := by
  have h1 := @move_noMove_spec r1 r2 idSeq prev dir hw hm
  have hw2 : wfTiles (move r1 r2 idSeq prev dir).1.tiles := by
    rw [h1]
    exact wfTiles_clearFlags hw
  have hm2 : (resolve (move r1 r2 idSeq prev dir).1.tiles dir).moved = false := by
    rw [h1]
    show (resolve (clearFlags prev.tiles) dir).moved = false
    rw [resolve_clearFlags]
    exact hm
  have h2 := @move_noMove_spec r3 r4 (move r1 r2 idSeq prev dir).2
    (move r1 r2 idSeq prev dir).1 dir hw2 hm2
  rw [h2, h1]
  apply prodExt
  · apply gameStateExt
    · show clearFlags (clearFlags prev.tiles) = clearFlags prev.tiles
      exact clearFlags_idem prev.tiles
    · rfl
    · show max (max prev.best prev.score) prev.score = max prev.best prev.score
      rw [max_assoc, max_self]
    · show ((prev.won ||
            (clearFlags prev.tiles).any (fun t => decide (2048 ≤ t.value)))
          || (clearFlags (clearFlags prev.tiles)).any
              (fun t => decide (2048 ≤ t.value)))
        = (prev.won ||
            (clearFlags prev.tiles).any (fun t => decide (2048 ≤ t.value)))
      rw [clearFlags_idem, Bool.or_assoc, Bool.or_self]
    · show (!((prev.won ||
              (clearFlags prev.tiles).any (fun t => decide (2048 ≤ t.value)))
            || (clearFlags (clearFlags prev.tiles)).any
                (fun t => decide (2048 ≤ t.value)))
          && !canAnyMove (clearFlags (clearFlags prev.tiles)))
        = (!(prev.won ||
              (clearFlags prev.tiles).any (fun t => decide (2048 ≤ t.value)))
          && !canAnyMove (clearFlags prev.tiles))
      rw [clearFlags_idem, Bool.or_assoc, Bool.or_self]
  · rfl

/-- C8 witness: repeating the ineffective left move on `[2, 4]`. -/
theorem claim_C8_witness :
    wfTiles [(⟨1, 0, 0, 2, false, false⟩ : Tile), ⟨2, 0, 1, 4, false, false⟩] ∧
    (resolve [(⟨1, 0, 0, 2, false, false⟩ : Tile), ⟨2, 0, 1, 4, false, false⟩]
        Direction.left).moved = false ∧
    move (1 / 3) (1 / 7)
        (move 0 0 3 (⟨[⟨1, 0, 0, 2, false, false⟩, ⟨2, 0, 1, 4, false, false⟩],
          7, 9, false, false⟩) Direction.left).2
        (move 0 0 3 (⟨[⟨1, 0, 0, 2, false, false⟩, ⟨2, 0, 1, 4, false, false⟩],
          7, 9, false, false⟩) Direction.left).1 Direction.left
      = move 0 0 3 (⟨[⟨1, 0, 0, 2, false, false⟩, ⟨2, 0, 1, 4, false, false⟩],
          7, 9, false, false⟩) Direction.left :=
  ⟨by decide, by decide, claim_C8 (by decide) (by decide)⟩

/-- C9: `newGame` (with in-range cell draws) establishes, and `move` (from a
fresh `idSeq` and an in-range cell draw) preserves, the board invariants:
tiles sit on the 4×4 board with distinct ids and at most one tile per cell,
and every tile's value is a power of two at least 2. -/
theorem claim_C9 :
    (∀ (r1 r2 r3 r4 : ℚ) (s : GameState), 0 ≤ r1 → r1 < 1 → 0 ≤ r3 → r3 < 1 →
      wfTiles (newGame r1 r2 r3 r4 s).1.tiles ∧
      (∀ t ∈ (newGame r1 r2 r3 r4 s).1.tiles, t.id < (newGame r1 r2 r3 r4 s).2) ∧
      (∀ t ∈ (newGame r1 r2 r3 r4 s).1.tiles, IsPow t.value)) ∧
    (∀ (r1 r2 : ℚ) (idSeq : Nat) (prev : GameState) (dir : Direction),
      wfTiles prev.tiles → (∀ t ∈ prev.tiles, t.id < idSeq) →
      (∀ t ∈ prev.tiles, IsPow t.value) → 0 ≤ r1 → r1 < 1 →
      wfTiles (move r1 r2 idSeq prev dir).1.tiles ∧
      (∀ t ∈ (move r1 r2 idSeq prev dir).1.tiles,
        t.id < (move r1 r2 idSeq prev dir).2) ∧
      (∀ t ∈ (move r1 r2 idSeq prev dir).1.tiles, IsPow t.value)) :=
  ⟨fun r1 r2 r3 r4 s h0 h1 h2 h3 => newGame_wf h0 h1 h2 h3,
   fun r1 r2 idSeq prev dir hw hb hg h0 h1 =>
     ⟨(move_wf hw hb h0 h1).1, (move_wf hw hb h0 h1).2, move_values hg⟩⟩

/-- C9 witness: a fresh game with draws `0, 0, 1/2, 0`, and a move on the
empty board. -/
theorem claim_C9_witness :
    ((0 : ℚ) ≤ 0 ∧ (0 : ℚ) < 1 ∧ (0 : ℚ) ≤ 1 / 2 ∧ (1 / 2 : ℚ) < 1 ∧
      wfTiles (newGame 0 0 (1 / 2) 0 (⟨[], 0, 7, false, false⟩)).1.tiles) ∧
    (wfTiles (⟨[], 0, 7, false, false⟩ : GameState).tiles ∧
      wfTiles (move 0 0 1 (⟨[], 0, 7, false, false⟩) Direction.up).1.tiles) :=
  ⟨⟨by norm_num, by norm_num, by norm_num, by norm_num,
    (claim_C9.1 0 0 (1 / 2) 0 (⟨[], 0, 7, false, false⟩)
      (by norm_num) (by norm_num) (by norm_num) (by norm_num)).1⟩,
   ⟨by decide,
    (claim_C9.2 0 0 1 (⟨[], 0, 7, false, false⟩) Direction.up (by decide)
      (by decide) (fun t ht => absurd ht (List.not_mem_nil t))
      (by norm_num) (by norm_num)).1⟩⟩

/-- C10: whenever the resolution of a move reports `moved = true`, the
compressed board (before spawning) still has an empty cell, so the spawner's
no-empty-cells guard is not taken on that call: a tile is appended and the id
counter advances. -/
theorem claim_C10 {r1 r2 : ℚ} {idSeq : Nat} {prev : GameState} {dir : Direction}
    (hw : wfTiles prev.tiles) (hm : (resolve prev.tiles dir).moved = true) :
    emptyCells (settled (resolve prev.tiles dir)) ≠ [] ∧
    (move r1 r2 idSeq prev dir).1.tiles.length
      = (settled (resolve prev.tiles dir)).length + 1 ∧
    (move r1 r2 idSeq prev dir).2 = idSeq + 1 := by
  have hne := moved_empty hw hm
  obtain ⟨hmt, hms⟩ := @move_moved_tiles r1 r2 idSeq prev dir hm
  have hsp := @randomSpawn_eq r1 r2 idSeq (settled (resolve prev.tiles dir)) hne
  refine ⟨hne, ?_, ?_⟩
  · rw [hmt, hsp]
    simp
  · rw [hms, hsp]

/-- C10 witness: the merging row `[2, 2]` slid left. -/
theorem claim_C10_witness :
    wfTiles [(⟨1, 0, 0, 2, false, false⟩ : Tile), ⟨2, 0, 1, 2, false, false⟩] ∧
    (resolve [(⟨1, 0, 0, 2, false, false⟩ : Tile), ⟨2, 0, 1, 2, false, false⟩]
        Direction.left).moved = true ∧
    (emptyCells (settled (resolve [(⟨1, 0, 0, 2, false, false⟩ : Tile),
        ⟨2, 0, 1, 2, false, false⟩] Direction.left)) ≠ [] ∧
      (move (1 / 5) (1 / 2) 3 (⟨[⟨1, 0, 0, 2, false, false⟩,
          ⟨2, 0, 1, 2, false, false⟩], 0, 0, false, false⟩)
          Direction.left).1.tiles.length
        = (settled (resolve [(⟨1, 0, 0, 2, false, false⟩ : Tile),
            ⟨2, 0, 1, 2, false, false⟩] Direction.left)).length + 1 ∧
      (move (1 / 5) (1 / 2) 3 (⟨[⟨1, 0, 0, 2, false, false⟩,
          ⟨2, 0, 1, 2, false, false⟩], 0, 0, false, false⟩) Direction.left).2
        = 3 + 1) :=
  ⟨by decide, by decide,
    @claim_C10 (1 / 5) (1 / 2) 3
      (⟨[⟨1, 0, 0, 2, false, false⟩, ⟨2, 0, 1, 2, false, false⟩],
        0, 0, false, false⟩) Direction.left (by decide) (by decide)⟩

end Game2048
